import Mathlib

/-!
Toroidal quadtree (`toroidalquadtree.go`)

A shallow embedding of the Go package `toroquatre`, in two readings of `float64`.

Modelling conventions.

* The definitions of the namespace `Toroquatre` read a `float64` coordinate as the
  rational it denotes and the mean of `medianLocation` as the exact mean: the code only
  compares coordinates and averages two of them, and the order of finite floats is the
  order of the rationals they denote. This reading follows the code on the runs in
  which no coordinate is NaN or infinite and no mean is rounded.
* The definitions of the namespace `Toroquatre.F64` repeat the same functions over the
  binary64 values: NaN, the two infinities, and the finite numbers with the rounding
  and the overflow of a sum and of a quotient. They are evaluated on the runs that the
  first reading does not cover.
* `uint64` identifiers are modelled by `Nat` (the code only compares them for equality),
  `int` fields (`nodeLimit`, `count`) by `Int`.
* The Go map `leafMap` is an association list with at most one entry per key; reading an
  absent key yields the zero `Vector`, as a Go map does.
* A `*tree` either has all four `branches` nil or all four set (`subdivide` sets the
  four together, the merge in `remove` clears the four together), so a tree is one of
  two constructors; both keep every field of the Go struct except the back pointer
  `tqt`, whose `nodeLimit` and `leafMap` are passed as arguments.
* A Go run-time panic (nil dereference, index out of range, `make` capacity out of
  range) is the result `none`. The upper limit of a `make` capacity is checked in `New`,
  where the capacity is an argument of the caller. The other calls of `make` pass the
  `nodeLimit` that `New` has accepted or the `count` of a tree, which is the number of
  ids it stores; for them only the negative capacity is modelled. Exhaustion of the
  memory of the machine is outside the model.
-/

namespace Toroquatre

/-- A point of the plane, `type Vector struct { X, Y float64 }`. -/
structure Vector where
  X : ℚ
  Y : ℚ
deriving DecidableEq

/-- The Go map `map[uint64]Vector`. -/
abbrev LeafMap := List (Nat × Vector)

/-- The two-valued map read `v, ok := m[id]`. -/
def mapGet : LeafMap → Nat → Option Vector
  | [], _ => none
  | (k, v) :: rest, id => if k = id then some v else mapGet rest id

/-- The one-valued map read `m[id]`: the zero value when the key is absent. -/
def mapIndex (m : LeafMap) (id : Nat) : Vector :=
  (mapGet m id).getD ⟨0, 0⟩

/-- The map update `delete(m, id)`. -/
def mapDelete (m : LeafMap) (id : Nat) : LeafMap :=
  m.filter (fun e => decide (e.1 ≠ id))

/-- The map update `m[id] = p`. -/
def mapSet (m : LeafMap) (id : Nat) (p : Vector) : LeafMap :=
  (id, p) :: mapDelete m id

/-- The map size `len(m)`. -/
def mapLen (m : LeafMap) : Nat := m.length

/-- The Go struct `tree`: `leaf` when `branches[0] == nil`, `node` otherwise. -/
inductive tree where
  | leaf (topLeft bottomRight : Vector) (leaves : List Nat) (count : Int)
  | node (topLeft bottomRight : Vector) (leaves : List Nat)
      (b0 b1 b2 b3 : tree) (count : Int)
deriving DecidableEq

namespace tree

/-- Field `topLeft`. -/
def topLeft : tree → Vector
  | leaf tl _ _ _ => tl
  | node tl _ _ _ _ _ _ _ => tl

/-- Field `bottomRight`. -/
def bottomRight : tree → Vector
  | leaf _ br _ _ => br
  | node _ br _ _ _ _ _ _ => br

/-- Field `leaves`. -/
def leaves : tree → List Nat
  | leaf _ _ ls _ => ls
  | node _ _ ls _ _ _ _ _ => ls

/-- Field `count`. -/
def count : tree → Int
  | leaf _ _ _ c => c
  | node _ _ _ _ _ _ _ c => c

/-- The test `t.branches[0] != nil`. -/
def isNode : tree → Bool
  | leaf _ _ _ _ => false
  | node _ _ _ _ _ _ _ _ => true

end tree

/-- The Go struct `ToroidalQuadtree`. -/
structure ToroidalQuadtree where
  nodeLimit : Int
  leafMap : LeafMap
  root : tree
deriving DecidableEq

/-- Function `medianLocation`: the per-axis median of the coordinates of `ids`;
`none` is the index-out-of-range panic on an empty list. -/
def medianLocation (ids : List Nat) (leafMap : LeafMap) : Option Vector :=
  let sortedX := (ids.map fun id => (mapIndex leafMap id).X).insertionSort (· ≤ ·)
  let sortedY := (ids.map fun id => (mapIndex leafMap id).Y).insertionSort (· ≤ ·)
  if ids.length % 2 = 0 then
    let idx1 := ids.length / 2
    let idx2 := idx1 - 1
    match sortedX[idx1]?, sortedX[idx2]?, sortedY[idx1]?, sortedY[idx2]? with
    | some x1, some x2, some y1, some y2 => some ⟨(x1 + x2) / 2, (y1 + y2) / 2⟩
    | _, _, _, _ => none
  else
    let idx := ids.length / 2
    match sortedX[idx]?, sortedY[idx]? with
    | some x, some y => some ⟨x, y⟩
    | _, _ => none

/-- The four-way `switch` that `subdivide`, `put` and `remove` each spell out:
the quadrant of `loc` about `median`. -/
def destRegion (loc median : Vector) : Fin 4 :=
  if loc.X < median.X ∧ loc.Y < median.Y then 0
  else if loc.X ≥ median.X ∧ loc.Y < median.Y then 1
  else if loc.X < median.X ∧ loc.Y ≥ median.Y then 2
  else 3

/-- The two statements `t.leaves = append(t.leaves, id); t.count++` on a branch. -/
def tree.addLeaf : tree → Nat → tree
  | .leaf tl br ls c, id => .leaf tl br (ls ++ [id]) (c + 1)
  | .node tl br ls b0 b1 b2 b3 c, id => .node tl br (ls ++ [id]) b0 b1 b2 b3 (c + 1)

/-- The loop of `subdivide` that moves every id into the branch of its quadrant. -/
def refile (leafMap : LeafMap) (median : Vector) :
    List Nat → tree × tree × tree × tree → tree × tree × tree × tree
  | [], bs => bs
  | id :: rest, (b0, b1, b2, b3) =>
    match destRegion (mapIndex leafMap id) median with
    | 0 => refile leafMap median rest (b0.addLeaf id, b1, b2, b3)
    | 1 => refile leafMap median rest (b0, b1.addLeaf id, b2, b3)
    | 2 => refile leafMap median rest (b0, b1, b2.addLeaf id, b3)
    | 3 => refile leafMap median rest (b0, b1, b2, b3.addLeaf id)

/-- Method `subdivide`: split `t` at the median of its ids into four branches. -/
def tree.subdivide (nodeLimit : Int) (leafMap : LeafMap) (t : tree) : Option tree :=
  match medianLocation t.leaves leafMap with
  | none => none
  | some median =>
    if nodeLimit < 0 then none
    else
      let bs := refile leafMap median t.leaves
        (.leaf t.topLeft median [] 0,
         .leaf ⟨median.X, t.topLeft.Y⟩ ⟨t.bottomRight.X, median.Y⟩ [] 0,
         .leaf ⟨t.topLeft.X, median.Y⟩ ⟨median.X, t.bottomRight.Y⟩ [] 0,
         .leaf median t.bottomRight [] 0)
      some (.node t.topLeft t.bottomRight [] bs.1 bs.2.1 bs.2.2.1 bs.2.2.2 t.count)

/-- The statement `t.count++`. -/
def tree.incCount : tree → tree
  | .leaf tl br ls c => .leaf tl br ls (c + 1)
  | .node tl br ls b0 b1 b2 b3 c => .node tl br ls b0 b1 b2 b3 (c + 1)

/-- Method `put`. -/
def tree.put (nodeLimit : Int) (leafMap : LeafMap) : tree → Nat → Vector → Option tree
  | .leaf tl br ls c, id, _ =>
    if ((ls ++ [id]).length : Int) > nodeLimit then
      (tree.subdivide nodeLimit leafMap (.leaf tl br (ls ++ [id]) c)).map tree.incCount
    else some (.leaf tl br (ls ++ [id]) (c + 1))
  | .node tl br ls b0 b1 b2 b3 c, id, p =>
    match destRegion p b0.bottomRight with
    | 0 => (tree.put nodeLimit leafMap b0 id p).map
        fun b => .node tl br ls b b1 b2 b3 (c + 1)
    | 1 => (tree.put nodeLimit leafMap b1 id p).map
        fun b => .node tl br ls b0 b b2 b3 (c + 1)
    | 2 => (tree.put nodeLimit leafMap b2 id p).map
        fun b => .node tl br ls b0 b1 b b3 (c + 1)
    | 3 => (tree.put nodeLimit leafMap b3 id p).map
        fun b => .node tl br ls b0 b1 b2 b (c + 1)

/-- The first loop of `remove`, run on `leaves[:len-1]`: overwrite the first
occurrence of `id` by `last`. -/
def overwriteFirst (id last : Nat) : List Nat → List Nat
  | [] => []
  | x :: xs => if x = id then last :: xs else x :: overwriteFirst id last xs

/-- The leaf part of `remove`: overwrite `id` by the last element if it occurs before
the last position, then drop the last position. -/
def removeLeaf (ls : List Nat) (id : Nat) : List Nat :=
  match ls.getLast? with
  | none => ls
  | some last => overwriteFirst id last ls.dropLast

/-- The tail of `remove`: `t.count--`, then the merge of the four branches when the
count has fallen below `nodeLimit - 1`. -/
def tree.decAndMerge (nodeLimit : Int) : tree → Option tree
  | .leaf tl br ls c => some (.leaf tl br ls (c - 1))
  | .node tl br ls b0 b1 b2 b3 c =>
    if c - 1 < nodeLimit - 1 then
      if nodeLimit < 0 then none
      else some (.leaf tl br (b0.leaves ++ b1.leaves ++ b2.leaves ++ b3.leaves) (c - 1))
    else some (.node tl br ls b0 b1 b2 b3 (c - 1))

/-- Method `remove`; the map is threaded because every level runs `delete(leafMap, id)`. -/
def tree.remove (nodeLimit : Int) : tree → Nat → LeafMap → Option (tree × LeafMap)
  | .leaf tl br ls c, id, leafMap =>
    if ls.length ≠ 0 then
      (tree.decAndMerge nodeLimit (.leaf tl br (removeLeaf ls id) c)).map
        fun t => (t, mapDelete leafMap id)
    else none
  | .node tl br ls b0 b1 b2 b3 c, id, leafMap =>
    if ls.length ≠ 0 then
      (tree.decAndMerge nodeLimit (.node tl br (removeLeaf ls id) b0 b1 b2 b3 c)).map
        fun t => (t, mapDelete leafMap id)
    else
      match destRegion (mapIndex leafMap id) b0.bottomRight with
      | 0 =>
        match tree.remove nodeLimit b0 id leafMap with
        | none => none
        | some (b, m) => (tree.decAndMerge nodeLimit (.node tl br ls b b1 b2 b3 c)).map
            fun t => (t, mapDelete m id)
      | 1 =>
        match tree.remove nodeLimit b1 id leafMap with
        | none => none
        | some (b, m) => (tree.decAndMerge nodeLimit (.node tl br ls b0 b b2 b3 c)).map
            fun t => (t, mapDelete m id)
      | 2 =>
        match tree.remove nodeLimit b2 id leafMap with
        | none => none
        | some (b, m) => (tree.decAndMerge nodeLimit (.node tl br ls b0 b1 b b3 c)).map
            fun t => (t, mapDelete m id)
      | 3 =>
        match tree.remove nodeLimit b3 id leafMap with
        | none => none
        | some (b, m) => (tree.decAndMerge nodeLimit (.node tl br ls b0 b1 b2 b c)).map
            fun t => (t, mapDelete m id)

/-- Function `isWithin`: the point-in-rectangle test, wrapped on an axis whose
`topLeft` is not below its `bottomRight`. -/
def isWithin (loc topLeft bottomRight : Vector) : Bool :=
  if (if topLeft.X < bottomRight.X
      then decide (loc.X < topLeft.X ∨ loc.X ≥ bottomRight.X)
      else decide (loc.X < topLeft.X ∧ loc.X ≥ bottomRight.X)) then false
  else if (if topLeft.Y < bottomRight.Y
      then decide (loc.Y < topLeft.Y ∨ loc.Y ≥ bottomRight.Y)
      else decide (loc.Y < topLeft.Y ∧ loc.Y ≥ bottomRight.Y)) then false
  else true

/-- Function `regionWithin`: the overlap test of the query `r` with a region. -/
def regionWithin (rTopLeft rBottomRight topLeft bottomRight : Vector) : Bool :=
  if (if rTopLeft.X < rBottomRight.X
      then decide (rTopLeft.X ≥ bottomRight.X ∨ rBottomRight.X ≤ topLeft.X)
      else decide (rTopLeft.X ≥ bottomRight.X ∧ rBottomRight.X ≤ topLeft.X)) then false
  else if (if rTopLeft.Y < rBottomRight.Y
      then decide (rTopLeft.Y ≥ bottomRight.Y ∨ rBottomRight.Y ≤ topLeft.Y)
      else decide (rTopLeft.Y ≥ bottomRight.Y ∧ rBottomRight.Y ≤ topLeft.Y)) then false
  else true

/-- The body of the loop of `find` over the branches: append the ids found in `region`
when the query overlaps it. -/
def findInto (found : tree → Option (List Nat)) (topLeft bottomRight : Vector)
    (result : Option (List Nat)) (region : tree) : Option (List Nat) :=
  match result with
  | none => none
  | some acc =>
    if regionWithin topLeft bottomRight region.topLeft region.bottomRight then
      match found region with
      | none => none
      | some r => some (acc ++ r)
    else some acc

/-- Method `find`; `none` is the panic of `make([]uint64, 0, t.count)` on a negative
count. -/
def tree.find (leafMap : LeafMap) (topLeft bottomRight : Vector) : tree → Option (List Nat)
  | .leaf _ _ ls c =>
    if c < 0 then none
    else some (ls.filter fun id => isWithin (mapIndex leafMap id) topLeft bottomRight)
  | .node _ _ _ b0 b1 b2 b3 c =>
    if c < 0 then none
    else
      let r0 := findInto (fun _ => tree.find leafMap topLeft bottomRight b0)
        topLeft bottomRight (some []) b0
      let r1 := findInto (fun _ => tree.find leafMap topLeft bottomRight b1)
        topLeft bottomRight r0 b1
      let r2 := findInto (fun _ => tree.find leafMap topLeft bottomRight b2)
        topLeft bottomRight r1 b2
      findInto (fun _ => tree.find leafMap topLeft bottomRight b3)
        topLeft bottomRight r2 b3

/-- The largest size in bytes of one allocation: `maxAlloc` of the Go run-time on a
64-bit platform with 48 bits of heap address. -/
def maxAlloc : Int := 2 ^ 48

/-- The check that opens `make([]uint64, 0, cap)` (`runtime.makeslice`): the call
panics when the capacity is negative or its 8-byte elements take more than `maxAlloc`
bytes. -/
def makePanics (cap : Int) : Prop :=
  cap < 0 ∨ maxAlloc < cap * 8

instance (cap : Int) : Decidable (makePanics cap) := by
  unfold makePanics; infer_instance

/-- The two returns of `New`: `error` is `(nil, err)`, `index t` is `(&result, nil)`. -/
inductive NewReturn (α : Type) where
  | error
  | index (t : α)
deriving DecidableEq

/-- Function `New`; `none` is the panic of `make([]uint64, 0, nodeLimit)`. -/
def New (nodeLimit : Int) (width height : ℚ) : Option (NewReturn ToroidalQuadtree) :=
  if nodeLimit < 4 then some .error
  else if makePanics nodeLimit then none
  else some (.index
    { nodeLimit := nodeLimit
      leafMap := []
      root := .leaf ⟨0, 0⟩ ⟨width, height⟩ [] 0 })

/-- Method `Width`. -/
def Width (t : ToroidalQuadtree) : ℚ := t.root.bottomRight.X

/-- Method `Height`. -/
def Height (t : ToroidalQuadtree) : ℚ := t.root.bottomRight.Y

/-- Method `Remove`: the new state and the returned boolean, `none` for a panic. -/
def Remove (t : ToroidalQuadtree) (id : Nat) : Option (ToroidalQuadtree × Bool) :=
  match mapGet t.leafMap id with
  | none => some (t, false)
  | some _ =>
    match tree.remove t.nodeLimit t.root id t.leafMap with
    | none => none
    | some (r, m) =>
      some ({ nodeLimit := t.nodeLimit, leafMap := mapDelete m id, root := r }, true)

/-- The statement `if _, ok := t.leafMap[id]; ok { t.Remove(id) }` that opens `Put`. -/
def removeIfPresent (t : ToroidalQuadtree) (id : Nat) : Option ToroidalQuadtree :=
  match mapGet t.leafMap id with
  | some _ => (Remove t id).map Prod.fst
  | none => some t

/-- Method `Put`: the new state and the returned boolean, `none` for a panic. -/
def Put (t : ToroidalQuadtree) (id : Nat) (p : Vector) : Option (ToroidalQuadtree × Bool) :=
  if p.X < 0 ∨ p.Y < 0 ∨ p.X ≥ t.root.bottomRight.X ∨ p.Y ≥ t.root.bottomRight.Y then
    some (t, false)
  else
    match removeIfPresent t id with
    | none => none
    | some t1 =>
      let m := mapSet t1.leafMap id p
      match tree.put t1.nodeLimit m t1.root id p with
      | none => none
      | some r => some ({ nodeLimit := t1.nodeLimit, leafMap := m, root := r }, true)

/-- Method `Get`: `none` is the nil pointer. -/
def Get (t : ToroidalQuadtree) (id : Nat) : Option Vector :=
  mapGet t.leafMap id

/-- Method `Find`: `some []` is the nil slice of a rejected query, `none` a panic. -/
def Find (t : ToroidalQuadtree) (topLeft bottomRight : Vector) : Option (List Nat) :=
  if topLeft.X < 0 ∨ topLeft.Y < 0 ∨ topLeft.X > t.root.bottomRight.X
      ∨ topLeft.Y > t.root.bottomRight.Y then some []
  else if bottomRight.X < 0 ∨ bottomRight.Y < 0 ∨ bottomRight.X > t.root.bottomRight.X
      ∨ bottomRight.Y > t.root.bottomRight.Y then some []
  else tree.find t.leafMap topLeft bottomRight t.root

/-! ## Observations on a state, and the invariant of reachable states -/

/-- The ids held by the leaves of a tree, leaf by leaf in branch order. -/
def tree.ids : tree → List Nat
  | .leaf _ _ ls _ => ls
  | .node _ _ _ b0 b1 b2 b3 _ => b0.ids ++ b1.ids ++ b2.ids ++ b3.ids

/-- Every node of a tree: the tree itself, then the nodes of its four branches. -/
def tree.subtrees : tree → List tree
  | .leaf tl br ls c => [.leaf tl br ls c]
  | .node tl br ls b0 b1 b2 b3 c =>
    .node tl br ls b0 b1 b2 b3 c ::
      (b0.subtrees ++ b1.subtrees ++ b2.subtrees ++ b3.subtrees)

/-- The id list of every leaf of a tree, in branch order. -/
def tree.leafLists : tree → List (List Nat)
  | .leaf _ _ ls _ => [ls]
  | .node _ _ _ b0 b1 b2 b3 _ => b0.leafLists ++ b1.leafLists ++ b2.leafLists ++ b3.leafLists

/-- A corner that `Find` accepts: inside the closed plane `[0,w] x [0,h]`. -/
def validCorner (w h : ℚ) (q : Vector) : Prop :=
  0 ≤ q.X ∧ q.X ≤ w ∧ 0 ≤ q.Y ∧ q.Y ≤ h

/-- The keys of the location map. -/
def mapKeys (m : LeafMap) : List Nat := m.map Prod.fst

/-- The half-open region `[topLeft, bottomRight)` a node is responsible for. -/
def inRegion (p topLeft bottomRight : Vector) : Prop :=
  topLeft.X ≤ p.X ∧ p.X < bottomRight.X ∧ topLeft.Y ≤ p.Y ∧ p.Y < bottomRight.Y

instance (p topLeft bottomRight : Vector) : Decidable (inRegion p topLeft bottomRight) := by
  unfold inRegion; infer_instance

/-- The states reachable from `New nodeLimit width height` by calls of `Put` and
`Remove` that return. -/
inductive Reachable (nodeLimit : Int) (width height : ℚ) : ToroidalQuadtree → Prop
  | new {t : ToroidalQuadtree} :
      New nodeLimit width height = some (.index t) → Reachable nodeLimit width height t
  | put {t t1 : ToroidalQuadtree} {id : Nat} {p : Vector} {b : Bool} :
      Reachable nodeLimit width height t → Put t id p = some (t1, b) →
      Reachable nodeLimit width height t1
  | remove {t t1 : ToroidalQuadtree} {id : Nat} {b : Bool} :
      Reachable nodeLimit width height t → Remove t id = some (t1, b) →
      Reachable nodeLimit width height t1

/-- Well-formedness of a tree against the location map `m`: a leaf counts its ids and
holds only ids whose stored coordinate lies in its region; a node has no ids of its
own, counts the ids of its branches, has at least `n - 1` of them, and its branches
are the four quadrants of its region about a split point inside the region. -/
def WF (n : Int) (m : LeafMap) : tree → Prop
  | .leaf tl br ls c =>
    c = ls.length ∧ ∀ id ∈ ls, ∃ p, mapGet m id = some p ∧ inRegion p tl br
  | .node tl br ls b0 b1 b2 b3 c =>
    ls = [] ∧ c = b0.count + b1.count + b2.count + b3.count ∧ n - 1 ≤ c ∧
    b0.topLeft = tl ∧
    b1.topLeft = ⟨b0.bottomRight.X, tl.Y⟩ ∧ b1.bottomRight = ⟨br.X, b0.bottomRight.Y⟩ ∧
    b2.topLeft = ⟨tl.X, b0.bottomRight.Y⟩ ∧ b2.bottomRight = ⟨b0.bottomRight.X, br.Y⟩ ∧
    b3.topLeft = b0.bottomRight ∧ b3.bottomRight = br ∧
    (tl.X ≤ b0.bottomRight.X ∧ b0.bottomRight.X ≤ br.X ∧
      tl.Y ≤ b0.bottomRight.Y ∧ b0.bottomRight.Y ≤ br.Y) ∧
    WF n m b0 ∧ WF n m b1 ∧ WF n m b2 ∧ WF n m b3

/-- The invariant of the states reachable from `New n w h`. -/
structure Inv (n : Int) (w h : ℚ) (t : ToroidalQuadtree) : Prop where
  limit : t.nodeLimit = n
  four : 4 ≤ n
  topLeft : t.root.topLeft = ⟨0, 0⟩
  bottomRight : t.root.bottomRight = ⟨w, h⟩
  wf : WF n t.leafMap t.root
  idsNodup : t.root.ids.Nodup
  keysNodup : (mapKeys t.leafMap).Nodup
  keysIds : ∀ id, id ∈ mapKeys t.leafMap → id ∈ t.root.ids

/-- The ids of `ls` that the routing rule sends to quadrant `k`. -/
def routed (m : LeafMap) (med : Vector) (k : Fin 4) (ls : List Nat) : List Nat :=
  ls.filter fun id => decide (destRegion (mapIndex m id) med = k)

/-- The per-axis reading of `isWithin`: ordinary when `a < b`, wrapped otherwise. -/
def axisWithin (v a b : ℚ) : Prop :=
  (a < b ∧ a ≤ v ∧ v < b) ∨ (b ≤ a ∧ (a ≤ v ∨ v < b))

instance (v a b : ℚ) : Decidable (axisWithin v a b) := by
  unfold axisWithin; infer_instance

/-- The per-axis reading of `regionWithin`: the query interval `[qa, qb)` (wrapped when
`qb ≤ qa`) is not separated from the interval `[a, b)`. -/
def axisOverlap (qa qb a b : ℚ) : Prop :=
  (qa < qb ∧ qa < b ∧ a < qb) ∨ (qb ≤ qa ∧ (qa < b ∨ a < qb))

/-- The guard of `Put` on a tree whose region is `(0,0)-(w,h)`. -/
def outOfBounds (w h : ℚ) (p : Vector) : Prop :=
  p.X < 0 ∨ p.Y < 0 ∨ p.X ≥ w ∨ p.Y ≥ h

instance (w h : ℚ) (p : Vector) : Decidable (outOfBounds w h p) := by
  unfold outOfBounds; infer_instance

/-! ## Concrete runs -/

/-- The loop `for id, loc := range points { tree.Put(uint64(id), loc) }` of the tests,
started at identifier `id`. -/
def putAll : List Vector → Nat → ToroidalQuadtree → Option ToroidalQuadtree
  | [], _, t => some t
  | p :: rest, id, t =>
    match Put t id p with
    | none => none
    | some (t1, _) => putAll rest (id + 1) t1

/-- The nine points of `TestAddSomeElements`. -/
def testPoints : List Vector :=
  [⟨1, 0⟩, ⟨2, 1⟩, ⟨4, 1⟩, ⟨5, 1⟩, ⟨3, 3⟩, ⟨5, 6⟩, ⟨1, 3⟩, ⟨5, 9⟩, ⟨0, 4⟩]

/-- The index of `TestAddSomeElements` after its nine calls of `Put`. -/
def testIndex (nodeLimit : Int) : Option ToroidalQuadtree :=
  match New nodeLimit 6 10 with
  | some (.index t) => putAll testPoints 0 t
  | _ => none

/-- The state of `TestAddSomeElements` for `nodeLimit = 4`. -/
def testState4 : ToroidalQuadtree :=
  ⟨4,
   [(8, ⟨0, 4⟩), (7, ⟨5, 9⟩), (6, ⟨1, 3⟩), (5, ⟨5, 6⟩), (4, ⟨3, 3⟩), (3, ⟨5, 1⟩),
    (2, ⟨4, 1⟩), (1, ⟨2, 1⟩), (0, ⟨1, 0⟩)],
   .node ⟨0, 0⟩ ⟨6, 10⟩ []
     (.leaf ⟨0, 0⟩ ⟨3, 1⟩ [0] 1)
     (.leaf ⟨3, 0⟩ ⟨6, 1⟩ [] 0)
     (.leaf ⟨0, 1⟩ ⟨3, 10⟩ [1, 6, 8] 3)
     (.node ⟨3, 1⟩ ⟨6, 10⟩ []
       (.leaf ⟨3, 1⟩ ⟨5, 3⟩ [2] 1)
       (.leaf ⟨5, 1⟩ ⟨6, 3⟩ [3] 1)
       (.leaf ⟨3, 3⟩ ⟨5, 10⟩ [4] 1)
       (.leaf ⟨5, 3⟩ ⟨6, 10⟩ [5, 7] 2) 5) 9⟩

/-- One subregion query of `TestAddSomeElements`: `tree.Find(topLeft, bottomRight)` on
the index built with the given node limit. -/
def testFind (nodeLimit : Int) (topLeft bottomRight : Vector) : Option (List Nat) :=
  match testIndex nodeLimit with
  | none => none
  | some t => Find t topLeft bottomRight

/-- Six ids put at the same point `(1,1)`. -/
def crowdedPoints : List Vector :=
  [⟨1, 1⟩, ⟨1, 1⟩, ⟨1, 1⟩, ⟨1, 1⟩, ⟨1, 1⟩, ⟨1, 1⟩]

/-- The state after `New(4, 6, 10)` and `Put(i, (1,1))` for `i = 0, …, 5`. -/
def crowdedState : ToroidalQuadtree :=
  ⟨4,
   [(5, ⟨1, 1⟩), (4, ⟨1, 1⟩), (3, ⟨1, 1⟩), (2, ⟨1, 1⟩), (1, ⟨1, 1⟩), (0, ⟨1, 1⟩)],
   .node ⟨0, 0⟩ ⟨6, 10⟩ []
     (.leaf ⟨0, 0⟩ ⟨1, 1⟩ [] 0)
     (.leaf ⟨1, 0⟩ ⟨6, 1⟩ [] 0)
     (.leaf ⟨0, 1⟩ ⟨1, 10⟩ [] 0)
     (.node ⟨1, 1⟩ ⟨6, 10⟩ []
       (.leaf ⟨1, 1⟩ ⟨1, 1⟩ [] 0)
       (.leaf ⟨1, 1⟩ ⟨6, 1⟩ [] 0)
       (.leaf ⟨1, 1⟩ ⟨1, 10⟩ [] 0)
       (.leaf ⟨1, 1⟩ ⟨6, 10⟩ [0, 1, 2, 3, 4, 5] 6) 6) 6⟩

/-! ## Observations on nodes and on single calls -/

/-- The four branches of an internal node in quadrant order; a leaf has none. -/
def tree.branches : tree → List tree
  | .leaf _ _ _ _ => []
  | .node _ _ _ b0 b1 b2 b3 _ => [b0, b1, b2, b3]

/-- The split point of an internal node: `t.branches[0].bottomRight`. -/
def tree.split : tree → Option Vector
  | .leaf _ _ _ _ => none
  | .node _ _ _ b0 _ _ _ _ => some b0.bottomRight

/-- The expression `t.branches[k]` on four given branches. -/
def pick (b0 b1 b2 b3 : tree) : Fin 4 → tree
  | 0 => b0
  | 1 => b1
  | 2 => b2
  | 3 => b3

/-- The internal node whose branch `k` is `b` and whose other branches are as given. -/
def withBranch (tl br : Vector) (ls : List Nat) (b0 b1 b2 b3 : tree) (c : Int)
    (k : Fin 4) (b : tree) : tree :=
  match k with
  | 0 => .node tl br ls b b1 b2 b3 c
  | 1 => .node tl br ls b0 b b2 b3 c
  | 2 => .node tl br ls b0 b1 b b3 c
  | 3 => .node tl br ls b0 b1 b2 b c

/-- The slice `sortedX` of `medianLocation` after `sort.Float64s`. -/
def sortedX (ids : List Nat) (leafMap : LeafMap) : List ℚ :=
  (ids.map fun id => (mapIndex leafMap id).X).insertionSort (· ≤ ·)

/-- The slice `sortedY` of `medianLocation` after `sort.Float64s`. -/
def sortedY (ids : List Nat) (leafMap : LeafMap) : List ℚ :=
  (ids.map fun id => (mapIndex leafMap id).Y).insertionSort (· ≤ ·)

/-- The value `v` is the median of the sorted list `s`: its middle element when the
length is odd, the mean of its two middle elements when the length is even. -/
def isMedianOf (s : List ℚ) (v : ℚ) : Prop :=
  (s.length % 2 = 1 ∧ s[s.length / 2]? = some v) ∨
  (s.length % 2 = 0 ∧ ∃ x1 x2, s[s.length / 2]? = some x1 ∧
    s[s.length / 2 - 1]? = some x2 ∧ v = (x1 + x2) / 2)

/-- The nodes a call of `remove` visits: the node it is called on, then, while the node
has no ids of its own and has branches, the branch the routing rule selects. -/
def tree.removePath : tree → Nat → LeafMap → List tree
  | .leaf tl br ls c, _, _ => [.leaf tl br ls c]
  | .node tl br ls b0 b1 b2 b3 c, id, leafMap =>
    if ls.length ≠ 0 then [.node tl br ls b0 b1 b2 b3 c]
    else
      .node tl br ls b0 b1 b2 b3 c ::
        match destRegion (mapIndex leafMap id) b0.bottomRight with
        | 0 => tree.removePath b0 id leafMap
        | 1 => tree.removePath b1 id leafMap
        | 2 => tree.removePath b2 id leafMap
        | 3 => tree.removePath b3 id leafMap

/-- The merges a call of `remove` runs, innermost first: for each node whose branches
are folded into it, the node as it is when `remove` is called on it, paired with the
node as it is when its merge starts (after the recursive call and `t.count--`). -/
def tree.merges (nodeLimit : Int) : tree → Nat → LeafMap → List (tree × tree)
  | .leaf _ _ _ _, _, _ => []
  | .node tl br ls b0 b1 b2 b3 c, id, leafMap =>
    if ls.length ≠ 0 then
      if c - 1 < nodeLimit - 1 then
        [(.node tl br ls b0 b1 b2 b3 c, .node tl br (removeLeaf ls id) b0 b1 b2 b3 (c - 1))]
      else []
    else
      match destRegion (mapIndex leafMap id) b0.bottomRight with
      | 0 =>
        tree.merges nodeLimit b0 id leafMap ++
          match tree.remove nodeLimit b0 id leafMap with
          | none => []
          | some (b, _) =>
            if c - 1 < nodeLimit - 1 then
              [(.node tl br ls b0 b1 b2 b3 c, .node tl br ls b b1 b2 b3 (c - 1))]
            else []
      | 1 =>
        tree.merges nodeLimit b1 id leafMap ++
          match tree.remove nodeLimit b1 id leafMap with
          | none => []
          | some (b, _) =>
            if c - 1 < nodeLimit - 1 then
              [(.node tl br ls b0 b1 b2 b3 c, .node tl br ls b0 b b2 b3 (c - 1))]
            else []
      | 2 =>
        tree.merges nodeLimit b2 id leafMap ++
          match tree.remove nodeLimit b2 id leafMap with
          | none => []
          | some (b, _) =>
            if c - 1 < nodeLimit - 1 then
              [(.node tl br ls b0 b1 b2 b3 c, .node tl br ls b0 b1 b b3 (c - 1))]
            else []
      | 3 =>
        tree.merges nodeLimit b3 id leafMap ++
          match tree.remove nodeLimit b3 id leafMap with
          | none => []
          | some (b, _) =>
            if c - 1 < nodeLimit - 1 then
              [(.node tl br ls b0 b1 b2 b3 c, .node tl br ls b0 b1 b2 b (c - 1))]
            else []

/-- The loop `for _, id := range ids { tree.Remove(id) }`. -/
def removeAll : List Nat → ToroidalQuadtree → Option ToroidalQuadtree
  | [], t => some t
  | id :: rest, t =>
    match Remove t id with
    | none => none
    | some (t1, _) => removeAll rest t1

/-- The state of `TestAddSomeElements` for `nodeLimit = 4` after `Remove` of the ids
8, 7, 6 and 5: the inner node is left with `nodeLimit - 1 = 3` ids. -/
def thinnedState : ToroidalQuadtree :=
  ⟨4,
   [(4, ⟨3, 3⟩), (3, ⟨5, 1⟩), (2, ⟨4, 1⟩), (1, ⟨2, 1⟩), (0, ⟨1, 0⟩)],
   .node ⟨0, 0⟩ ⟨6, 10⟩ []
     (.leaf ⟨0, 0⟩ ⟨3, 1⟩ [0] 1)
     (.leaf ⟨3, 0⟩ ⟨6, 1⟩ [] 0)
     (.leaf ⟨0, 1⟩ ⟨3, 10⟩ [1] 1)
     (.node ⟨3, 1⟩ ⟨6, 10⟩ []
       (.leaf ⟨3, 1⟩ ⟨5, 3⟩ [2] 1)
       (.leaf ⟨5, 1⟩ ⟨6, 3⟩ [3] 1)
       (.leaf ⟨3, 3⟩ ⟨5, 10⟩ [4] 1)
       (.leaf ⟨5, 3⟩ ⟨6, 10⟩ [] 0) 3) 5⟩

/-! ## The same functions over binary64 values

The namespace `F64` repeats the definitions above, statement by statement, with
`float64` read as the binary64 values: NaN, the two infinities and the finite numbers.
A comparison with a NaN operand is false, a sum and a quotient are rounded to the
nearest value and overflow to an infinity, and `sort.Float64s` puts NaN first. -/

namespace F64

/-- A `float64` value: NaN, the two infinities, or a finite number, given by the
rational it denotes. The two zeros are one value: they compare equal, and the package
only compares, adds and halves coordinates. -/
inductive Float64 where
  | nan
  | negInf
  | posInf
  | num (q : ℚ)
deriving DecidableEq

namespace Float64

/-- The comparison `a < b` of Go: false as soon as an operand is NaN. -/
def lt : Float64 → Float64 → Bool
  | nan, _ => false
  | _, nan => false
  | negInf, negInf => false
  | negInf, _ => true
  | _, negInf => false
  | posInf, _ => false
  | num _, posInf => true
  | num a, num b => decide (a < b)

/-- The comparison `a <= b` of Go: false as soon as an operand is NaN. -/
def le : Float64 → Float64 → Bool
  | nan, _ => false
  | _, nan => false
  | negInf, _ => true
  | _, negInf => false
  | _, posInf => true
  | posInf, _ => false
  | num a, num b => decide (a ≤ b)

instance : LT Float64 := ⟨fun a b => lt a b = true⟩

instance : LE Float64 := ⟨fun a b => le a b = true⟩

instance (a b : Float64) : Decidable (a < b) := inferInstanceAs (Decidable (lt a b = true))

instance (a b : Float64) : Decidable (a ≤ b) := inferInstanceAs (Decidable (le a b = true))

/-- The test `math.IsNaN`. -/
def isNaN : Float64 → Bool
  | nan => true
  | _ => false

/-- The integer `k` with `2 ^ k ≤ n < 2 ^ (k + 1)` for `0 < n`, by halving `n` at most
`fuel` times. -/
def floorLog2 : Nat → Nat → Nat
  | 0, _ => 0
  | fuel + 1, n => if n < 2 then 0 else floorLog2 fuel (n / 2) + 1

/-- The power `2 ^ e` for an integer exponent. -/
def pow2 (e : Int) : ℚ :=
  if 0 ≤ e then ((2 ^ e.toNat : Nat) : ℚ) else 1 / ((2 ^ (-e).toNat : Nat) : ℚ)

/-- The binary exponent of a positive rational: the `e` with `2 ^ e ≤ q < 2 ^ (e + 1)`. -/
def exponent (q : ℚ) : Int :=
  let n := q.num.natAbs
  let e0 : Int := (floorLog2 n n : Int) - (floorLog2 q.den q.den : Int)
  if pow2 e0 ≤ q then e0 else e0 - 1

/-- Rounding to the nearest integer, a tie to the even one. -/
def roundHalfEven (x : ℚ) : Int :=
  let n : Int := ⌊x⌋
  if x - n < 1 / 2 then n
  else if x - n > 1 / 2 then n + 1
  else if n % 2 = 0 then n else n + 1

/-- The binary64 value of a real result `q`: the nearest multiple of the unit in the
last place of `q` (53 significant bits, exponent at least `-1022`), a tie to the even
one, and an infinity from `2 ^ 1024` on. -/
def round64 (q : ℚ) : Float64 :=
  if q = 0 then num 0
  else
    let e := max (exponent |q|) (-1022)
    let ulp := pow2 (e - 52)
    let r : ℚ := (roundHalfEven (|q| / ulp) : ℚ) * ulp
    if pow2 1024 ≤ r then (if 0 < q then posInf else negInf)
    else num (if 0 < q then r else -r)

/-- A constant without a fraction, such as the `0.0` of the source: the binary64 value
nearest to it. -/
instance (n : Nat) : OfNat Float64 n := ⟨round64 n⟩

/-- The sum `a + b` of Go. -/
def add : Float64 → Float64 → Float64
  | nan, _ => nan
  | _, nan => nan
  | posInf, negInf => nan
  | negInf, posInf => nan
  | posInf, _ => posInf
  | _, posInf => posInf
  | negInf, _ => negInf
  | _, negInf => negInf
  | num a, num b => round64 (a + b)

instance : Add Float64 := ⟨add⟩

/-- The quotient `a / 2` of Go. -/
def half : Float64 → Float64
  | nan => nan
  | posInf => posInf
  | negInf => negInf
  | num a => round64 (a / 2)

/-- The order of `sort.Float64s`: increasing, a NaN before every other value. -/
def sortLess (a b : Float64) : Prop :=
  a < b ∨ (a.isNaN = true ∧ b.isNaN = false)

instance (a b : Float64) : Decidable (sortLess a b) := by
  unfold sortLess; infer_instance

/-- Function `sort.Float64s`. -/
def sort (xs : List Float64) : List Float64 :=
  xs.insertionSort fun a b => ¬ sortLess b a

/-- The largest finite value, `math.MaxFloat64`. -/
def maxFloat64 : Float64 := num ((2 ^ 53 - 1) * 2 ^ 971)

end Float64

/-- A point of the plane, `type Vector struct { X, Y float64 }`. -/
structure Vector where
  X : Float64
  Y : Float64
deriving DecidableEq

/-- The Go map `map[uint64]Vector`. -/
abbrev LeafMap := List (Nat × Vector)

/-- The two-valued map read `v, ok := m[id]`. -/
def mapGet : LeafMap → Nat → Option Vector
  | [], _ => none
  | (k, v) :: rest, id => if k = id then some v else mapGet rest id

/-- The one-valued map read `m[id]`: the zero value when the key is absent. -/
def mapIndex (m : LeafMap) (id : Nat) : Vector :=
  (mapGet m id).getD ⟨0, 0⟩

/-- The map update `delete(m, id)`. -/
def mapDelete (m : LeafMap) (id : Nat) : LeafMap :=
  m.filter (fun e => decide (e.1 ≠ id))

/-- The map update `m[id] = p`. -/
def mapSet (m : LeafMap) (id : Nat) (p : Vector) : LeafMap :=
  (id, p) :: mapDelete m id

/-- The Go struct `tree`: `leaf` when `branches[0] == nil`, `node` otherwise. -/
inductive tree where
  | leaf (topLeft bottomRight : Vector) (leaves : List Nat) (count : Int)
  | node (topLeft bottomRight : Vector) (leaves : List Nat)
      (b0 b1 b2 b3 : tree) (count : Int)
deriving DecidableEq

namespace tree

/-- Field `topLeft`. -/
def topLeft : tree → Vector
  | leaf tl _ _ _ => tl
  | node tl _ _ _ _ _ _ _ => tl

/-- Field `bottomRight`. -/
def bottomRight : tree → Vector
  | leaf _ br _ _ => br
  | node _ br _ _ _ _ _ _ => br

/-- Field `leaves`. -/
def leaves : tree → List Nat
  | leaf _ _ ls _ => ls
  | node _ _ ls _ _ _ _ _ => ls

/-- Field `count`. -/
def count : tree → Int
  | leaf _ _ _ c => c
  | node _ _ _ _ _ _ _ c => c

end tree

/-- The Go struct `ToroidalQuadtree`. -/
structure ToroidalQuadtree where
  nodeLimit : Int
  leafMap : LeafMap
  root : tree
deriving DecidableEq

/-- Function `medianLocation`: the coordinates are sorted by `sort.Float64s`, and the
mean of the two middle values is the float64 sum halved; `none` is the
index-out-of-range panic on an empty list. -/
def medianLocation (ids : List Nat) (leafMap : LeafMap) : Option Vector :=
  let sortedX := Float64.sort (ids.map fun id => (mapIndex leafMap id).X)
  let sortedY := Float64.sort (ids.map fun id => (mapIndex leafMap id).Y)
  if ids.length % 2 = 0 then
    let idx1 := ids.length / 2
    let idx2 := idx1 - 1
    match sortedX[idx1]?, sortedX[idx2]?, sortedY[idx1]?, sortedY[idx2]? with
    | some x1, some x2, some y1, some y2 => some ⟨(x1 + x2).half, (y1 + y2).half⟩
    | _, _, _, _ => none
  else
    let idx := ids.length / 2
    match sortedX[idx]?, sortedY[idx]? with
    | some x, some y => some ⟨x, y⟩
    | _, _ => none

/-- The four-way `switch` that `subdivide`, `put` and `remove` each spell out:
the quadrant of `loc` about `median`. -/
def destRegion (loc median : Vector) : Fin 4 :=
  if loc.X < median.X ∧ loc.Y < median.Y then 0
  else if loc.X ≥ median.X ∧ loc.Y < median.Y then 1
  else if loc.X < median.X ∧ loc.Y ≥ median.Y then 2
  else 3

/-- The two statements `t.leaves = append(t.leaves, id); t.count++` on a branch. -/
def tree.addLeaf : tree → Nat → tree
  | .leaf tl br ls c, id => .leaf tl br (ls ++ [id]) (c + 1)
  | .node tl br ls b0 b1 b2 b3 c, id => .node tl br (ls ++ [id]) b0 b1 b2 b3 (c + 1)

/-- The loop of `subdivide` that moves every id into the branch of its quadrant. -/
def refile (leafMap : LeafMap) (median : Vector) :
    List Nat → tree × tree × tree × tree → tree × tree × tree × tree
  | [], bs => bs
  | id :: rest, (b0, b1, b2, b3) =>
    match destRegion (mapIndex leafMap id) median with
    | 0 => refile leafMap median rest (b0.addLeaf id, b1, b2, b3)
    | 1 => refile leafMap median rest (b0, b1.addLeaf id, b2, b3)
    | 2 => refile leafMap median rest (b0, b1, b2.addLeaf id, b3)
    | 3 => refile leafMap median rest (b0, b1, b2, b3.addLeaf id)

/-- Method `subdivide`: split `t` at the median of its ids into four branches. -/
def tree.subdivide (nodeLimit : Int) (leafMap : LeafMap) (t : tree) : Option tree :=
  match medianLocation t.leaves leafMap with
  | none => none
  | some median =>
    if nodeLimit < 0 then none
    else
      let bs := refile leafMap median t.leaves
        (.leaf t.topLeft median [] 0,
         .leaf ⟨median.X, t.topLeft.Y⟩ ⟨t.bottomRight.X, median.Y⟩ [] 0,
         .leaf ⟨t.topLeft.X, median.Y⟩ ⟨median.X, t.bottomRight.Y⟩ [] 0,
         .leaf median t.bottomRight [] 0)
      some (.node t.topLeft t.bottomRight [] bs.1 bs.2.1 bs.2.2.1 bs.2.2.2 t.count)

/-- The statement `t.count++`. -/
def tree.incCount : tree → tree
  | .leaf tl br ls c => .leaf tl br ls (c + 1)
  | .node tl br ls b0 b1 b2 b3 c => .node tl br ls b0 b1 b2 b3 (c + 1)

/-- Method `put`. -/
def tree.put (nodeLimit : Int) (leafMap : LeafMap) : tree → Nat → Vector → Option tree
  | .leaf tl br ls c, id, _ =>
    if ((ls ++ [id]).length : Int) > nodeLimit then
      (tree.subdivide nodeLimit leafMap (.leaf tl br (ls ++ [id]) c)).map tree.incCount
    else some (.leaf tl br (ls ++ [id]) (c + 1))
  | .node tl br ls b0 b1 b2 b3 c, id, p =>
    match destRegion p b0.bottomRight with
    | 0 => (tree.put nodeLimit leafMap b0 id p).map
        fun b => .node tl br ls b b1 b2 b3 (c + 1)
    | 1 => (tree.put nodeLimit leafMap b1 id p).map
        fun b => .node tl br ls b0 b b2 b3 (c + 1)
    | 2 => (tree.put nodeLimit leafMap b2 id p).map
        fun b => .node tl br ls b0 b1 b b3 (c + 1)
    | 3 => (tree.put nodeLimit leafMap b3 id p).map
        fun b => .node tl br ls b0 b1 b2 b (c + 1)

/-- The tail of `remove`: `t.count--`, then the merge of the four branches when the
count has fallen below `nodeLimit - 1`. -/
def tree.decAndMerge (nodeLimit : Int) : tree → Option tree
  | .leaf tl br ls c => some (.leaf tl br ls (c - 1))
  | .node tl br ls b0 b1 b2 b3 c =>
    if c - 1 < nodeLimit - 1 then
      if nodeLimit < 0 then none
      else some (.leaf tl br (b0.leaves ++ b1.leaves ++ b2.leaves ++ b3.leaves) (c - 1))
    else some (.node tl br ls b0 b1 b2 b3 (c - 1))

/-- Method `remove`; the map is threaded because every level runs `delete(leafMap, id)`. -/
def tree.remove (nodeLimit : Int) : tree → Nat → LeafMap → Option (tree × LeafMap)
  | .leaf tl br ls c, id, leafMap =>
    if ls.length ≠ 0 then
      (tree.decAndMerge nodeLimit (.leaf tl br (removeLeaf ls id) c)).map
        fun t => (t, mapDelete leafMap id)
    else none
  | .node tl br ls b0 b1 b2 b3 c, id, leafMap =>
    if ls.length ≠ 0 then
      (tree.decAndMerge nodeLimit (.node tl br (removeLeaf ls id) b0 b1 b2 b3 c)).map
        fun t => (t, mapDelete leafMap id)
    else
      match destRegion (mapIndex leafMap id) b0.bottomRight with
      | 0 =>
        match tree.remove nodeLimit b0 id leafMap with
        | none => none
        | some (b, m) => (tree.decAndMerge nodeLimit (.node tl br ls b b1 b2 b3 c)).map
            fun t => (t, mapDelete m id)
      | 1 =>
        match tree.remove nodeLimit b1 id leafMap with
        | none => none
        | some (b, m) => (tree.decAndMerge nodeLimit (.node tl br ls b0 b b2 b3 c)).map
            fun t => (t, mapDelete m id)
      | 2 =>
        match tree.remove nodeLimit b2 id leafMap with
        | none => none
        | some (b, m) => (tree.decAndMerge nodeLimit (.node tl br ls b0 b1 b b3 c)).map
            fun t => (t, mapDelete m id)
      | 3 =>
        match tree.remove nodeLimit b3 id leafMap with
        | none => none
        | some (b, m) => (tree.decAndMerge nodeLimit (.node tl br ls b0 b1 b2 b c)).map
            fun t => (t, mapDelete m id)

/-- Function `isWithin`: the point-in-rectangle test, wrapped on an axis whose
`topLeft` is not below its `bottomRight`. -/
def isWithin (loc topLeft bottomRight : Vector) : Bool :=
  if (if topLeft.X < bottomRight.X
      then decide (loc.X < topLeft.X ∨ loc.X ≥ bottomRight.X)
      else decide (loc.X < topLeft.X ∧ loc.X ≥ bottomRight.X)) then false
  else if (if topLeft.Y < bottomRight.Y
      then decide (loc.Y < topLeft.Y ∨ loc.Y ≥ bottomRight.Y)
      else decide (loc.Y < topLeft.Y ∧ loc.Y ≥ bottomRight.Y)) then false
  else true

/-- Function `regionWithin`: the overlap test of the query `r` with a region. -/
def regionWithin (rTopLeft rBottomRight topLeft bottomRight : Vector) : Bool :=
  if (if rTopLeft.X < rBottomRight.X
      then decide (rTopLeft.X ≥ bottomRight.X ∨ rBottomRight.X ≤ topLeft.X)
      else decide (rTopLeft.X ≥ bottomRight.X ∧ rBottomRight.X ≤ topLeft.X)) then false
  else if (if rTopLeft.Y < rBottomRight.Y
      then decide (rTopLeft.Y ≥ bottomRight.Y ∨ rBottomRight.Y ≤ topLeft.Y)
      else decide (rTopLeft.Y ≥ bottomRight.Y ∧ rBottomRight.Y ≤ topLeft.Y)) then false
  else true

/-- The body of the loop of `find` over the branches: append the ids found in `region`
when the query overlaps it. -/
def findInto (found : tree → Option (List Nat)) (topLeft bottomRight : Vector)
    (result : Option (List Nat)) (region : tree) : Option (List Nat) :=
  match result with
  | none => none
  | some acc =>
    if regionWithin topLeft bottomRight region.topLeft region.bottomRight then
      match found region with
      | none => none
      | some r => some (acc ++ r)
    else some acc

/-- Method `find`; `none` is the panic of `make([]uint64, 0, t.count)` on a negative
count. -/
def tree.find (leafMap : LeafMap) (topLeft bottomRight : Vector) : tree → Option (List Nat)
  | .leaf _ _ ls c =>
    if c < 0 then none
    else some (ls.filter fun id => isWithin (mapIndex leafMap id) topLeft bottomRight)
  | .node _ _ _ b0 b1 b2 b3 c =>
    if c < 0 then none
    else
      let r0 := findInto (fun _ => tree.find leafMap topLeft bottomRight b0)
        topLeft bottomRight (some []) b0
      let r1 := findInto (fun _ => tree.find leafMap topLeft bottomRight b1)
        topLeft bottomRight r0 b1
      let r2 := findInto (fun _ => tree.find leafMap topLeft bottomRight b2)
        topLeft bottomRight r1 b2
      findInto (fun _ => tree.find leafMap topLeft bottomRight b3)
        topLeft bottomRight r2 b3

/-- Function `New`; `none` is the panic of `make([]uint64, 0, nodeLimit)`. -/
def New (nodeLimit : Int) (width height : Float64) : Option (NewReturn ToroidalQuadtree) :=
  if nodeLimit < 4 then some .error
  else if makePanics nodeLimit then none
  else some (.index
    { nodeLimit := nodeLimit
      leafMap := []
      root := .leaf ⟨0, 0⟩ ⟨width, height⟩ [] 0 })

/-- Method `Width`. -/
def Width (t : ToroidalQuadtree) : Float64 := t.root.bottomRight.X

/-- Method `Height`. -/
def Height (t : ToroidalQuadtree) : Float64 := t.root.bottomRight.Y

/-- Method `Remove`: the new state and the returned boolean, `none` for a panic. -/
def Remove (t : ToroidalQuadtree) (id : Nat) : Option (ToroidalQuadtree × Bool) :=
  match mapGet t.leafMap id with
  | none => some (t, false)
  | some _ =>
    match tree.remove t.nodeLimit t.root id t.leafMap with
    | none => none
    | some (r, m) =>
      some ({ nodeLimit := t.nodeLimit, leafMap := mapDelete m id, root := r }, true)

/-- The statement `if _, ok := t.leafMap[id]; ok { t.Remove(id) }` that opens `Put`. -/
def removeIfPresent (t : ToroidalQuadtree) (id : Nat) : Option ToroidalQuadtree :=
  match mapGet t.leafMap id with
  | some _ => (Remove t id).map Prod.fst
  | none => some t

/-- Method `Put`: the new state and the returned boolean, `none` for a panic. -/
def Put (t : ToroidalQuadtree) (id : Nat) (p : Vector) : Option (ToroidalQuadtree × Bool) :=
  if p.X < 0 ∨ p.Y < 0 ∨ p.X ≥ t.root.bottomRight.X ∨ p.Y ≥ t.root.bottomRight.Y then
    some (t, false)
  else
    match removeIfPresent t id with
    | none => none
    | some t1 =>
      let m := mapSet t1.leafMap id p
      match tree.put t1.nodeLimit m t1.root id p with
      | none => none
      | some r => some ({ nodeLimit := t1.nodeLimit, leafMap := m, root := r }, true)

/-- Method `Get`: `none` is the nil pointer. -/
def Get (t : ToroidalQuadtree) (id : Nat) : Option Vector :=
  mapGet t.leafMap id

/-- Method `Find`: `some []` is the nil slice of a rejected query, `none` a panic. -/
def Find (t : ToroidalQuadtree) (topLeft bottomRight : Vector) : Option (List Nat) :=
  if topLeft.X < 0 ∨ topLeft.Y < 0 ∨ topLeft.X > t.root.bottomRight.X
      ∨ topLeft.Y > t.root.bottomRight.Y then some []
  else if bottomRight.X < 0 ∨ bottomRight.Y < 0 ∨ bottomRight.X > t.root.bottomRight.X
      ∨ bottomRight.Y > t.root.bottomRight.Y then some []
  else tree.find t.leafMap topLeft bottomRight t.root

/-! ### Observations and concrete runs on binary64 values -/

/-- The keys of the location map. -/
def mapKeys (m : LeafMap) : List Nat := m.map Prod.fst

/-- The half-open region `[topLeft, bottomRight)` a node is responsible for. -/
def inRegion (p topLeft bottomRight : Vector) : Prop :=
  topLeft.X ≤ p.X ∧ p.X < bottomRight.X ∧ topLeft.Y ≤ p.Y ∧ p.Y < bottomRight.Y

instance (p topLeft bottomRight : Vector) : Decidable (inRegion p topLeft bottomRight) := by
  unfold inRegion; infer_instance

/-- The four branches of an internal node in quadrant order; a leaf has none. -/
def tree.branches : tree → List tree
  | .leaf _ _ _ _ => []
  | .node _ _ _ b0 b1 b2 b3 _ => [b0, b1, b2, b3]

/-- The region of a node has its top left corner not beyond its bottom right corner. -/
def regionOrdered (t : tree) : Prop :=
  t.topLeft.X ≤ t.bottomRight.X ∧ t.topLeft.Y ≤ t.bottomRight.Y

instance (t : tree) : Decidable (regionOrdered t) := by
  unfold regionOrdered; infer_instance

/-- The region of `b` lies inside the region of `s`. -/
def regionInside (b s : tree) : Prop :=
  s.topLeft.X ≤ b.topLeft.X ∧ b.bottomRight.X ≤ s.bottomRight.X ∧
  s.topLeft.Y ≤ b.topLeft.Y ∧ b.bottomRight.Y ≤ s.bottomRight.Y

instance (b s : tree) : Decidable (regionInside b s) := by
  unfold regionInside; infer_instance

/-- The calls `Put(id, p)` for the listed pairs, in order: the last state and the
booleans returned. -/
def putEach : List (Nat × Vector) → ToroidalQuadtree → Option (ToroidalQuadtree × List Bool)
  | [], t => some (t, [])
  | (id, p) :: rest, t =>
    match Put t id p with
    | none => none
    | some (t1, b) => (putEach rest t1).map fun r => (r.1, b :: r.2)

/-- The run `New(nodeLimit, width, height)` followed by the calls `Put(id, p)` for the
listed pairs. -/
def run (nodeLimit : Int) (width height : Float64) (calls : List (Nat × Vector)) :
    Option (ToroidalQuadtree × List Bool) :=
  match New nodeLimit width height with
  | some (.index t) => putEach calls t
  | _ => none

/-- The per-axis condition of the point-in-rectangle test: ordinary when `a < b`,
wrapped when `a ≥ b`. -/
def axisWithin (v a b : Float64) : Prop :=
  (a < b ∧ a ≤ v ∧ v < b) ∨ (a ≥ b ∧ (v ≥ a ∨ v < b))

instance (v a b : Float64) : Decidable (axisWithin v a b) := by
  unfold axisWithin; infer_instance

/-- The nine points of `TestAddSomeElements`. -/
def testPoints : List (Nat × Vector) :=
  [(0, ⟨1, 0⟩), (1, ⟨2, 1⟩), (2, ⟨4, 1⟩), (3, ⟨5, 1⟩), (4, ⟨3, 3⟩), (5, ⟨5, 6⟩),
   (6, ⟨1, 3⟩), (7, ⟨5, 9⟩), (8, ⟨0, 4⟩)]

/-- One subregion query of `TestAddSomeElements`, its corners given as decimal
constants, on the index built with the given node limit. -/
def testFind (nodeLimit : Int) (x1 y1 x2 y2 : ℚ) : Option (List Nat) :=
  match run nodeLimit 6 10 testPoints with
  | none => none
  | some r => Find r.1 ⟨.round64 x1, .round64 y1⟩ ⟨.round64 x2, .round64 y2⟩

/-- A point whose two coordinates are NaN. -/
def nanPoint : Vector := ⟨.nan, .nan⟩

/-- The state after `New(4, 6, 10)`, `Put(0, (NaN,NaN))` and `Put(i, (i,i))` for
`i = 1, …, 4`. -/
def nanIndex : ToroidalQuadtree :=
  ⟨4,
   [(4, ⟨4, 4⟩), (3, ⟨3, 3⟩), (2, ⟨2, 2⟩), (1, ⟨1, 1⟩), (0, nanPoint)],
   .node ⟨0, 0⟩ ⟨6, 10⟩ []
     (.leaf ⟨0, 0⟩ ⟨2, 2⟩ [1] 1)
     (.leaf ⟨2, 0⟩ ⟨6, 2⟩ [] 0)
     (.leaf ⟨0, 2⟩ ⟨2, 10⟩ [] 0)
     (.leaf ⟨2, 2⟩ ⟨6, 10⟩ [0, 2, 3, 4] 4) 5⟩

/-- The state after `New(4, 6, 10)`, `Put(i, (NaN,5))` for `i = 0, 1, 2`, `Put(3, (2,2))`
and `Put(4, (3,3))`. -/
def hiddenIndex : ToroidalQuadtree :=
  ⟨4,
   [(4, ⟨3, 3⟩), (3, ⟨2, 2⟩), (2, ⟨.nan, 5⟩), (1, ⟨.nan, 5⟩), (0, ⟨.nan, 5⟩)],
   .node ⟨0, 0⟩ ⟨6, 10⟩ []
     (.leaf ⟨0, 0⟩ ⟨.nan, 5⟩ [] 0)
     (.leaf ⟨.nan, 0⟩ ⟨6, 5⟩ [] 0)
     (.leaf ⟨0, 5⟩ ⟨.nan, 10⟩ [] 0)
     (.leaf ⟨.nan, 5⟩ ⟨6, 10⟩ [0, 1, 2, 3, 4] 5) 5⟩

/-- The state after `New(4, 6, 10)`, `Put(i, (NaN,5))` for `i = 10, 11, 12`,
`Put(13, (2,2))`, `Put(0, (3,3))` and `Put(0, (1,1))`. -/
def movedIndex : ToroidalQuadtree :=
  ⟨4,
   [(0, ⟨1, 1⟩), (13, ⟨2, 2⟩), (12, ⟨.nan, 5⟩), (11, ⟨.nan, 5⟩), (10, ⟨.nan, 5⟩)],
   .node ⟨0, 0⟩ ⟨6, 10⟩ []
     (.leaf ⟨0, 0⟩ ⟨.nan, 5⟩ [] 0)
     (.leaf ⟨.nan, 0⟩ ⟨6, 5⟩ [] 0)
     (.leaf ⟨0, 5⟩ ⟨.nan, 10⟩ [] 0)
     (.node ⟨.nan, 5⟩ ⟨6, 10⟩ []
       (.leaf ⟨.nan, 5⟩ ⟨.nan, 5⟩ [] 0)
       (.leaf ⟨.nan, 5⟩ ⟨6, 5⟩ [] 0)
       (.leaf ⟨.nan, 5⟩ ⟨.nan, 10⟩ [] 0)
       (.leaf ⟨.nan, 5⟩ ⟨6, 10⟩ [10, 11, 12, 13, 0] 5) 5) 5⟩

/-- The state after `New(4, 6, 10)` and `Put(0, (NaN,NaN))`. -/
def nanLeafIndex : ToroidalQuadtree :=
  ⟨4, [(0, nanPoint)], .leaf ⟨0, 0⟩ ⟨6, 10⟩ [0] 1⟩

/-- The state after `New(4, 6, 10)`, `Put(i, (NaN,NaN))` for `i = 0, 1, 2`,
`Put(3, (1,1))` and `Put(4, (2,2))`. -/
def nanSplitIndex : ToroidalQuadtree :=
  ⟨4,
   [(4, ⟨2, 2⟩), (3, ⟨1, 1⟩), (2, nanPoint), (1, nanPoint), (0, nanPoint)],
   .node ⟨0, 0⟩ ⟨6, 10⟩ []
     (.leaf ⟨0, 0⟩ ⟨.nan, .nan⟩ [] 0)
     (.leaf ⟨.nan, 0⟩ ⟨6, .nan⟩ [] 0)
     (.leaf ⟨0, .nan⟩ ⟨.nan, 10⟩ [] 0)
     (.leaf ⟨.nan, .nan⟩ ⟨6, 10⟩ [0, 1, 2, 3, 4] 5) 5⟩

/-- The finite value `2 ^ 1023`, below `math.MaxFloat64`. -/
def big : Float64 := .num (2 ^ 1023)

/-- The finite value `1.5 * 2 ^ 1023`, below `math.MaxFloat64`. -/
def bigger : Float64 := .num (3 * 2 ^ 1022)

/-- The plane of width and height `math.MaxFloat64`, as a corner. -/
def maxCorner : Vector := ⟨.maxFloat64, .maxFloat64⟩

/-- The state after `New(5, MaxFloat64, MaxFloat64)`, `Put(0, (NaN,NaN))` and
`Put(i, (2^1023, 2^1023))` for `i = 1, …, 5`. -/
def prunedIndex : ToroidalQuadtree :=
  ⟨5,
   [(5, ⟨big, big⟩), (4, ⟨big, big⟩), (3, ⟨big, big⟩), (2, ⟨big, big⟩), (1, ⟨big, big⟩),
    (0, nanPoint)],
   .node ⟨0, 0⟩ maxCorner []
     (.leaf ⟨0, 0⟩ ⟨.posInf, .posInf⟩ [1, 2, 3, 4, 5] 5)
     (.leaf ⟨.posInf, 0⟩ ⟨.maxFloat64, .posInf⟩ [] 0)
     (.leaf ⟨0, .posInf⟩ ⟨.posInf, .maxFloat64⟩ [] 0)
     (.leaf ⟨.posInf, .posInf⟩ maxCorner [0] 1) 6⟩

/-- The state after `New(4, -1, 10)` and `Put(0, (NaN,NaN))`. -/
def negativeIndex : ToroidalQuadtree :=
  ⟨4, [(0, nanPoint)], .leaf ⟨0, 0⟩ ⟨.num (-1), 10⟩ [0] 1⟩

/-- The state after `New(5, MaxFloat64, MaxFloat64)` and `Put(i, (2^1023, 2^1023))` for
`i = 0, …, 5`. -/
def overflowIndex : ToroidalQuadtree :=
  ⟨5,
   [(5, ⟨big, big⟩), (4, ⟨big, big⟩), (3, ⟨big, big⟩), (2, ⟨big, big⟩), (1, ⟨big, big⟩),
    (0, ⟨big, big⟩)],
   .node ⟨0, 0⟩ maxCorner []
     (.leaf ⟨0, 0⟩ ⟨.posInf, .posInf⟩ [0, 1, 2, 3, 4, 5] 6)
     (.leaf ⟨.posInf, 0⟩ ⟨.maxFloat64, .posInf⟩ [] 0)
     (.leaf ⟨0, .posInf⟩ ⟨.posInf, .maxFloat64⟩ [] 0)
     (.leaf ⟨.posInf, .posInf⟩ maxCorner [] 0) 6⟩

/-- Six stored points: three at `(2^1023, 2^1023)`, three at `(1.5 * 2^1023, 1.5 * 2^1023)`. -/
def farPoints : LeafMap :=
  [(5, ⟨bigger, bigger⟩), (4, ⟨bigger, bigger⟩), (3, ⟨bigger, bigger⟩),
   (2, ⟨big, big⟩), (1, ⟨big, big⟩), (0, ⟨big, big⟩)]

/-- The state after `New(5, MaxFloat64, MaxFloat64)`, `Put(i, (2^1023, 2^1023))` for
`i = 0, 1, 2` and `Put(i, (1.5 * 2^1023, 1.5 * 2^1023))` for `i = 3, 4, 5`. -/
def farIndex : ToroidalQuadtree :=
  ⟨5, farPoints,
   .node ⟨0, 0⟩ maxCorner []
     (.leaf ⟨0, 0⟩ ⟨.posInf, .posInf⟩ [0, 1, 2, 3, 4, 5] 6)
     (.leaf ⟨.posInf, 0⟩ ⟨.maxFloat64, .posInf⟩ [] 0)
     (.leaf ⟨0, .posInf⟩ ⟨.posInf, .maxFloat64⟩ [] 0)
     (.leaf ⟨.posInf, .posInf⟩ maxCorner [] 0) 6⟩

/-- Two stored points whose X coordinates are the neighbours `1` and `1 + 2^-52`. -/
def nearPoints : LeafMap :=
  [(1, ⟨.num (1 + 1 / 2 ^ 52), 0⟩), (0, ⟨1, 0⟩)]

end F64

/-! ## The location map -/

theorem mapGet_eq_none_iff (m : LeafMap) (id : Nat) :
    mapGet m id = none ↔ id ∉ mapKeys m := by
  induction m with
  | nil => simp [mapGet, mapKeys]
  | cons e rest ih =>
    obtain ⟨k, v⟩ := e
    by_cases hk : k = id
    · simp [mapGet, mapKeys, hk]
    · have hk2 : ¬ id = k := fun h => hk h.symm
      simpa [mapGet, mapKeys, hk, hk2] using ih

theorem mapGet_isSome_iff (m : LeafMap) (id : Nat) :
    (∃ p, mapGet m id = some p) ↔ id ∈ mapKeys m := by
  rw [← not_iff_not, ← mapGet_eq_none_iff]
  cases mapGet m id <;> simp

theorem mapGet_mapDelete_self (m : LeafMap) (id : Nat) :
    mapGet (mapDelete m id) id = none := by
  rw [mapGet_eq_none_iff]
  simp [mapKeys, mapDelete, List.mem_map, List.mem_filter]

theorem mapDelete_cons (k : Nat) (v : Vector) (rest : LeafMap) (id : Nat) :
    mapDelete ((k, v) :: rest) id =
      if k = id then mapDelete rest id else (k, v) :: mapDelete rest id := by
  by_cases hk : k = id <;> simp [mapDelete, List.filter_cons, hk]

theorem mapGet_mapDelete_ne (m : LeafMap) {id j : Nat} (h : j ≠ id) :
    mapGet (mapDelete m id) j = mapGet m j := by
  induction m with
  | nil => simp [mapDelete, mapGet]
  | cons e rest ih =>
    obtain ⟨k, v⟩ := e
    rw [mapDelete_cons]
    by_cases hk : k = id
    · have hkj : ¬ k = j := fun h2 => h (h2.symm.trans hk)
      rw [if_pos hk, ih]; simp [mapGet, hkj]
    · rw [if_neg hk]
      by_cases hkj : k = j
      · simp [mapGet, hkj]
      · simp [mapGet, hkj, ih]

theorem mapGet_mapSet_self (m : LeafMap) (id : Nat) (p : Vector) :
    mapGet (mapSet m id p) id = some p := by
  simp [mapSet, mapGet]

theorem mapGet_mapSet_ne (m : LeafMap) {id j : Nat} (p : Vector) (h : j ≠ id) :
    mapGet (mapSet m id p) j = mapGet m j := by
  have h2 : ¬ id = j := fun h3 => h h3.symm
  simp [mapSet, mapGet, h2, mapGet_mapDelete_ne m h]

theorem mapKeys_mapDelete (m : LeafMap) (id : Nat) :
    mapKeys (mapDelete m id) = (mapKeys m).filter (fun k => decide (k ≠ id)) := by
  induction m with
  | nil => simp [mapDelete, mapKeys]
  | cons e rest ih =>
    obtain ⟨k, v⟩ := e
    by_cases hk : k = id
    · simpa [mapDelete, mapKeys, hk, List.filter_cons] using ih
    · simpa [mapDelete, mapKeys, hk, List.filter_cons] using ih

theorem mapDelete_of_not_mem (m : LeafMap) {id : Nat} (h : id ∉ mapKeys m) :
    mapDelete m id = m := by
  unfold mapDelete
  rw [List.filter_eq_self]
  intro e he
  have : e.1 ∈ mapKeys m := List.mem_map_of_mem _ he
  have hne : e.1 ≠ id := fun h2 => h (h2 ▸ this)
  simpa using hne

theorem mapDelete_mapDelete (m : LeafMap) (id : Nat) :
    mapDelete (mapDelete m id) id = mapDelete m id := by
  apply mapDelete_of_not_mem
  rw [← mapGet_eq_none_iff]
  exact mapGet_mapDelete_self m id

theorem mapKeys_mapDelete_nodup (m : LeafMap) (id : Nat) (h : (mapKeys m).Nodup) :
    (mapKeys (mapDelete m id)).Nodup := by
  rw [mapKeys_mapDelete]; exact h.filter _

theorem mem_mapKeys_mapDelete (m : LeafMap) (id j : Nat) :
    j ∈ mapKeys (mapDelete m id) ↔ j ∈ mapKeys m ∧ j ≠ id := by
  rw [mapKeys_mapDelete]; simp [List.mem_filter]

theorem mapKeys_mapSet (m : LeafMap) (id : Nat) (p : Vector) :
    mapKeys (mapSet m id p) = id :: mapKeys (mapDelete m id) := by
  simp [mapSet, mapKeys]

/-! ## Routing -/

theorem destRegion_eq_zero_iff (p med : Vector) :
    destRegion p med = 0 ↔ p.X < med.X ∧ p.Y < med.Y := by
  unfold destRegion
  split_ifs with h0 h1 h2 <;> simp_all

theorem destRegion_eq_one_iff (p med : Vector) :
    destRegion p med = 1 ↔ med.X ≤ p.X ∧ p.Y < med.Y := by
  unfold destRegion
  split_ifs with h0 h1 h2 <;> simp_all

theorem destRegion_eq_two_iff (p med : Vector) :
    destRegion p med = 2 ↔ p.X < med.X ∧ med.Y ≤ p.Y := by
  unfold destRegion
  split_ifs with h0 h1 h2 <;> simp_all

theorem destRegion_eq_three_iff (p med : Vector) :
    destRegion p med = 3 ↔ med.X ≤ p.X ∧ med.Y ≤ p.Y := by
  unfold destRegion
  split_ifs with h0 h1 h2 <;> simp_all

theorem refile_leaves (m : LeafMap) (med : Vector) (ls : List Nat)
    (r0 s0 r1 s1 r2 s2 r3 s3 : Vector) (a0 a1 a2 a3 : List Nat) (c0 c1 c2 c3 : Int) :
    refile m med ls
        (.leaf r0 s0 a0 c0, .leaf r1 s1 a1 c1, .leaf r2 s2 a2 c2, .leaf r3 s3 a3 c3) =
      (.leaf r0 s0 (a0 ++ routed m med 0 ls) (c0 + (routed m med 0 ls).length),
       .leaf r1 s1 (a1 ++ routed m med 1 ls) (c1 + (routed m med 1 ls).length),
       .leaf r2 s2 (a2 ++ routed m med 2 ls) (c2 + (routed m med 2 ls).length),
       .leaf r3 s3 (a3 ++ routed m med 3 ls) (c3 + (routed m med 3 ls).length)) := by
  induction ls generalizing a0 a1 a2 a3 c0 c1 c2 c3 with
  | nil => simp [refile, routed]
  | cons id rest ih =>
    simp only [refile]
    split
    next h => simp [tree.addLeaf, ih, routed, List.filter_cons, h, add_assoc, add_comm]
    next h => simp [tree.addLeaf, ih, routed, List.filter_cons, h, add_assoc, add_comm]
    next h => simp [tree.addLeaf, ih, routed, List.filter_cons, h, add_assoc, add_comm]
    next h => simp [tree.addLeaf, ih, routed, List.filter_cons, h, add_assoc, add_comm]

/-! ## The median -/

theorem sorted_getElem_bounds (xs : List ℚ) (a b : ℚ) (h : ∀ x ∈ xs, a ≤ x ∧ x < b)
    (i : Nat) (hi : i < xs.length) :
    ∃ x, (xs.insertionSort (· ≤ ·))[i]? = some x ∧ a ≤ x ∧ x < b := by
  have hlen : (xs.insertionSort (· ≤ ·)).length = xs.length := List.length_insertionSort _ _
  have hi2 : i < (xs.insertionSort (· ≤ ·)).length := by omega
  refine ⟨(xs.insertionSort (· ≤ ·))[i], List.getElem?_eq_getElem hi2, ?_⟩
  have hmem : (xs.insertionSort (· ≤ ·))[i] ∈ xs.insertionSort (· ≤ ·) :=
    List.getElem_mem hi2
  exact h _ ((List.perm_insertionSort (· ≤ ·) xs).mem_iff.1 hmem)

theorem medianLocation_inRegion (ids : List Nat) (m : LeafMap) (tl br : Vector)
    (hne : ids ≠ []) (h : ∀ id ∈ ids, inRegion (mapIndex m id) tl br) :
    ∃ med, medianLocation ids m = some med ∧ inRegion med tl br := by
  have hpos : 0 < ids.length := List.length_pos.2 hne
  have hx : ∀ x ∈ ids.map (fun id => (mapIndex m id).X), tl.X ≤ x ∧ x < br.X := by
    intro x hx
    obtain ⟨id, hid, rfl⟩ := List.mem_map.1 hx
    exact ⟨(h id hid).1, (h id hid).2.1⟩
  have hy : ∀ y ∈ ids.map (fun id => (mapIndex m id).Y), tl.Y ≤ y ∧ y < br.Y := by
    intro y hy
    obtain ⟨id, hid, rfl⟩ := List.mem_map.1 hy
    exact ⟨(h id hid).2.2.1, (h id hid).2.2.2⟩
  unfold medianLocation
  by_cases hpar : ids.length % 2 = 0
  · have h1 : ids.length / 2 < (ids.map (fun id => (mapIndex m id).X)).length := by
      simp; omega
    have h2 : ids.length / 2 - 1 < (ids.map (fun id => (mapIndex m id).X)).length := by
      simp; omega
    have h3 : ids.length / 2 < (ids.map (fun id => (mapIndex m id).Y)).length := by
      simp; omega
    have h4 : ids.length / 2 - 1 < (ids.map (fun id => (mapIndex m id).Y)).length := by
      simp; omega
    obtain ⟨x1, e1, b1⟩ := sorted_getElem_bounds _ _ _ hx _ h1
    obtain ⟨x2, e2, b2⟩ := sorted_getElem_bounds _ _ _ hx _ h2
    obtain ⟨y1, e3, b3⟩ := sorted_getElem_bounds _ _ _ hy _ h3
    obtain ⟨y2, e4, b4⟩ := sorted_getElem_bounds _ _ _ hy _ h4
    simp only [if_pos hpar, e1, e2, e3, e4]
    refine ⟨_, rfl, ?_, ?_, ?_, ?_⟩ <;> simp only <;> linarith [b1.1, b1.2, b2.1, b2.2,
      b3.1, b3.2, b4.1, b4.2]
  · have h1 : ids.length / 2 < (ids.map (fun id => (mapIndex m id).X)).length := by
      simp; omega
    have h3 : ids.length / 2 < (ids.map (fun id => (mapIndex m id).Y)).length := by
      simp; omega
    obtain ⟨x1, e1, b1⟩ := sorted_getElem_bounds _ _ _ hx _ h1
    obtain ⟨y1, e3, b3⟩ := sorted_getElem_bounds _ _ _ hy _ h3
    simp only [if_neg hpar, e1, e3]
    exact ⟨_, rfl, b1.1, b1.2, b3.1, b3.2⟩

/-! ## Well-formed trees -/

@[simp] theorem tree.topLeft_leaf (tl br : Vector) (ls : List Nat) (c : Int) :
    (tree.leaf tl br ls c).topLeft = tl := rfl

@[simp] theorem tree.topLeft_node (tl br : Vector) (ls : List Nat) (b0 b1 b2 b3 : tree)
    (c : Int) : (tree.node tl br ls b0 b1 b2 b3 c).topLeft = tl := rfl

@[simp] theorem tree.bottomRight_leaf (tl br : Vector) (ls : List Nat) (c : Int) :
    (tree.leaf tl br ls c).bottomRight = br := rfl

@[simp] theorem tree.bottomRight_node (tl br : Vector) (ls : List Nat) (b0 b1 b2 b3 : tree)
    (c : Int) : (tree.node tl br ls b0 b1 b2 b3 c).bottomRight = br := rfl

@[simp] theorem tree.leaves_leaf (tl br : Vector) (ls : List Nat) (c : Int) :
    (tree.leaf tl br ls c).leaves = ls := rfl

@[simp] theorem tree.leaves_node (tl br : Vector) (ls : List Nat) (b0 b1 b2 b3 : tree)
    (c : Int) : (tree.node tl br ls b0 b1 b2 b3 c).leaves = ls := rfl

@[simp] theorem tree.count_leaf (tl br : Vector) (ls : List Nat) (c : Int) :
    (tree.leaf tl br ls c).count = c := rfl

@[simp] theorem tree.count_node (tl br : Vector) (ls : List Nat) (b0 b1 b2 b3 : tree)
    (c : Int) : (tree.node tl br ls b0 b1 b2 b3 c).count = c := rfl

@[simp] theorem tree.ids_leaf (tl br : Vector) (ls : List Nat) (c : Int) :
    (tree.leaf tl br ls c).ids = ls := rfl

@[simp] theorem tree.ids_node (tl br : Vector) (ls : List Nat) (b0 b1 b2 b3 : tree)
    (c : Int) :
    (tree.node tl br ls b0 b1 b2 b3 c).ids = b0.ids ++ b1.ids ++ b2.ids ++ b3.ids := rfl

theorem mapIndex_of_mapGet {m : LeafMap} {id : Nat} {p : Vector} (h : mapGet m id = some p) :
    mapIndex m id = p := by
  simp [mapIndex, h]

theorem WF.count_eq {n : Int} {m : LeafMap} {t : tree} (h : WF n m t) :
    t.count = t.ids.length := by
  induction t with
  | leaf tl br ls c => exact h.1
  | node tl br ls b0 b1 b2 b3 c ih0 ih1 ih2 ih3 =>
    obtain ⟨-, hc, -, -, -, -, -, -, -, -, -, w0, w1, w2, w3⟩ := h
    have h0 := ih0 w0
    have h1 := ih1 w1
    have h2 := ih2 w2
    have h3 := ih3 w3
    simp only [tree.count_node, tree.ids_node, List.length_append, hc]
    push_cast; omega

theorem WF.congr {n : Int} {m m2 : LeafMap} {t : tree} (h : WF n m t)
    (hm : ∀ id ∈ t.ids, mapGet m2 id = mapGet m id) : WF n m2 t := by
  induction t with
  | leaf tl br ls c =>
    refine ⟨h.1, fun id hid => ?_⟩
    rw [hm id hid]; exact h.2 id hid
  | node tl br ls b0 b1 b2 b3 c ih0 ih1 ih2 ih3 =>
    obtain ⟨hls, hc, hn1, e0, e1, f1, e2, f2, e3, f3, hord, w0, w1, w2, w3⟩ := h
    simp only [tree.ids_node, List.mem_append] at hm
    exact ⟨hls, hc, hn1, e0, e1, f1, e2, f2, e3, f3, hord,
      ih0 w0 (fun id hid => hm id (Or.inl (Or.inl (Or.inl hid)))),
      ih1 w1 (fun id hid => hm id (Or.inl (Or.inl (Or.inr hid)))),
      ih2 w2 (fun id hid => hm id (Or.inl (Or.inr hid))),
      ih3 w3 (fun id hid => hm id (Or.inr hid))⟩

theorem mem_inRegion_of_branches {m : LeafMap} {tl br : Vector} {b0 b1 b2 b3 : tree}
    (e0 : b0.topLeft = tl)
    (e1 : b1.topLeft = ⟨b0.bottomRight.X, tl.Y⟩) (f1 : b1.bottomRight = ⟨br.X, b0.bottomRight.Y⟩)
    (e2 : b2.topLeft = ⟨tl.X, b0.bottomRight.Y⟩) (f2 : b2.bottomRight = ⟨b0.bottomRight.X, br.Y⟩)
    (e3 : b3.topLeft = b0.bottomRight) (f3 : b3.bottomRight = br)
    (hord : tl.X ≤ b0.bottomRight.X ∧ b0.bottomRight.X ≤ br.X ∧
      tl.Y ≤ b0.bottomRight.Y ∧ b0.bottomRight.Y ≤ br.Y)
    (h0 : ∀ id ∈ b0.ids, ∃ p, mapGet m id = some p ∧ inRegion p b0.topLeft b0.bottomRight)
    (h1 : ∀ id ∈ b1.ids, ∃ p, mapGet m id = some p ∧ inRegion p b1.topLeft b1.bottomRight)
    (h2 : ∀ id ∈ b2.ids, ∃ p, mapGet m id = some p ∧ inRegion p b2.topLeft b2.bottomRight)
    (h3 : ∀ id ∈ b3.ids, ∃ p, mapGet m id = some p ∧ inRegion p b3.topLeft b3.bottomRight)
    {id : Nat} (hid : id ∈ b0.ids ++ b1.ids ++ b2.ids ++ b3.ids) :
    ∃ p, mapGet m id = some p ∧ inRegion p tl br := by
  simp only [List.mem_append] at hid
  rcases hid with ((hid | hid) | hid) | hid
  · obtain ⟨p, hp, hr⟩ := h0 id hid
    rw [e0] at hr
    exact ⟨p, hp, hr.1, by linarith [hr.2.1, hord.2.1], hr.2.2.1,
      by linarith [hr.2.2.2, hord.2.2.2]⟩
  · obtain ⟨p, hp, hr⟩ := h1 id hid
    rw [e1, f1] at hr
    exact ⟨p, hp, by linarith [hr.1, hord.1], hr.2.1, hr.2.2.1,
      by linarith [hr.2.2.2, hord.2.2.2]⟩
  · obtain ⟨p, hp, hr⟩ := h2 id hid
    rw [e2, f2] at hr
    exact ⟨p, hp, hr.1, by linarith [hr.2.1, hord.2.1],
      by linarith [hr.2.2.1, hord.2.2.1], hr.2.2.2⟩
  · obtain ⟨p, hp, hr⟩ := h3 id hid
    rw [e3, f3] at hr
    exact ⟨p, hp, by linarith [hr.1, hord.1], hr.2.1,
      by linarith [hr.2.2.1, hord.2.2.1], hr.2.2.2⟩

theorem WF.mem_inRegion {n : Int} {m : LeafMap} {t : tree} (h : WF n m t) {id : Nat}
    (hid : id ∈ t.ids) : ∃ p, mapGet m id = some p ∧ inRegion p t.topLeft t.bottomRight := by
  induction t generalizing id with
  | leaf tl br ls c => exact h.2 id hid
  | node tl br ls b0 b1 b2 b3 c ih0 ih1 ih2 ih3 =>
    obtain ⟨-, -, -, e0, e1, f1, e2, f2, e3, f3, hord, w0, w1, w2, w3⟩ := h
    exact mem_inRegion_of_branches e0 e1 f1 e2 f2 e3 f3 hord
      (fun _ hj => ih0 w0 hj) (fun _ hj => ih1 w1 hj) (fun _ hj => ih2 w2 hj)
      (fun _ hj => ih3 w3 hj) hid

theorem fin_four_cases (k : Fin 4) : k = 0 ∨ k = 1 ∨ k = 2 ∨ k = 3 := by
  revert k; decide

theorem count_routed (m : LeafMap) (med : Vector) (k : Fin 4) (ls : List Nat) (a : Nat) :
    (routed m med k ls).count a =
      if destRegion (mapIndex m a) med = k then ls.count a else 0 := by
  unfold routed
  split_ifs with h
  · exact List.count_filter (by simpa using h)
  · rw [List.count_eq_zero]
    intro hmem
    exact h (by simpa using (List.mem_filter.1 hmem).2)

theorem routed_perm (m : LeafMap) (med : Vector) (ls : List Nat) :
    (routed m med 0 ls ++ routed m med 1 ls ++ routed m med 2 ls ++ routed m med 3 ls).Perm
      ls := by
  rw [List.perm_iff_count]
  intro a
  simp only [List.count_append, count_routed]
  rcases fin_four_cases (destRegion (mapIndex m a) med) with h | h | h | h <;> simp [h]

theorem mem_routed {m : LeafMap} {med : Vector} {k : Fin 4} {ls : List Nat} {id : Nat} :
    id ∈ routed m med k ls ↔ id ∈ ls ∧ destRegion (mapIndex m id) med = k := by
  simp [routed, List.mem_filter]

/-! ## `subdivide` and `put` -/

theorem subdivide_leaf_eq {n : Int} {m : LeafMap} {tl br med : Vector} {ls : List Nat}
    {c : Int} (hn : 0 ≤ n) (hmed : medianLocation ls m = some med) :
    tree.subdivide n m (.leaf tl br ls c) = some (.node tl br []
      (.leaf tl med (routed m med 0 ls) (routed m med 0 ls).length)
      (.leaf ⟨med.X, tl.Y⟩ ⟨br.X, med.Y⟩ (routed m med 1 ls) (routed m med 1 ls).length)
      (.leaf ⟨tl.X, med.Y⟩ ⟨med.X, br.Y⟩ (routed m med 2 ls) (routed m med 2 ls).length)
      (.leaf med br (routed m med 3 ls) (routed m med 3 ls).length) c) := by
  simp [tree.subdivide, hmed, refile_leaves, not_lt.2 hn]

theorem WF_subdivided {n : Int} {m : LeafMap} {tl br med : Vector} {ls : List Nat}
    {c : Int} (hc : c = ls.length) (hgt : n - 1 ≤ c) (hreg : inRegion med tl br)
    (hall : ∀ j ∈ ls, ∃ q, mapGet m j = some q ∧ inRegion q tl br) :
    WF n m (.node tl br []
      (.leaf tl med (routed m med 0 ls) (routed m med 0 ls).length)
      (.leaf ⟨med.X, tl.Y⟩ ⟨br.X, med.Y⟩ (routed m med 1 ls) (routed m med 1 ls).length)
      (.leaf ⟨tl.X, med.Y⟩ ⟨med.X, br.Y⟩ (routed m med 2 ls) (routed m med 2 ls).length)
      (.leaf med br (routed m med 3 ls) (routed m med 3 ls).length) c) := by
  have hlen := (routed_perm m med ls).length_eq
  simp only [List.length_append] at hlen
  refine ⟨rfl, ?_, hgt, rfl, rfl, rfl, rfl, rfl, rfl, rfl,
    ⟨hreg.1, le_of_lt hreg.2.1, hreg.2.2.1, le_of_lt hreg.2.2.2⟩,
    ⟨rfl, ?_⟩, ⟨rfl, ?_⟩, ⟨rfl, ?_⟩, ⟨rfl, ?_⟩⟩
  · simp only [tree.count_leaf, hc]; omega
  · intro j hj
    obtain ⟨hj1, hj2⟩ := mem_routed.1 hj
    obtain ⟨q, hq, hr⟩ := hall j hj1
    rw [mapIndex_of_mapGet hq, destRegion_eq_zero_iff] at hj2
    exact ⟨q, hq, hr.1, hj2.1, hr.2.2.1, hj2.2⟩
  · intro j hj
    obtain ⟨hj1, hj2⟩ := mem_routed.1 hj
    obtain ⟨q, hq, hr⟩ := hall j hj1
    rw [mapIndex_of_mapGet hq, destRegion_eq_one_iff] at hj2
    exact ⟨q, hq, hj2.1, hr.2.1, hr.2.2.1, hj2.2⟩
  · intro j hj
    obtain ⟨hj1, hj2⟩ := mem_routed.1 hj
    obtain ⟨q, hq, hr⟩ := hall j hj1
    rw [mapIndex_of_mapGet hq, destRegion_eq_two_iff] at hj2
    exact ⟨q, hq, hr.1, hj2.1, hj2.2, hr.2.2.2⟩
  · intro j hj
    obtain ⟨hj1, hj2⟩ := mem_routed.1 hj
    obtain ⟨q, hq, hr⟩ := hall j hj1
    rw [mapIndex_of_mapGet hq, destRegion_eq_three_iff] at hj2
    exact ⟨q, hq, hj2.1, hr.2.1, hj2.2, hr.2.2.2⟩

theorem put_spec {n : Int} {m : LeafMap} (hn : 0 ≤ n) {id : Nat} {p : Vector}
    (hm : mapGet m id = some p) (t : tree) (hwf : WF n m t)
    (hp : inRegion p t.topLeft t.bottomRight) :
    ∃ t1, tree.put n m t id p = some t1 ∧ WF n m t1 ∧ t1.ids.Perm (id :: t.ids) ∧
      t1.topLeft = t.topLeft ∧ t1.bottomRight = t.bottomRight ∧
      t1.count = t.count + 1 := by
  induction t with
  | leaf tl br ls c =>
    obtain ⟨hc, hmem⟩ := hwf
    have hall : ∀ j ∈ ls ++ [id], ∃ q, mapGet m j = some q ∧ inRegion q tl br := by
      intro j hj
      rcases List.mem_append.1 hj with h | h
      · exact hmem j h
      · rw [List.mem_singleton] at h; subst h; exact ⟨p, hm, hp⟩
    simp only [tree.put]
    split_ifs with hgt
    · have hall2 : ∀ j ∈ ls ++ [id], inRegion (mapIndex m j) tl br := by
        intro j hj
        obtain ⟨q, hq, hr⟩ := hall j hj
        rw [mapIndex_of_mapGet hq]; exact hr
      obtain ⟨med, hmed, hreg⟩ :=
        medianLocation_inRegion (ls ++ [id]) m tl br (by simp) hall2
      rw [subdivide_leaf_eq hn hmed]
      refine ⟨_, rfl, ?_, ?_, rfl, rfl, rfl⟩
      · refine WF_subdivided ?_ ?_ hreg hall
        · simp [hc]
        · simp only [List.length_append, List.length_singleton] at hgt
          push_cast at hgt
          omega
      · simp only [tree.incCount, tree.ids_node, tree.ids_leaf]
        exact (routed_perm m med (ls ++ [id])).trans (List.perm_append_singleton _ _)
    · refine ⟨_, rfl, ⟨by simp [hc], hall⟩, ?_, rfl, rfl, rfl⟩
      simp only [tree.ids_leaf]
      exact List.perm_append_singleton _ _
  | node tl br ls b0 b1 b2 b3 c ih0 ih1 ih2 ih3 =>
    obtain ⟨hls, hc, hn1, e0, e1, f1, e2, f2, e3, f3, hord, w0, w1, w2, w3⟩ := hwf
    simp only [tree.topLeft_node, tree.bottomRight_node] at hp
    simp only [tree.put]
    split
    next hk =>
      rw [destRegion_eq_zero_iff] at hk
      have hp0 : inRegion p b0.topLeft b0.bottomRight := by
        rw [e0]; exact ⟨hp.1, hk.1, hp.2.2.1, hk.2⟩
      obtain ⟨b, hb, hw, hperm, htl, hbr, hcnt⟩ := ih0 w0 hp0
      rw [hb]
      refine ⟨_, rfl, ⟨hls, ?_, by omega, htl.trans e0, by rw [hbr]; exact e1,
        by rw [hbr]; exact f1, by rw [hbr]; exact e2, by rw [hbr]; exact f2,
        by rw [hbr]; exact e3, f3, by rw [hbr]; exact hord, hw, w1, w2, w3⟩,
        ?_, rfl, rfl, rfl⟩
      · rw [hcnt, hc]; ring
      · rw [List.perm_iff_count] at hperm ⊢
        intro a
        have := hperm a
        simp only [tree.ids_node, List.count_append, List.count_cons] at this ⊢
        omega
    next hk =>
      rw [destRegion_eq_one_iff] at hk
      have hp0 : inRegion p b1.topLeft b1.bottomRight := by
        rw [e1, f1]; exact ⟨hk.1, hp.2.1, hp.2.2.1, hk.2⟩
      obtain ⟨b, hb, hw, hperm, htl, hbr, hcnt⟩ := ih1 w1 hp0
      rw [hb]
      refine ⟨_, rfl, ⟨hls, ?_, by omega, e0, htl.trans e1, hbr.trans f1, e2, f2, e3, f3,
        hord, w0, hw, w2, w3⟩, ?_, rfl, rfl, rfl⟩
      · rw [hcnt, hc]; ring
      · rw [List.perm_iff_count] at hperm ⊢
        intro a
        have := hperm a
        simp only [tree.ids_node, List.count_append, List.count_cons] at this ⊢
        omega
    next hk =>
      rw [destRegion_eq_two_iff] at hk
      have hp0 : inRegion p b2.topLeft b2.bottomRight := by
        rw [e2, f2]; exact ⟨hp.1, hk.1, hk.2, hp.2.2.2⟩
      obtain ⟨b, hb, hw, hperm, htl, hbr, hcnt⟩ := ih2 w2 hp0
      rw [hb]
      refine ⟨_, rfl, ⟨hls, ?_, by omega, e0, e1, f1, htl.trans e2, hbr.trans f2, e3, f3,
        hord, w0, w1, hw, w3⟩, ?_, rfl, rfl, rfl⟩
      · rw [hcnt, hc]; ring
      · rw [List.perm_iff_count] at hperm ⊢
        intro a
        have := hperm a
        simp only [tree.ids_node, List.count_append, List.count_cons] at this ⊢
        omega
    next hk =>
      rw [destRegion_eq_three_iff] at hk
      have hp0 : inRegion p b3.topLeft b3.bottomRight := by
        rw [e3, f3]; exact ⟨hk.1, hp.2.1, hk.2, hp.2.2.2⟩
      obtain ⟨b, hb, hw, hperm, htl, hbr, hcnt⟩ := ih3 w3 hp0
      rw [hb]
      refine ⟨_, rfl, ⟨hls, ?_, by omega, e0, e1, f1, e2, f2, htl.trans e3, hbr.trans f3,
        hord, w0, w1, w2, hw⟩, ?_, rfl, rfl, rfl⟩
      · rw [hcnt, hc]; ring
      · rw [List.perm_iff_count] at hperm ⊢
        intro a
        have := hperm a
        simp only [tree.ids_node, List.count_append, List.count_cons] at this ⊢
        omega

/-! ## `remove` -/

theorem overwriteFirst_of_not_mem {id last : Nat} {xs : List Nat} (h : id ∉ xs) :
    overwriteFirst id last xs = xs := by
  induction xs with
  | nil => rfl
  | cons x xs ih =>
    have hx : ¬ x = id := fun e => h (by simp [e])
    have hxs : id ∉ xs := fun e => h (List.mem_cons_of_mem _ e)
    simp [overwriteFirst, hx, ih hxs]

theorem overwriteFirst_perm {id last : Nat} {xs : List Nat} (h : id ∈ xs) :
    (id :: overwriteFirst id last xs).Perm (last :: xs) := by
  induction xs with
  | nil => simp at h
  | cons x xs ih =>
    by_cases hx : x = id
    · subst hx
      simp only [overwriteFirst, if_true]
      exact List.Perm.swap _ _ _
    · have hxs : id ∈ xs := by
        rcases List.mem_cons.1 h with e | e
        · exact absurd e.symm hx
        · exact e
      simp only [overwriteFirst, if_neg hx]
      have := ih hxs
      rw [List.perm_iff_count] at this ⊢
      intro a
      have := this a
      simp only [List.count_cons] at this ⊢
      omega

theorem removeLeaf_perm {ls : List Nat} {id : Nat} (h : id ∈ ls) :
    (id :: removeLeaf ls id).Perm ls := by
  have hne : ls ≠ [] := List.ne_nil_of_mem h
  have hlast : ls.getLast? = some (ls.getLast hne) := List.getLast?_eq_getLast _ hne
  have hsplit : ls.dropLast ++ [ls.getLast hne] = ls := List.dropLast_append_getLast hne
  unfold removeLeaf
  rw [hlast]
  simp only
  by_cases hin : id ∈ ls.dropLast
  · refine (overwriteFirst_perm hin).trans ?_
    conv_rhs => rw [← hsplit]
    exact (List.perm_append_singleton _ _).symm
  · rw [overwriteFirst_of_not_mem hin]
    have hid : id = ls.getLast hne := by
      rw [← hsplit] at h
      rcases List.mem_append.1 h with e | e
      · exact absurd e hin
      · exact List.mem_singleton.1 e
    conv_rhs => rw [← hsplit]
    rw [← hid]
    exact (List.perm_append_singleton _ _).symm

theorem WF.leaves_eq_ids {n : Int} {m : LeafMap} {t : tree} (h : WF n m t)
    (hc : t.count < n - 1) : t.leaves = t.ids := by
  cases t with
  | leaf tl br ls c => rfl
  | node tl br ls b0 b1 b2 b3 c =>
    have := h.2.2.1
    simp only [tree.count_node] at hc
    omega

theorem WF.count_nonneg {n : Int} {m : LeafMap} {t : tree} (h : WF n m t) : 0 ≤ t.count := by
  rw [h.count_eq]; exact Int.natCast_nonneg _

theorem decAndMerge_spec {n : Int} {m : LeafMap} (hn : 0 ≤ n) {tl br : Vector}
    {b0 b1 b2 b3 : tree} (c : Int)
    (e0 : b0.topLeft = tl)
    (e1 : b1.topLeft = ⟨b0.bottomRight.X, tl.Y⟩) (f1 : b1.bottomRight = ⟨br.X, b0.bottomRight.Y⟩)
    (e2 : b2.topLeft = ⟨tl.X, b0.bottomRight.Y⟩) (f2 : b2.bottomRight = ⟨b0.bottomRight.X, br.Y⟩)
    (e3 : b3.topLeft = b0.bottomRight) (f3 : b3.bottomRight = br)
    (hord : tl.X ≤ b0.bottomRight.X ∧ b0.bottomRight.X ≤ br.X ∧
      tl.Y ≤ b0.bottomRight.Y ∧ b0.bottomRight.Y ≤ br.Y)
    (hc : c - 1 = b0.count + b1.count + b2.count + b3.count)
    (w0 : WF n m b0) (w1 : WF n m b1) (w2 : WF n m b2) (w3 : WF n m b3) :
    ∃ t1, tree.decAndMerge n (.node tl br [] b0 b1 b2 b3 c) = some t1 ∧ WF n m t1 ∧
      t1.ids = b0.ids ++ b1.ids ++ b2.ids ++ b3.ids ∧
      t1.topLeft = tl ∧ t1.bottomRight = br ∧ t1.count = c - 1 := by
  have n0 := w0.count_nonneg
  have n1 := w1.count_nonneg
  have n2 := w2.count_nonneg
  have n3 := w3.count_nonneg
  simp only [tree.decAndMerge]
  split_ifs with hlt hneg
  · omega
  · have l0 := w0.leaves_eq_ids (by omega)
    have l1 := w1.leaves_eq_ids (by omega)
    have l2 := w2.leaves_eq_ids (by omega)
    have l3 := w3.leaves_eq_ids (by omega)
    rw [l0, l1, l2, l3]
    refine ⟨_, rfl, ⟨?_, ?_⟩, rfl, rfl, rfl, rfl⟩
    · rw [hc, w0.count_eq, w1.count_eq, w2.count_eq, w3.count_eq]
      simp only [List.length_append]; push_cast; ring
    · intro j hj
      exact mem_inRegion_of_branches e0 e1 f1 e2 f2 e3 f3 hord
        (fun _ h => w0.mem_inRegion h) (fun _ h => w1.mem_inRegion h)
        (fun _ h => w2.mem_inRegion h) (fun _ h => w3.mem_inRegion h) hj
  · exact ⟨_, rfl, ⟨rfl, by rw [hc], by omega, e0, e1, f1, e2, f2, e3, f3, hord,
      w0, w1, w2, w3⟩, rfl, rfl, rfl, rfl⟩

theorem remove_spec {n : Int} {m : LeafMap} (hn : 0 ≤ n) {id : Nat} (t : tree)
    (hwf : WF n m t) (hid : id ∈ t.ids) :
    ∃ t1, tree.remove n t id m = some (t1, mapDelete m id) ∧ WF n m t1 ∧
      (id :: t1.ids).Perm t.ids ∧ t1.topLeft = t.topLeft ∧
      t1.bottomRight = t.bottomRight ∧ t1.count = t.count - 1 := by
  induction t with
  | leaf tl br ls c =>
    obtain ⟨hc, hmem⟩ := hwf
    simp only [tree.ids_leaf] at hid
    have hne : ls.length ≠ 0 := fun h => by
      rw [List.length_eq_zero] at h; subst h; simp at hid
    have hperm := removeLeaf_perm hid
    simp only [tree.remove, if_pos hne, tree.decAndMerge, Option.map_some']
    refine ⟨_, rfl, ⟨?_, ?_⟩, hperm, rfl, rfl, rfl⟩
    · have := hperm.length_eq
      simp only [List.length_cons] at this
      rw [hc, ← this]; push_cast; ring
    · intro j hj
      exact hmem j (hperm.subset (List.mem_cons_of_mem _ hj))
  | node tl br ls b0 b1 b2 b3 c ih0 ih1 ih2 ih3 =>
    obtain ⟨hls, hc, hn1, e0, e1, f1, e2, f2, e3, f3, hord, w0, w1, w2, w3⟩ := hwf
    subst hls
    simp only [tree.ids_node, List.mem_append] at hid
    simp only [tree.remove, List.length_nil, ne_eq, not_true_eq_false, if_false]
    rcases hid with ((hid | hid) | hid) | hid
    · obtain ⟨p, hp, hr⟩ := w0.mem_inRegion hid
      have hk : destRegion (mapIndex m id) b0.bottomRight = 0 := by
        rw [mapIndex_of_mapGet hp, destRegion_eq_zero_iff]; exact ⟨hr.2.1, hr.2.2.2⟩
      obtain ⟨b, hb, hw, hperm, htl, hbr, hcnt⟩ := ih0 w0 hid
      obtain ⟨t1, ht1, hw1, hids, htl1, hbr1, hc1⟩ :=
        decAndMerge_spec hn c (htl.trans e0) (by rw [hbr]; exact e1)
          (by rw [hbr]; exact f1) (by rw [hbr]; exact e2) (by rw [hbr]; exact f2)
          (by rw [hbr]; exact e3) f3 (by rw [hbr]; exact hord) (by rw [hcnt, hc]; ring)
          hw w1 w2 w3
      simp only [hk, hb, ht1, Option.map_some', mapDelete_mapDelete]
      refine ⟨_, rfl, hw1, ?_, htl1, hbr1, hc1⟩
      rw [hids, List.perm_iff_count] at *
      intro a
      have := hperm a
      simp only [tree.ids_node, List.count_append, List.count_cons] at this ⊢
      omega
    · obtain ⟨p, hp, hr⟩ := w1.mem_inRegion hid
      rw [e1, f1] at hr
      have hk : destRegion (mapIndex m id) b0.bottomRight = 1 := by
        rw [mapIndex_of_mapGet hp, destRegion_eq_one_iff]; exact ⟨hr.1, hr.2.2.2⟩
      obtain ⟨b, hb, hw, hperm, htl, hbr, hcnt⟩ := ih1 w1 hid
      obtain ⟨t1, ht1, hw1, hids, htl1, hbr1, hc1⟩ :=
        decAndMerge_spec hn c e0 (htl.trans e1) (hbr.trans f1) e2 f2 e3 f3
          hord (by rw [hcnt, hc]; ring) w0 hw w2 w3
      simp only [hk, hb, ht1, Option.map_some', mapDelete_mapDelete]
      refine ⟨_, rfl, hw1, ?_, htl1, hbr1, hc1⟩
      rw [hids, List.perm_iff_count] at *
      intro a
      have := hperm a
      simp only [tree.ids_node, List.count_append, List.count_cons] at this ⊢
      omega
    · obtain ⟨p, hp, hr⟩ := w2.mem_inRegion hid
      rw [e2, f2] at hr
      have hk : destRegion (mapIndex m id) b0.bottomRight = 2 := by
        rw [mapIndex_of_mapGet hp, destRegion_eq_two_iff]; exact ⟨hr.2.1, hr.2.2.1⟩
      obtain ⟨b, hb, hw, hperm, htl, hbr, hcnt⟩ := ih2 w2 hid
      obtain ⟨t1, ht1, hw1, hids, htl1, hbr1, hc1⟩ :=
        decAndMerge_spec hn c e0 e1 f1 (htl.trans e2) (hbr.trans f2) e3 f3
          hord (by rw [hcnt, hc]; ring) w0 w1 hw w3
      simp only [hk, hb, ht1, Option.map_some', mapDelete_mapDelete]
      refine ⟨_, rfl, hw1, ?_, htl1, hbr1, hc1⟩
      rw [hids, List.perm_iff_count] at *
      intro a
      have := hperm a
      simp only [tree.ids_node, List.count_append, List.count_cons] at this ⊢
      omega
    · obtain ⟨p, hp, hr⟩ := w3.mem_inRegion hid
      rw [e3] at hr
      have hk : destRegion (mapIndex m id) b0.bottomRight = 3 := by
        rw [mapIndex_of_mapGet hp, destRegion_eq_three_iff]; exact ⟨hr.1, hr.2.2.1⟩
      obtain ⟨b, hb, hw, hperm, htl, hbr, hcnt⟩ := ih3 w3 hid
      obtain ⟨t1, ht1, hw1, hids, htl1, hbr1, hc1⟩ :=
        decAndMerge_spec hn c e0 e1 f1 e2 f2 (htl.trans e3) (hbr.trans f3)
          hord (by rw [hcnt, hc]; ring) w0 w1 w2 hw
      simp only [hk, hb, ht1, Option.map_some', mapDelete_mapDelete]
      refine ⟨_, rfl, hw1, ?_, htl1, hbr1, hc1⟩
      rw [hids, List.perm_iff_count] at *
      intro a
      have := hperm a
      simp only [tree.ids_node, List.count_append, List.count_cons] at this ⊢
      omega

/-! ## The geometric predicates and `find` -/

theorem axis_reject_eq_false_iff (v a b : ℚ) :
    (if a < b then decide (v < a ∨ v ≥ b) else decide (v < a ∧ v ≥ b)) = false ↔
      axisWithin v a b := by
  unfold axisWithin
  by_cases h : a < b
  · simp only [h, if_true, decide_eq_false_iff_not, not_or, not_lt, ge_iff_le, true_and,
      not_le]
    constructor
    · intro h2; exact Or.inl h2
    · rintro (h2 | h2)
      · exact h2
      · exact absurd h2.1 (not_le.2 h)
  · simp only [h, if_false, decide_eq_false_iff_not, not_and, not_lt, ge_iff_le, not_le,
      false_and, false_or]
    have hba : b ≤ a := not_lt.1 h
    constructor
    · intro h2
      refine ⟨hba, ?_⟩
      by_cases hv : a ≤ v
      · exact Or.inl hv
      · exact Or.inr (h2 (not_le.1 hv))
    · rintro ⟨-, h2 | h2⟩ h3
      · exact absurd h3 (not_lt.2 h2)
      · exact h2

theorem isWithin_iff (loc tl br : Vector) :
    isWithin loc tl br = true ↔
      axisWithin loc.X tl.X br.X ∧ axisWithin loc.Y tl.Y br.Y := by
  rw [← axis_reject_eq_false_iff, ← axis_reject_eq_false_iff]
  unfold isWithin
  generalize (if tl.X < br.X then decide (loc.X < tl.X ∨ loc.X ≥ br.X)
    else decide (loc.X < tl.X ∧ loc.X ≥ br.X)) = c1
  generalize (if tl.Y < br.Y then decide (loc.Y < tl.Y ∨ loc.Y ≥ br.Y)
    else decide (loc.Y < tl.Y ∧ loc.Y ≥ br.Y)) = c2
  cases c1 <;> cases c2 <;> simp

theorem axis_separate_eq_false_iff (qa qb a b : ℚ) :
    (if qa < qb then decide (qa ≥ b ∨ qb ≤ a) else decide (qa ≥ b ∧ qb ≤ a)) = false ↔
      axisOverlap qa qb a b := by
  unfold axisOverlap
  by_cases h : qa < qb
  · simp only [h, if_true, decide_eq_false_iff_not, not_or, not_le, ge_iff_le, true_and]
    constructor
    · intro h2; exact Or.inl h2
    · rintro (h2 | h2)
      · exact h2
      · exact absurd h2.1 (not_le.2 h)
  · simp only [h, if_false, decide_eq_false_iff_not, not_and, not_le, ge_iff_le,
      false_and, false_or]
    have hba : qb ≤ qa := not_lt.1 h
    constructor
    · intro h2
      refine ⟨hba, ?_⟩
      by_cases hv : b ≤ qa
      · exact Or.inr (h2 hv)
      · exact Or.inl (not_le.1 hv)
    · rintro ⟨-, h2 | h2⟩ h3
      · exact absurd h3 (not_le.2 h2)
      · exact h2

theorem regionWithin_iff (q1 q2 tl br : Vector) :
    regionWithin q1 q2 tl br = true ↔
      axisOverlap q1.X q2.X tl.X br.X ∧ axisOverlap q1.Y q2.Y tl.Y br.Y := by
  rw [← axis_separate_eq_false_iff, ← axis_separate_eq_false_iff]
  unfold regionWithin
  generalize (if q1.X < q2.X then decide (q1.X ≥ br.X ∨ q2.X ≤ tl.X)
    else decide (q1.X ≥ br.X ∧ q2.X ≤ tl.X)) = c1
  generalize (if q1.Y < q2.Y then decide (q1.Y ≥ br.Y ∨ q2.Y ≤ tl.Y)
    else decide (q1.Y ≥ br.Y ∧ q2.Y ≤ tl.Y)) = c2
  cases c1 <;> cases c2 <;> simp

theorem axisOverlap_of_axisWithin {v qa qb a b : ℚ} (h1 : a ≤ v) (h2 : v < b)
    (hw : axisWithin v qa qb) : axisOverlap qa qb a b := by
  rcases hw with ⟨h, h3, h4⟩ | ⟨h, h3 | h3⟩
  · exact Or.inl ⟨h, lt_of_le_of_lt h3 h2, lt_of_le_of_lt h1 h4⟩
  · exact Or.inr ⟨h, Or.inl (lt_of_le_of_lt h3 h2)⟩
  · exact Or.inr ⟨h, Or.inr (lt_of_le_of_lt h1 h3)⟩

theorem regionWithin_of_isWithin {p q1 q2 tl br : Vector} (hr : inRegion p tl br)
    (hw : isWithin p q1 q2 = true) : regionWithin q1 q2 tl br = true := by
  rw [isWithin_iff] at hw
  rw [regionWithin_iff]
  exact ⟨axisOverlap_of_axisWithin hr.1 hr.2.1 hw.1,
    axisOverlap_of_axisWithin hr.2.2.1 hr.2.2.2 hw.2⟩

theorem findInto_spec {n : Int} {m : LeafMap} {q1 q2 : Vector} {b : tree} (acc : List Nat)
    (w : WF n m b)
    (ih : tree.find m q1 q2 b =
      some (b.ids.filter fun id => isWithin (mapIndex m id) q1 q2)) :
    findInto (fun _ => tree.find m q1 q2 b) q1 q2 (some acc) b =
      some (acc ++ b.ids.filter fun id => isWithin (mapIndex m id) q1 q2) := by
  unfold findInto
  simp only [ih]
  split_ifs with hr
  · rfl
  · have : (b.ids.filter fun id => isWithin (mapIndex m id) q1 q2) = [] := by
      rw [List.filter_eq_nil_iff]
      intro id hid hw
      obtain ⟨p, hp, hreg⟩ := w.mem_inRegion hid
      rw [mapIndex_of_mapGet hp] at hw
      exact hr (regionWithin_of_isWithin hreg hw)
    rw [this, List.append_nil]

theorem find_spec {n : Int} {m : LeafMap} (q1 q2 : Vector) (t : tree) (hwf : WF n m t) :
    tree.find m q1 q2 t = some (t.ids.filter fun id => isWithin (mapIndex m id) q1 q2) := by
  induction t with
  | leaf tl br ls c =>
    have h0 : ¬ c < 0 := by rw [hwf.1]; exact not_lt.2 (Int.natCast_nonneg _)
    simp only [tree.find, if_neg h0, tree.ids_leaf]
  | node tl br ls b0 b1 b2 b3 c ih0 ih1 ih2 ih3 =>
    have h0 : ¬ c < 0 := not_lt.2 hwf.count_nonneg
    obtain ⟨-, -, -, -, -, -, -, -, -, -, -, w0, w1, w2, w3⟩ := hwf
    simp only [tree.find, if_neg h0, tree.ids_node, List.filter_append]
    rw [findInto_spec [] w0 (ih0 w0), findInto_spec _ w1 (ih1 w1),
      findInto_spec _ w2 (ih2 w2), findInto_spec _ w3 (ih3 w3)]
    simp

/-! ## The invariant holds in every reachable state -/

theorem New_eq_some {n : Int} {w h : ℚ} {t : ToroidalQuadtree}
    (hnew : New n w h = some (.index t)) :
    4 ≤ n ∧ t = { nodeLimit := n, leafMap := [], root := .leaf ⟨0, 0⟩ ⟨w, h⟩ [] 0 } := by
  unfold New at hnew
  split_ifs at hnew with hlt hcap
  · exact absurd hnew (by simp)
  · exact ⟨not_lt.1 hlt, (NewReturn.index.inj (Option.some.inj hnew)).symm⟩

theorem Inv_New {n : Int} {w h : ℚ} {t : ToroidalQuadtree}
    (hnew : New n w h = some (.index t)) :
    Inv n w h t := by
  obtain ⟨h4, rfl⟩ := New_eq_some hnew
  exact ⟨rfl, h4, rfl, rfl, ⟨rfl, by simp⟩, by simp, by simp [mapKeys], by simp [mapKeys]⟩

theorem Inv.mem_keys_of_mem_ids {n : Int} {w h : ℚ} {t : ToroidalQuadtree}
    (hinv : Inv n w h t) {id : Nat} (hid : id ∈ t.root.ids) : id ∈ mapKeys t.leafMap := by
  obtain ⟨p, hp, -⟩ := hinv.wf.mem_inRegion hid
  exact (mapGet_isSome_iff _ _).1 ⟨p, hp⟩

theorem Remove_of_not_mem {t : ToroidalQuadtree} {id : Nat} (hid : id ∉ mapKeys t.leafMap) :
    Remove t id = some (t, false) := by
  unfold Remove
  rw [(mapGet_eq_none_iff _ _).2 hid]

theorem Remove_of_mem {n : Int} {w h : ℚ} {t : ToroidalQuadtree} (hinv : Inv n w h t)
    {id : Nat} (hid : id ∈ mapKeys t.leafMap) :
    ∃ t1, Remove t id = some (t1, true) ∧ Inv n w h t1 ∧
      t1.leafMap = mapDelete t.leafMap id ∧ (id :: t1.root.ids).Perm t.root.ids ∧
      t1.root.count = t.root.count - 1 := by
  obtain ⟨p, hp⟩ := (mapGet_isSome_iff _ _).2 hid
  have hn : 0 ≤ t.nodeLimit := by have := hinv.four; rw [hinv.limit]; omega
  have hwf : WF t.nodeLimit t.leafMap t.root := by rw [hinv.limit]; exact hinv.wf
  obtain ⟨r, hr, hw, hperm, htl, hbr, hcnt⟩ := remove_spec hn t.root hwf (hinv.keysIds id hid)
  have hnd : (id :: r.ids).Nodup := hperm.nodup_iff.2 hinv.idsNodup
  have hnotin : id ∉ r.ids := (List.nodup_cons.1 hnd).1
  refine ⟨⟨t.nodeLimit, mapDelete t.leafMap id, r⟩, ?_, ?_, rfl, hperm, hcnt⟩
  · unfold Remove
    simp only [hp, hr, mapDelete_mapDelete]
  · refine ⟨hinv.limit, hinv.four, htl.trans hinv.topLeft, hbr.trans hinv.bottomRight, ?_,
      (List.nodup_cons.1 hnd).2, mapKeys_mapDelete_nodup _ _ hinv.keysNodup, ?_⟩
    · rw [hinv.limit] at hw
      refine hw.congr fun j hj => mapGet_mapDelete_ne _ ?_
      rintro rfl; exact hnotin hj
    · intro j hj
      obtain ⟨hj1, hj2⟩ := (mem_mapKeys_mapDelete _ _ _).1 hj
      have := hperm.mem_iff.2 (hinv.keysIds j hj1)
      rcases List.mem_cons.1 this with e | e
      · exact absurd e hj2
      · exact e

theorem Remove_total {n : Int} {w h : ℚ} {t : ToroidalQuadtree} (hinv : Inv n w h t)
    (id : Nat) : ∃ t1 b, Remove t id = some (t1, b) ∧ Inv n w h t1 ∧
      t1.leafMap = mapDelete t.leafMap id := by
  by_cases hid : id ∈ mapKeys t.leafMap
  · obtain ⟨t1, h1, h2, h3, -, -⟩ := Remove_of_mem hinv hid
    exact ⟨t1, true, h1, h2, h3⟩
  · exact ⟨t, false, Remove_of_not_mem hid, hinv, (mapDelete_of_not_mem _ hid).symm⟩

theorem Put_of_outOfBounds {n : Int} {w h : ℚ} {t : ToroidalQuadtree} (hinv : Inv n w h t)
    (id : Nat) {p : Vector} (hp : outOfBounds w h p) : Put t id p = some (t, false) := by
  unfold Put
  rw [hinv.bottomRight]
  exact if_pos hp

theorem Put_of_inBounds {n : Int} {w h : ℚ} {t : ToroidalQuadtree} (hinv : Inv n w h t)
    (id : Nat) {p : Vector} (hp : ¬ outOfBounds w h p) :
    ∃ t1, Put t id p = some (t1, true) ∧ Inv n w h t1 ∧
      t1.leafMap = mapSet t.leafMap id p ∧
      ∃ t0 b, Remove t id = some (t0, b) ∧ Inv n w h t0 ∧
        t1.root.ids.Perm (id :: t0.root.ids) ∧ t1.root.count = t0.root.count + 1 ∧
        tree.put n (mapSet t.leafMap id p) t0.root id p = some t1.root := by
  obtain ⟨t0, b, hrem, hinv0, hmap0⟩ := Remove_total hinv id
  have hpre : removeIfPresent t id = some t0 := by
    unfold removeIfPresent
    cases hg : mapGet t.leafMap id with
    | none =>
      have hid := (mapGet_eq_none_iff _ _).1 hg
      rw [Remove_of_not_mem hid] at hrem
      simp only [Option.some.injEq, Prod.mk.injEq] at hrem
      rw [hrem.1]
    | some q => simp [hrem]
  have hnotkey : id ∉ mapKeys t0.leafMap := by
    rw [hmap0, ← mapGet_eq_none_iff]; exact mapGet_mapDelete_self _ _
  have hnotin : id ∉ t0.root.ids := fun hmem => hnotkey (hinv0.mem_keys_of_mem_ids hmem)
  have hset : mapSet t0.leafMap id p = mapSet t.leafMap id p := by
    rw [hmap0]; unfold mapSet; rw [mapDelete_mapDelete]
  have hn : 0 ≤ t0.nodeLimit := by have := hinv0.four; rw [hinv0.limit]; omega
  have hwf : WF t0.nodeLimit (mapSet t0.leafMap id p) t0.root := by
    rw [hinv0.limit]
    refine hinv0.wf.congr fun j hj => mapGet_mapSet_ne _ _ ?_
    rintro rfl; exact hnotin hj
  have hreg : inRegion p t0.root.topLeft t0.root.bottomRight := by
    rw [hinv0.topLeft, hinv0.bottomRight]
    unfold outOfBounds at hp
    simp only [not_or, not_lt, ge_iff_le, not_le] at hp
    exact ⟨hp.1, hp.2.2.1, hp.2.1, hp.2.2.2⟩
  obtain ⟨r, hr, hw, hperm, htl, hbr, hcnt⟩ :=
    put_spec hn (mapGet_mapSet_self _ id p) t0.root hwf hreg
  have hguard : ¬ (p.X < 0 ∨ p.Y < 0 ∨ p.X ≥ t.root.bottomRight.X
      ∨ p.Y ≥ t.root.bottomRight.Y) := by
    rw [hinv.bottomRight]; exact hp
  refine ⟨⟨t0.nodeLimit, mapSet t0.leafMap id p, r⟩, ?_, ?_, hset, t0, b, hrem, hinv0,
    hperm, hcnt, ?_⟩
  · unfold Put
    rw [if_neg hguard, hpre]
    simp only [hr]
  · refine ⟨hinv0.limit, hinv0.four, htl.trans hinv0.topLeft, hbr.trans hinv0.bottomRight,
      ?_, ?_, ?_, ?_⟩
    · rw [hinv0.limit] at hw; exact hw
    · exact hperm.nodup_iff.2 (List.nodup_cons.2 ⟨hnotin, hinv0.idsNodup⟩)
    · show (mapKeys (mapSet t0.leafMap id p)).Nodup
      rw [mapKeys_mapSet, mapDelete_of_not_mem _ hnotkey]
      exact List.nodup_cons.2 ⟨hnotkey, hinv0.keysNodup⟩
    · intro j hj
      have hj2 : j ∈ mapKeys (mapSet t0.leafMap id p) := hj
      rw [mapKeys_mapSet, mapDelete_of_not_mem _ hnotkey] at hj2
      refine hperm.mem_iff.2 ?_
      rcases List.mem_cons.1 hj2 with e | e
      · exact List.mem_cons.2 (Or.inl e)
      · exact List.mem_cons_of_mem _ (hinv0.keysIds j e)
  · rw [← hset, ← hinv0.limit]; exact hr

theorem Inv_of_Reachable {n : Int} {w h : ℚ} {t : ToroidalQuadtree}
    (hr : Reachable n w h t) : Inv n w h t := by
  induction hr with
  | new hnew => exact Inv_New hnew
  | @put t t1 id p b _ hput ih =>
    by_cases hp : outOfBounds w h p
    · rw [Put_of_outOfBounds ih id hp] at hput
      simp only [Option.some.injEq, Prod.mk.injEq] at hput
      rw [← hput.1]; exact ih
    · obtain ⟨t2, h2, hinv2, -⟩ := Put_of_inBounds ih id hp
      rw [h2] at hput
      simp only [Option.some.injEq, Prod.mk.injEq] at hput
      rw [← hput.1]; exact hinv2
  | @remove t t1 id b _ hrem ih =>
    obtain ⟨t2, b2, h2, hinv2, -⟩ := Remove_total ih id
    rw [h2] at hrem
    simp only [Option.some.injEq, Prod.mk.injEq] at hrem
    rw [← hrem.1]; exact hinv2

theorem putAll_reachable {n : Int} {w h : ℚ} (ps : List Vector) (id : Nat)
    (t t1 : ToroidalQuadtree) (hr : Reachable n w h t) (hp : putAll ps id t = some t1) :
    Reachable n w h t1 := by
  induction ps generalizing id t with
  | nil =>
    simp only [putAll, Option.some.injEq] at hp
    rw [← hp]; exact hr
  | cons p rest ih =>
    simp only [putAll] at hp
    cases hput : Put t id p with
    | none => rw [hput] at hp; exact absurd hp (by simp)
    | some r =>
      obtain ⟨t2, b⟩ := r
      rw [hput] at hp
      exact ih (id + 1) t2 (Reachable.put hr hput) hp

theorem testIndex_reachable {n : Int} {t : ToroidalQuadtree} (h : testIndex n = some t) :
    Reachable n 6 10 t := by
  unfold testIndex at h
  cases hnew : New n 6 10 with
  | none => rw [hnew] at h; exact absurd h (by simp)
  | some r =>
    cases r with
    | error => rw [hnew] at h; exact absurd h (by simp)
    | index t0 =>
      rw [hnew] at h
      exact putAll_reachable _ _ _ _ (Reachable.new hnew) h

theorem testIndex_four : testIndex 4 = some testState4 := by decide

theorem testState4_reachable : Reachable 4 6 10 testState4 :=
  testIndex_reachable testIndex_four

/-! ## Consequences of the invariant -/

theorem tree.ids_eq_flatten (t : tree) : t.ids = t.leafLists.flatten := by
  induction t with
  | leaf tl br ls c => simp [tree.leafLists]
  | node tl br ls b0 b1 b2 b3 c ih0 ih1 ih2 ih3 =>
    simp [tree.leafLists, ih0, ih1, ih2, ih3]

theorem WF.of_mem_subtrees {n : Int} {m : LeafMap} {t s : tree} (h : WF n m t)
    (hs : s ∈ t.subtrees) : WF n m s := by
  induction t with
  | leaf tl br ls c =>
    simp only [tree.subtrees, List.mem_singleton] at hs
    rw [hs]; exact h
  | node tl br ls b0 b1 b2 b3 c ih0 ih1 ih2 ih3 =>
    simp only [tree.subtrees, List.mem_cons, List.mem_append] at hs
    rcases hs with hs | ((hs | hs) | hs) | hs
    · rw [hs]; exact h
    · exact ih0 h.2.2.2.2.2.2.2.2.2.2.2.1 hs
    · exact ih1 h.2.2.2.2.2.2.2.2.2.2.2.2.1 hs
    · exact ih2 h.2.2.2.2.2.2.2.2.2.2.2.2.2.1 hs
    · exact ih3 h.2.2.2.2.2.2.2.2.2.2.2.2.2.2 hs

theorem Find_of_valid {n : Int} {w h : ℚ} {t : ToroidalQuadtree} (hinv : Inv n w h t)
    {q1 q2 : Vector} (h1 : validCorner w h q1) (h2 : validCorner w h q2) :
    Find t q1 q2 =
      some (t.root.ids.filter fun id => isWithin (mapIndex t.leafMap id) q1 q2) := by
  have g1 : ¬ (q1.X < 0 ∨ q1.Y < 0 ∨ q1.X > t.root.bottomRight.X
      ∨ q1.Y > t.root.bottomRight.Y) := by
    rw [hinv.bottomRight]
    simp only [not_or, not_lt, gt_iff_lt]
    exact ⟨h1.1, h1.2.2.1, h1.2.1, h1.2.2.2⟩
  have g2 : ¬ (q2.X < 0 ∨ q2.Y < 0 ∨ q2.X > t.root.bottomRight.X
      ∨ q2.Y > t.root.bottomRight.Y) := by
    rw [hinv.bottomRight]
    simp only [not_or, not_lt, gt_iff_lt]
    exact ⟨h2.1, h2.2.2.1, h2.2.1, h2.2.2.2⟩
  unfold Find
  rw [if_neg g1, if_neg g2]
  exact find_spec q1 q2 t.root hinv.wf

theorem Inv.ids_perm_keys {n : Int} {w h : ℚ} {t : ToroidalQuadtree} (hinv : Inv n w h t) :
    t.root.ids.Perm (mapKeys t.leafMap) :=
  (List.perm_ext_iff_of_nodup hinv.idsNodup hinv.keysNodup).2
    fun id => ⟨fun hid => hinv.mem_keys_of_mem_ids hid, hinv.keysIds id⟩

theorem inRegion_iff_not_outOfBounds (w h : ℚ) (p : Vector) :
    inRegion p ⟨0, 0⟩ ⟨w, h⟩ ↔ ¬ outOfBounds w h p := by
  unfold inRegion outOfBounds
  simp only [not_or, not_lt, ge_iff_le, not_le]
  constructor
  · rintro ⟨a, b, c, d⟩; exact ⟨a, c, b, d⟩
  · rintro ⟨a, c, b, d⟩; exact ⟨a, b, c, d⟩

/-! ## The claims -/

/-- The subregion queries of `TestAddSomeElements` for the node limits 4, 5, 6 and 7:
each returns the ids the test wants, `{0,1,6}`, `{3,5,6,8}`, `{0,3,7}`, `{2,3,5,7}`. -/
theorem TestAddSomeElements_subregions :
    (∀ n ∈ [(4 : Int), 5, 6],
      testFind n ⟨0, 0⟩ ⟨21 / 10, 31 / 10⟩ = some [0, 1, 6] ∧
      testFind n ⟨9 / 2, 1 / 2⟩ ⟨3 / 2, 13 / 2⟩ = some [6, 8, 3, 5] ∧
      testFind n ⟨9 / 2, 17 / 2⟩ ⟨3 / 2, 3 / 2⟩ = some [0, 3, 7] ∧
      testFind n ⟨7 / 2, 11 / 2⟩ ⟨11 / 2, 3 / 2⟩ = some [2, 3, 5, 7]) ∧
    testFind 7 ⟨0, 0⟩ ⟨21 / 10, 31 / 10⟩ = some [0, 1, 6] ∧
    testFind 7 ⟨9 / 2, 1 / 2⟩ ⟨3 / 2, 13 / 2⟩ = some [3, 6, 8, 5] ∧
    testFind 7 ⟨9 / 2, 17 / 2⟩ ⟨3 / 2, 3 / 2⟩ = some [0, 3, 7] ∧
    testFind 7 ⟨7 / 2, 11 / 2⟩ ⟨11 / 2, 3 / 2⟩ = some [2, 3, 5, 7] := by
  decide!

/-- C2: in every reachable state, `Put` of an in-bounds point returns true, after it `Get`
of the id returns exactly that point and `Get` of every other id is unchanged; `Get` of
an id that is stored neither in the location map nor in the tree returns nothing. -/
theorem Put_then_Get (n : Int) (w h : ℚ) (t : ToroidalQuadtree) (hr : Reachable n w h t)
    (id : Nat) (p : Vector) (hx0 : 0 ≤ p.X) (hxw : p.X < w) (hy0 : 0 ≤ p.Y) (hyh : p.Y < h) :
    (∃ t1, Put t id p = some (t1, true) ∧ Get t1 id = some p ∧
      ∀ j, j ≠ id → Get t1 j = Get t j) ∧
    (∀ j, j ∉ mapKeys t.leafMap → Get t j = none) ∧
    (∀ j, j ∉ t.root.ids → Get t j = none) := by
  have hinv := Inv_of_Reachable hr
  have hp : ¬ outOfBounds w h p :=
    (inRegion_iff_not_outOfBounds w h p).1 ⟨hx0, hxw, hy0, hyh⟩
  obtain ⟨t1, hput, -, hmap, -⟩ := Put_of_inBounds hinv id hp
  refine ⟨⟨t1, hput, ?_, ?_⟩, ?_, ?_⟩
  · unfold Get; rw [hmap]; exact mapGet_mapSet_self _ _ _
  · intro j hj; unfold Get; rw [hmap]; exact mapGet_mapSet_ne _ _ hj
  · intro j hj; exact (mapGet_eq_none_iff _ _).2 hj
  · intro j hj
    exact (mapGet_eq_none_iff _ _).2 fun hk => hj (hinv.keysIds j hk)

/-- In the state of `TestAddSomeElements`, moving id 3 to `(2,2)` succeeds and `Get`
then returns `(2,2)`; id 1000 was never added and `Get` returns nothing for it. -/
theorem Put_then_Get_witness :
    (∃ t1, Put testState4 3 ⟨2, 2⟩ = some (t1, true) ∧ Get t1 3 = some ⟨2, 2⟩ ∧
      ∀ j, j ≠ 3 → Get t1 j = Get testState4 j) ∧
    Get testState4 1000 = none :=
  ⟨(Put_then_Get 4 6 10 testState4 testState4_reachable 3 ⟨2, 2⟩ (by norm_num)
      (by norm_num) (by norm_num) (by norm_num)).1,
    (Put_then_Get 4 6 10 testState4 testState4_reachable 3 ⟨2, 2⟩ (by norm_num)
      (by norm_num) (by norm_num) (by norm_num)).2.1 1000 (by decide)⟩

/-- C3: in every reachable state `Put` returns, it returns false exactly when the point
is out of bounds (`p.X < 0`, `p.Y < 0`, `p.X ≥ width` or `p.Y ≥ height`), and in that
case the state after the call is the state before it: the location map and the tree are
unchanged, so a stored id keeps its coordinate and its place in the tree. -/
theorem Put_false_iff_out_of_bounds (n : Int) (w h : ℚ) (t : ToroidalQuadtree)
    (hr : Reachable n w h t) (id : Nat) (p : Vector) :
    ∃ t1 b, Put t id p = some (t1, b) ∧
      (b = false ↔ (p.X < 0 ∨ p.Y < 0 ∨ p.X ≥ w ∨ p.Y ≥ h)) ∧
      (b = false → t1 = t ∧ t1.leafMap = t.leafMap ∧ t1.root = t.root ∧
        ∀ j, Get t1 j = Get t j) := by
  have hinv := Inv_of_Reachable hr
  by_cases hp : outOfBounds w h p
  · exact ⟨t, false, Put_of_outOfBounds hinv id hp, ⟨fun _ => hp, fun _ => rfl⟩,
      fun _ => ⟨rfl, rfl, rfl, fun _ => rfl⟩⟩
  · obtain ⟨t1, hput, -⟩ := Put_of_inBounds hinv id hp
    refine ⟨t1, true, hput, ⟨fun hb => ?_, fun hb => absurd hb hp⟩, fun hb => ?_⟩
    · exact absurd hb (by simp)
    · exact absurd hb (by simp)

/-- In the state of `TestAddSomeElements` (width 6), `Put` of id 3 at `(6,1)` returns
false and leaves the state as it was. -/
theorem Put_false_iff_out_of_bounds_witness :
    ∃ t1 b, Put testState4 3 ⟨6, 1⟩ = some (t1, b) ∧
      (b = false ↔ ((6 : ℚ) < 0 ∨ (1 : ℚ) < 0 ∨ (6 : ℚ) ≥ 6 ∨ (1 : ℚ) ≥ 10)) ∧
      (b = false → t1 = testState4 ∧ t1.leafMap = testState4.leafMap ∧
        t1.root = testState4.root ∧ ∀ j, Get t1 j = Get testState4 j) :=
  Put_false_iff_out_of_bounds 4 6 10 testState4 testState4_reachable 3 ⟨6, 1⟩

/-- C4: in every reachable state `Remove` returns, it returns true exactly when the id
is in the location map; when it returns false the state is unchanged; when it returns
true the location map afterwards is the previous map with only the entry of the id
deleted; and a `Remove` of the same id repeated at once returns false. -/
theorem Remove_true_iff_present (n : Int) (w h : ℚ) (t : ToroidalQuadtree)
    (hr : Reachable n w h t) (id : Nat) :
    ∃ t1 b, Remove t id = some (t1, b) ∧
      (b = true ↔ id ∈ mapKeys t.leafMap) ∧
      (b = false → t1 = t) ∧
      (b = true → t1.leafMap = mapDelete t.leafMap id ∧ Get t1 id = none ∧
        ∀ j, j ≠ id → Get t1 j = Get t j) ∧
      Remove t1 id = some (t1, false) := by
  have hinv := Inv_of_Reachable hr
  by_cases hid : id ∈ mapKeys t.leafMap
  · obtain ⟨t1, hrem, -, hmap, -⟩ := Remove_of_mem hinv hid
    have hgone : id ∉ mapKeys t1.leafMap := by
      rw [hmap, ← mapGet_eq_none_iff]; exact mapGet_mapDelete_self _ _
    refine ⟨t1, true, hrem, ⟨fun _ => hid, fun _ => rfl⟩, fun hb => absurd hb (by simp),
      fun _ => ⟨hmap, ?_, ?_⟩, Remove_of_not_mem hgone⟩
    · unfold Get; rw [hmap]; exact mapGet_mapDelete_self _ _
    · intro j hj; unfold Get; rw [hmap]; exact mapGet_mapDelete_ne _ hj
  · exact ⟨t, false, Remove_of_not_mem hid, ⟨fun hb => absurd hb (by simp),
      fun hk => absurd hk hid⟩, fun _ => rfl, fun hb => absurd hb (by simp),
      Remove_of_not_mem hid⟩

/-- In the state of `TestAddSomeElements`, `Remove` of id 5 behaves as stated. -/
theorem Remove_true_iff_present_witness :
    ∃ t1 b, Remove testState4 5 = some (t1, b) ∧
      (b = true ↔ 5 ∈ mapKeys testState4.leafMap) ∧
      (b = false → t1 = testState4) ∧
      (b = true → t1.leafMap = mapDelete testState4.leafMap 5 ∧ Get t1 5 = none ∧
        ∀ j, j ≠ 5 → Get t1 j = Get testState4 j) ∧
      Remove t1 5 = some (t1, false) :=
  Remove_true_iff_present 4 6 10 testState4 testState4_reachable 5

/-- C7: after every call of `Put` or `Remove` in a run started by `New` (that is, in
every reachable state) the count of the root equals the number of entries of the
location map. -/
theorem root_count_eq_map_size (n : Int) (w h : ℚ) (t : ToroidalQuadtree)
    (hr : Reachable n w h t) : t.root.count = mapLen t.leafMap := by
  have hinv := Inv_of_Reachable hr
  rw [hinv.wf.count_eq, hinv.ids_perm_keys.length_eq]
  simp [mapKeys, mapLen]

/-- In the state of `TestAddSomeElements` the root counts the nine entries of the map. -/
theorem root_count_eq_map_size_witness :
    testState4.root.count = mapLen testState4.leafMap ∧ mapLen testState4.leafMap = 9 :=
  ⟨root_count_eq_map_size 4 6 10 testState4 testState4_reachable, by decide⟩

theorem crowdedState_run :
    putAll crowdedPoints 0 ⟨4, [], .leaf ⟨0, 0⟩ ⟨6, 10⟩ [] 0⟩ = some crowdedState := by
  decide!

theorem crowdedState_reachable : Reachable 4 6 10 crowdedState :=
  putAll_reachable _ _ _ _ (Reachable.new (by decide)) crowdedState_run

/-- C8 fails on the code: after `New(4, 6, 10)` and six calls `Put(i, (1,1))`,
`i = 0, …, 5`, the state is reachable and the last leaf of the tree holds the six ids,
more than `nodeLimit + 1 = 5`; so the bound of C8 does not hold in every reachable
state. -/
theorem leaf_exceeds_limit_plus_one :
    Reachable 4 6 10 crowdedState ∧
    crowdedState.root.leafLists = [[], [], [], [], [], [], [0, 1, 2, 3, 4, 5]] ∧
    ¬ (∀ (n : Int) (w h : ℚ) (t : ToroidalQuadtree), Reachable n w h t →
        ∀ l ∈ t.root.leafLists, (l.length : Int) ≤ n + 1) := by
  refine ⟨crowdedState_reachable, by decide, fun hall => ?_⟩
  have := hall 4 6 10 crowdedState crowdedState_reachable [0, 1, 2, 3, 4, 5] (by decide)
  exact absurd this (by decide)

/-- C9: in every reachable state every internal node of the tree (one with four
branches) has a count of at least `nodeLimit - 1`. -/
theorem internal_count_ge (n : Int) (w h : ℚ) (t : ToroidalQuadtree)
    (hr : Reachable n w h t) (s : tree) (hs : s ∈ t.root.subtrees)
    (hnode : s.isNode = true) : t.nodeLimit - 1 ≤ s.count := by
  have hinv := Inv_of_Reachable hr
  have hw := hinv.wf.of_mem_subtrees hs
  rw [hinv.limit]
  cases s with
  | leaf tl br ls c => simp [tree.isNode] at hnode
  | node tl br ls b0 b1 b2 b3 c => exact hw.2.2.1

/-- In the state of `TestAddSomeElements` the inner node of the south-east quadrant has
count 5, at least `4 - 1`. -/
theorem internal_count_ge_witness :
    testState4.nodeLimit - 1 ≤
      (tree.node ⟨3, 1⟩ ⟨6, 10⟩ []
        (.leaf ⟨3, 1⟩ ⟨5, 3⟩ [2] 1) (.leaf ⟨5, 1⟩ ⟨6, 3⟩ [3] 1)
        (.leaf ⟨3, 3⟩ ⟨5, 10⟩ [4] 1) (.leaf ⟨5, 3⟩ ⟨6, 10⟩ [5, 7] 2) 5).count :=
  internal_count_ge 4 6 10 testState4 testState4_reachable _ (by decide) (by decide)

/-- C10: in every reachable state every id of the location map occurs exactly once in
the id lists of the leaves of the tree, all leaves taken together (so in exactly one
leaf, and once in it), and every id held by a leaf is in the location map. -/
theorem map_and_tree_in_sync (n : Int) (w h : ℚ) (t : ToroidalQuadtree)
    (hr : Reachable n w h t) :
    (∀ id, id ∈ mapKeys t.leafMap → (t.root.leafLists.map (List.count id)).sum = 1) ∧
    (∀ l ∈ t.root.leafLists, ∀ id ∈ l, id ∈ mapKeys t.leafMap) := by
  have hinv := Inv_of_Reachable hr
  constructor
  · intro id hid
    rw [← List.count_flatten, ← tree.ids_eq_flatten]
    exact List.count_eq_one_of_mem hinv.idsNodup (hinv.keysIds id hid)
  · intro l hl id hid
    refine hinv.mem_keys_of_mem_ids ?_
    rw [tree.ids_eq_flatten]
    exact List.mem_flatten.2 ⟨l, hl, hid⟩

/-- In the state of `TestAddSomeElements` the nine ids each occur once in the leaves. -/
theorem map_and_tree_in_sync_witness :
    (∀ id, id ∈ mapKeys testState4.leafMap →
      (testState4.root.leafLists.map (List.count id)).sum = 1) ∧
    (∀ l ∈ testState4.root.leafLists, ∀ id ∈ l, id ∈ mapKeys testState4.leafMap) :=
  map_and_tree_in_sync 4 6 10 testState4 testState4_reachable

/-! ## Routing in `put`, `remove` and `subdivide` -/

theorem put_node_eq (nl : Int) (m : LeafMap) (tl br : Vector) (ls : List Nat)
    (b0 b1 b2 b3 : tree) (c : Int) (id : Nat) (p : Vector) :
    tree.put nl m (.node tl br ls b0 b1 b2 b3 c) id p =
      (tree.put nl m (pick b0 b1 b2 b3 (destRegion p b0.bottomRight)) id p).map
        (withBranch tl br ls b0 b1 b2 b3 (c + 1) (destRegion p b0.bottomRight)) := by
  rcases fin_four_cases (destRegion p b0.bottomRight) with hk | hk | hk | hk <;>
    · simp only [tree.put, hk, pick, withBranch]
      rfl

theorem remove_node_eq (nl : Int) (m : LeafMap) (tl br : Vector)
    (b0 b1 b2 b3 : tree) (c : Int) (id : Nat) :
    tree.remove nl (.node tl br [] b0 b1 b2 b3 c) id m =
      match tree.remove nl
        (pick b0 b1 b2 b3 (destRegion (mapIndex m id) b0.bottomRight)) id m with
      | none => none
      | some (b, m1) =>
        (tree.decAndMerge nl (withBranch tl br [] b0 b1 b2 b3 c
          (destRegion (mapIndex m id) b0.bottomRight) b)).map
          fun t => (t, mapDelete m1 id) := by
  rcases fin_four_cases (destRegion (mapIndex m id) b0.bottomRight) with hk | hk | hk | hk <;>
    · simp only [tree.remove, hk, pick, withBranch, List.length_nil, ne_eq,
        not_true_eq_false, if_false]
      try rfl

/-! ## Regions and split points across single calls -/

theorem decAndMerge_region {nl : Int} {t r : tree} (h : tree.decAndMerge nl t = some r) :
    r.topLeft = t.topLeft ∧ r.bottomRight = t.bottomRight := by
  cases t with
  | leaf tl br ls c =>
    simp only [tree.decAndMerge, Option.some.injEq] at h
    rw [← h]; exact ⟨rfl, rfl⟩
  | node tl br ls b0 b1 b2 b3 c =>
    simp only [tree.decAndMerge] at h
    split_ifs at h with h1 h2
    · rw [← Option.some.inj h]; exact ⟨rfl, rfl⟩
    · rw [← Option.some.inj h]; exact ⟨rfl, rfl⟩

theorem decAndMerge_node_isNode {nl : Int} {tl br : Vector} {ls : List Nat}
    {b0 b1 b2 b3 : tree} {c : Int} {r : tree}
    (h : tree.decAndMerge nl (.node tl br ls b0 b1 b2 b3 c) = some r) :
    (r.isNode = false ↔ c - 1 < nl - 1) ∧
    (¬ c - 1 < nl - 1 → r = .node tl br ls b0 b1 b2 b3 (c - 1)) := by
  simp only [tree.decAndMerge] at h
  split_ifs at h with h1 h2
  · rw [← Option.some.inj h]
    exact ⟨⟨fun _ => h1, fun _ => rfl⟩, fun hh => absurd h1 hh⟩
  · rw [← Option.some.inj h]
    exact ⟨⟨fun hh => by simp [tree.isNode] at hh, fun hh => absurd hh h1⟩, fun _ => rfl⟩

theorem withBranch_region (tl br : Vector) (ls : List Nat) (b0 b1 b2 b3 : tree) (c : Int)
    (k : Fin 4) (b : tree) :
    (withBranch tl br ls b0 b1 b2 b3 c k b).topLeft = tl ∧
    (withBranch tl br ls b0 b1 b2 b3 c k b).bottomRight = br ∧
    (withBranch tl br ls b0 b1 b2 b3 c k b).isNode = true ∧
    (withBranch tl br ls b0 b1 b2 b3 c k b).count = c := by
  rcases fin_four_cases k with hk | hk | hk | hk <;> subst hk <;>
    exact ⟨rfl, rfl, rfl, rfl⟩

theorem withBranch_split (tl br : Vector) (ls : List Nat) (b0 b1 b2 b3 : tree) (c : Int)
    (k : Fin 4) {b : tree} (hb : b.bottomRight = (pick b0 b1 b2 b3 k).bottomRight) :
    (withBranch tl br ls b0 b1 b2 b3 c k b).split = some b0.bottomRight := by
  rcases fin_four_cases k with hk | hk | hk | hk <;> subst hk
  · show some b.bottomRight = _
    rw [hb]; rfl
  · rfl
  · rfl
  · rfl

theorem withBranch_eq_node (tl br : Vector) (ls : List Nat) (b0 b1 b2 b3 : tree) (c : Int)
    (k : Fin 4) (b : tree) :
    ∃ a0 a1 a2 a3, withBranch tl br ls b0 b1 b2 b3 c k b = .node tl br ls a0 a1 a2 a3 c := by
  rcases fin_four_cases k with hk | hk | hk | hk <;> subst hk
  · exact ⟨b, b1, b2, b3, rfl⟩
  · exact ⟨b0, b, b2, b3, rfl⟩
  · exact ⟨b0, b1, b, b3, rfl⟩
  · exact ⟨b0, b1, b2, b, rfl⟩

theorem remove_region {nl : Int} {t r : tree} {id : Nat} {m m1 : LeafMap}
    (h : tree.remove nl t id m = some (r, m1)) :
    r.topLeft = t.topLeft ∧ r.bottomRight = t.bottomRight := by
  cases t with
  | leaf tl br ls c =>
    simp only [tree.remove] at h
    split_ifs at h with h1
    cases hd : tree.decAndMerge nl (.leaf tl br (removeLeaf ls id) c) with
    | none => simp [hd] at h
    | some r1 =>
      simp only [hd, Option.map_some', Option.some.injEq, Prod.mk.injEq] at h
      rw [← h.1]; simpa using decAndMerge_region hd
  | node tl br ls b0 b1 b2 b3 c =>
    by_cases hls : ls.length ≠ 0
    · simp only [tree.remove, if_pos hls] at h
      cases hd : tree.decAndMerge nl (.node tl br (removeLeaf ls id) b0 b1 b2 b3 c) with
      | none => simp [hd] at h
      | some r1 =>
        simp only [hd, Option.map_some', Option.some.injEq, Prod.mk.injEq] at h
        rw [← h.1]; simpa using decAndMerge_region hd
    · have hnil : ls = [] := List.length_eq_zero.1 (not_not.1 hls)
      subst hnil
      rw [remove_node_eq] at h
      cases hc : tree.remove nl
          (pick b0 b1 b2 b3 (destRegion (mapIndex m id) b0.bottomRight)) id m with
      | none => simp [hc] at h
      | some res =>
        obtain ⟨b, m2⟩ := res
        simp only [hc] at h
        cases hd : tree.decAndMerge nl (withBranch tl br [] b0 b1 b2 b3 c
            (destRegion (mapIndex m id) b0.bottomRight) b) with
        | none => simp [hd] at h
        | some r1 =>
          simp only [hd, Option.map_some', Option.some.injEq, Prod.mk.injEq] at h
          rw [← h.1]
          have := decAndMerge_region hd
          rw [(withBranch_region _ _ _ _ _ _ _ _ _ _).1,
            (withBranch_region _ _ _ _ _ _ _ _ _ _).2.1] at this
          exact this

theorem remove_node_result {nl : Int} {tl br : Vector} {ls : List Nat} {b0 b1 b2 b3 : tree}
    {c : Int} {r : tree} {id : Nat} {m m1 : LeafMap}
    (h : tree.remove nl (.node tl br ls b0 b1 b2 b3 c) id m = some (r, m1)) :
    (r.isNode = false ↔ c - 1 < nl - 1) ∧
    (¬ c - 1 < nl - 1 → r.isNode = true ∧ r.split = some b0.bottomRight) := by
  by_cases hls : ls.length ≠ 0
  · simp only [tree.remove, if_pos hls] at h
    cases hd : tree.decAndMerge nl (.node tl br (removeLeaf ls id) b0 b1 b2 b3 c) with
    | none => simp [hd] at h
    | some r1 =>
      simp only [hd, Option.map_some', Option.some.injEq, Prod.mk.injEq] at h
      rw [← h.1]
      refine ⟨(decAndMerge_node_isNode hd).1, fun hno => ?_⟩
      rw [(decAndMerge_node_isNode hd).2 hno]
      exact ⟨rfl, rfl⟩
  · have hnil : ls = [] := List.length_eq_zero.1 (not_not.1 hls)
    subst hnil
    rw [remove_node_eq] at h
    cases hc : tree.remove nl
        (pick b0 b1 b2 b3 (destRegion (mapIndex m id) b0.bottomRight)) id m with
    | none => simp [hc] at h
    | some res =>
      obtain ⟨b, m2⟩ := res
      simp only [hc] at h
      cases hd : tree.decAndMerge nl (withBranch tl br [] b0 b1 b2 b3 c
          (destRegion (mapIndex m id) b0.bottomRight) b) with
      | none => simp [hd] at h
      | some r1 =>
        simp only [hd, Option.map_some', Option.some.injEq, Prod.mk.injEq] at h
        rw [← h.1]
        obtain ⟨a0, a1, a2, a3, ha⟩ := withBranch_eq_node tl br [] b0 b1 b2 b3 c
          (destRegion (mapIndex m id) b0.bottomRight) b
        have hd2 := hd
        rw [ha] at hd2
        refine ⟨(decAndMerge_node_isNode hd2).1, fun hno => ?_⟩
        rw [(decAndMerge_node_isNode hd2).2 hno]
        have hsplit := withBranch_split tl br [] b0 b1 b2 b3 c
          (destRegion (mapIndex m id) b0.bottomRight) (remove_region hc).2
        rw [ha] at hsplit
        exact ⟨rfl, hsplit⟩

theorem subdivide_eq_some {nl : Int} {m : LeafMap} {tl br : Vector} {ls : List Nat} {c : Int}
    {t1 : tree} (h : tree.subdivide nl m (.leaf tl br ls c) = some t1) :
    ∃ med, medianLocation ls m = some med ∧ 0 ≤ nl ∧ t1 = .node tl br []
      (.leaf tl med (routed m med 0 ls) (routed m med 0 ls).length)
      (.leaf ⟨med.X, tl.Y⟩ ⟨br.X, med.Y⟩ (routed m med 1 ls) (routed m med 1 ls).length)
      (.leaf ⟨tl.X, med.Y⟩ ⟨med.X, br.Y⟩ (routed m med 2 ls) (routed m med 2 ls).length)
      (.leaf med br (routed m med 3 ls) (routed m med 3 ls).length) c := by
  cases hmed : medianLocation ls m with
  | none => simp [tree.subdivide, hmed] at h
  | some med =>
    by_cases hn : nl < 0
    · simp [tree.subdivide, hmed, hn] at h
    · rw [subdivide_leaf_eq (not_lt.1 hn) hmed] at h
      exact ⟨med, rfl, not_lt.1 hn, (Option.some.inj h).symm⟩

theorem put_leaf_result {nl : Int} {m : LeafMap} {tl br : Vector} {ls : List Nat} {c : Int}
    {id : Nat} {p : Vector} {r : tree}
    (h : tree.put nl m (.leaf tl br ls c) id p = some r) :
    (r.isNode = true ↔ ((ls ++ [id]).length : Int) > nl) ∧
    r.topLeft = tl ∧ r.bottomRight = br := by
  simp only [tree.put] at h
  split_ifs at h with hgt
  · cases hs : tree.subdivide nl m (.leaf tl br (ls ++ [id]) c) with
    | none => simp [hs] at h
    | some t1 =>
      obtain ⟨med, -, -, ht1⟩ := subdivide_eq_some hs
      simp only [hs, Option.map_some', Option.some.injEq] at h
      rw [← h, ht1]
      exact ⟨⟨fun _ => hgt, fun _ => rfl⟩, rfl, rfl⟩
  · rw [← Option.some.inj h]
    exact ⟨⟨fun hh => by simp [tree.isNode] at hh, fun hh => absurd hh hgt⟩, rfl, rfl⟩

theorem put_region {nl : Int} {m : LeafMap} {t r : tree} {id : Nat} {p : Vector}
    (h : tree.put nl m t id p = some r) :
    r.topLeft = t.topLeft ∧ r.bottomRight = t.bottomRight := by
  cases t with
  | leaf tl br ls c => exact (put_leaf_result h).2
  | node tl br ls b0 b1 b2 b3 c =>
    rw [put_node_eq] at h
    cases hc : tree.put nl m (pick b0 b1 b2 b3 (destRegion p b0.bottomRight)) id p with
    | none => simp [hc] at h
    | some b =>
      simp only [hc, Option.map_some', Option.some.injEq] at h
      rw [← h]
      exact ⟨(withBranch_region _ _ _ _ _ _ _ _ _ _).1,
        (withBranch_region _ _ _ _ _ _ _ _ _ _).2.1⟩

theorem put_node_result {nl : Int} {m : LeafMap} {tl br : Vector} {ls : List Nat}
    {b0 b1 b2 b3 : tree} {c : Int} {id : Nat} {p : Vector} {r : tree}
    (h : tree.put nl m (.node tl br ls b0 b1 b2 b3 c) id p = some r) :
    r.isNode = true ∧ r.split = some b0.bottomRight := by
  rw [put_node_eq] at h
  cases hc : tree.put nl m (pick b0 b1 b2 b3 (destRegion p b0.bottomRight)) id p with
  | none => simp [hc] at h
  | some b =>
    simp only [hc, Option.map_some', Option.some.injEq] at h
    rw [← h]
    exact ⟨(withBranch_region _ _ _ _ _ _ _ _ _ _).2.2.1,
      withBranch_split _ _ _ _ _ _ _ _ _ (put_region hc).2⟩

theorem Remove_root {t t0 : ToroidalQuadtree} {id : Nat}
    (h : Remove t id = some (t0, true)) :
    ∃ m1, tree.remove t.nodeLimit t.root id t.leafMap = some (t0.root, m1) := by
  unfold Remove at h
  cases hg : mapGet t.leafMap id with
  | none => simp [hg] at h
  | some q =>
    simp only [hg] at h
    cases hrem : tree.remove t.nodeLimit t.root id t.leafMap with
    | none => simp [hrem] at h
    | some res =>
      obtain ⟨r, m1⟩ := res
      simp only [hrem, Option.some.injEq, Prod.mk.injEq, and_true] at h
      rw [← h]
      exact ⟨m1, rfl⟩

theorem Inv.move_keeps_split {n : Int} {w h : ℚ} {t : ToroidalQuadtree} (hinv : Inv n w h t)
    {id : Nat} {p : Vector} (hnode : t.root.isNode = true) (hcnt : t.nodeLimit ≤ t.root.count)
    (hid : id ∈ mapKeys t.leafMap) (hp : inRegion p ⟨0, 0⟩ ⟨w, h⟩) :
    ∃ t1, Put t id p = some (t1, true) ∧ t1.root.isNode = true ∧
      t1.root.split = t.root.split := by
  obtain ⟨t1, hput, -, -, t0, b, hrem, -, -, -, hput0⟩ :=
    Put_of_inBounds hinv id ((inRegion_iff_not_outOfBounds w h p).1 hp)
  obtain ⟨t0b, hremb, -⟩ := Remove_of_mem hinv hid
  rw [hremb] at hrem
  simp only [Option.some.injEq, Prod.mk.injEq] at hrem
  obtain ⟨rfl, rfl⟩ := hrem
  obtain ⟨m1, hroot⟩ := Remove_root hremb
  refine ⟨t1, hput, ?_⟩
  cases hr : t.root with
  | leaf tl br ls c => rw [hr] at hnode; simp [tree.isNode] at hnode
  | node tl br ls b0 b1 b2 b3 c =>
    rw [hr] at hroot hcnt
    simp only [tree.count_node] at hcnt
    have hno : ¬ c - 1 < t.nodeLimit - 1 := by omega
    obtain ⟨hn0, hs0⟩ := (remove_node_result hroot).2 hno
    cases hr0 : t0b.root with
    | leaf tl0 br0 ls0 c0 => rw [hr0] at hn0; simp [tree.isNode] at hn0
    | node tl0 br0 ls0 a0 a1 a2 a3 c0 =>
      rw [hr0] at hput0 hs0
      obtain ⟨hn1, hs1⟩ := put_node_result hput0
      refine ⟨hn1, ?_⟩
      rw [hs1]
      exact hs0

/-! ## The median of a sorted list -/

theorem sortedX_perm (ids : List Nat) (m : LeafMap) :
    (sortedX ids m).Perm (ids.map fun id => (mapIndex m id).X) :=
  List.perm_insertionSort _ _

theorem sortedY_perm (ids : List Nat) (m : LeafMap) :
    (sortedY ids m).Perm (ids.map fun id => (mapIndex m id).Y) :=
  List.perm_insertionSort _ _

theorem sortedX_length (ids : List Nat) (m : LeafMap) : (sortedX ids m).length = ids.length := by
  rw [(sortedX_perm ids m).length_eq, List.length_map]

theorem sortedY_length (ids : List Nat) (m : LeafMap) : (sortedY ids m).length = ids.length := by
  rw [(sortedY_perm ids m).length_eq, List.length_map]

theorem medianLocation_isMedian (ids : List Nat) (m : LeafMap) (hne : ids ≠ []) :
    ∃ med, medianLocation ids m = some med ∧
      isMedianOf (sortedX ids m) med.X ∧ isMedianOf (sortedY ids m) med.Y := by
  have hpos : 0 < ids.length := List.length_pos.2 hne
  have hlx := sortedX_length ids m
  have hly := sortedY_length ids m
  have hmed : medianLocation ids m =
      if ids.length % 2 = 0 then
        match (sortedX ids m)[ids.length / 2]?, (sortedX ids m)[ids.length / 2 - 1]?,
          (sortedY ids m)[ids.length / 2]?, (sortedY ids m)[ids.length / 2 - 1]? with
        | some x1, some x2, some y1, some y2 => some ⟨(x1 + x2) / 2, (y1 + y2) / 2⟩
        | _, _, _, _ => none
      else
        match (sortedX ids m)[ids.length / 2]?, (sortedY ids m)[ids.length / 2]? with
        | some x, some y => some ⟨x, y⟩
        | _, _ => none := rfl
  rw [hmed]
  by_cases hpar : ids.length % 2 = 0
  · have h1 : ids.length / 2 < (sortedX ids m).length := by omega
    have h2 : ids.length / 2 - 1 < (sortedX ids m).length := by omega
    have h3 : ids.length / 2 < (sortedY ids m).length := by omega
    have h4 : ids.length / 2 - 1 < (sortedY ids m).length := by omega
    have e1 := List.getElem?_eq_getElem h1
    have e2 := List.getElem?_eq_getElem h2
    have e3 := List.getElem?_eq_getElem h3
    have e4 := List.getElem?_eq_getElem h4
    simp only [if_pos hpar, e1, e2, e3, e4]
    refine ⟨_, rfl, Or.inr ⟨by omega, _, _, ?_, ?_, rfl⟩, Or.inr ⟨by omega, _, _, ?_, ?_, rfl⟩⟩
    · rw [hlx]; exact e1
    · rw [hlx]; exact e2
    · rw [hly]; exact e3
    · rw [hly]; exact e4
  · have h1 : ids.length / 2 < (sortedX ids m).length := by omega
    have h3 : ids.length / 2 < (sortedY ids m).length := by omega
    have e1 := List.getElem?_eq_getElem h1
    have e3 := List.getElem?_eq_getElem h3
    simp only [if_neg hpar, e1, e3]
    refine ⟨_, rfl, Or.inl ⟨by omega, ?_⟩, Or.inl ⟨by omega, ?_⟩⟩
    · rw [hlx]; exact e1
    · rw [hly]; exact e3

/-! ## The path and the merges of `remove` -/

theorem removePath_node_eq (tl br : Vector) (b0 b1 b2 b3 : tree) (c : Int) (id : Nat)
    (m : LeafMap) :
    tree.removePath (.node tl br [] b0 b1 b2 b3 c) id m =
      .node tl br [] b0 b1 b2 b3 c ::
        tree.removePath (pick b0 b1 b2 b3 (destRegion (mapIndex m id) b0.bottomRight)) id m := by
  rcases fin_four_cases (destRegion (mapIndex m id) b0.bottomRight) with hk | hk | hk | hk <;>
    · simp only [tree.removePath, hk, pick, List.length_nil, ne_eq, not_true_eq_false,
        if_false]

theorem merges_node_eq (nl : Int) (tl br : Vector) (b0 b1 b2 b3 : tree) (c : Int) (id : Nat)
    (m : LeafMap) :
    tree.merges nl (.node tl br [] b0 b1 b2 b3 c) id m =
      tree.merges nl (pick b0 b1 b2 b3 (destRegion (mapIndex m id) b0.bottomRight)) id m ++
        match tree.remove nl
          (pick b0 b1 b2 b3 (destRegion (mapIndex m id) b0.bottomRight)) id m with
        | none => []
        | some (b, _) =>
          if c - 1 < nl - 1 then
            [(.node tl br [] b0 b1 b2 b3 c,
              withBranch tl br [] b0 b1 b2 b3 (c - 1)
                (destRegion (mapIndex m id) b0.bottomRight) b)]
          else [] := by
  rcases fin_four_cases (destRegion (mapIndex m id) b0.bottomRight) with hk | hk | hk | hk <;>
    · simp only [tree.merges, hk, pick, withBranch, List.length_nil, ne_eq,
        not_true_eq_false, if_false]

theorem WF.routed_branch {n : Int} {m : LeafMap} {tl br : Vector} {ls : List Nat}
    {b0 b1 b2 b3 : tree} {c : Int} (h : WF n m (.node tl br ls b0 b1 b2 b3 c)) {id : Nat}
    (hid : id ∈ (tree.node tl br ls b0 b1 b2 b3 c).ids) :
    id ∈ (pick b0 b1 b2 b3 (destRegion (mapIndex m id) b0.bottomRight)).ids ∧
    WF n m (pick b0 b1 b2 b3 (destRegion (mapIndex m id) b0.bottomRight)) := by
  obtain ⟨-, -, -, e0, e1, f1, e2, f2, e3, f3, -, w0, w1, w2, w3⟩ := h
  simp only [tree.ids_node, List.mem_append] at hid
  rcases hid with ((hid | hid) | hid) | hid
  · obtain ⟨p, hp, hr⟩ := w0.mem_inRegion hid
    have hk : destRegion (mapIndex m id) b0.bottomRight = 0 := by
      rw [mapIndex_of_mapGet hp, destRegion_eq_zero_iff]; exact ⟨hr.2.1, hr.2.2.2⟩
    rw [hk]; exact ⟨hid, w0⟩
  · obtain ⟨p, hp, hr⟩ := w1.mem_inRegion hid
    rw [e1, f1] at hr
    have hk : destRegion (mapIndex m id) b0.bottomRight = 1 := by
      rw [mapIndex_of_mapGet hp, destRegion_eq_one_iff]; exact ⟨hr.1, hr.2.2.2⟩
    rw [hk]; exact ⟨hid, w1⟩
  · obtain ⟨p, hp, hr⟩ := w2.mem_inRegion hid
    rw [e2, f2] at hr
    have hk : destRegion (mapIndex m id) b0.bottomRight = 2 := by
      rw [mapIndex_of_mapGet hp, destRegion_eq_two_iff]; exact ⟨hr.2.1, hr.2.2.1⟩
    rw [hk]; exact ⟨hid, w2⟩
  · obtain ⟨p, hp, hr⟩ := w3.mem_inRegion hid
    rw [e3] at hr
    have hk : destRegion (mapIndex m id) b0.bottomRight = 3 := by
      rw [mapIndex_of_mapGet hp, destRegion_eq_three_iff]; exact ⟨hr.1, hr.2.2.1⟩
    rw [hk]; exact ⟨hid, w3⟩

theorem sizeOf_pick_lt (tl br : Vector) (ls : List Nat) (b0 b1 b2 b3 : tree) (c : Int)
    (k : Fin 4) : sizeOf (pick b0 b1 b2 b3 k) < sizeOf (tree.node tl br ls b0 b1 b2 b3 c) := by
  rcases fin_four_cases k with hk | hk | hk | hk <;> subst hk <;>
    simp only [pick, tree.node.sizeOf_spec] <;> omega

theorem removePath_spec {n : Int} {m : LeafMap} {id : Nat} :
    ∀ (t : tree), WF n m t → id ∈ t.ids →
      (∀ s ∈ t.removePath id m, s.leaves = [] → s.isNode = true) ∧
      ∃ s, (t.removePath id m).getLast? = some s ∧ s.isNode = false ∧ id ∈ s.leaves
  | .leaf tl br ls c, _, hid => by
    simp only [tree.ids_leaf] at hid
    refine ⟨?_, .leaf tl br ls c, rfl, rfl, hid⟩
    intro s hs hnil
    simp only [tree.removePath, List.mem_singleton] at hs
    rw [hs] at hnil
    simp only [tree.leaves_leaf] at hnil
    rw [hnil] at hid
    simp at hid
  | .node tl br ls b0 b1 b2 b3 c, hwf, hid => by
    have hls : ls = [] := hwf.1
    subst hls
    obtain ⟨hid2, hw2⟩ := hwf.routed_branch hid
    have _hdec := sizeOf_pick_lt tl br [] b0 b1 b2 b3 c
      (destRegion (mapIndex m id) b0.bottomRight)
    obtain ⟨ih1, s, hs1, hs2, hs3⟩ := removePath_spec
      (pick b0 b1 b2 b3 (destRegion (mapIndex m id) b0.bottomRight)) hw2 hid2
    rw [removePath_node_eq]
    refine ⟨?_, s, ?_, hs2, hs3⟩
    · intro x hx hnil
      rcases List.mem_cons.1 hx with e | e
      · rw [e]; rfl
      · exact ih1 x e hnil
    · cases hp : tree.removePath
          (pick b0 b1 b2 b3 (destRegion (mapIndex m id) b0.bottomRight)) id m with
      | nil => rw [hp] at hs1; simp at hs1
      | cons y ys =>
        rw [hp] at hs1
        rw [List.getLast?_cons_cons]
        exact hs1
termination_by t => sizeOf t

theorem WF.isNode_false_of_count_lt {n : Int} {m : LeafMap} {t : tree} (h : WF n m t)
    (hc : t.count < n - 1) : t.isNode = false := by
  cases t with
  | leaf tl br ls c => rfl
  | node tl br ls b0 b1 b2 b3 c =>
    have := h.2.2.1
    simp only [tree.count_node] at hc
    omega

theorem merge_step {n : Int} {m : LeafMap} (hn : 0 ≤ n) (tl br : Vector) (ls : List Nat)
    {a0 a1 a2 a3 : tree} {c : Int}
    (w0 : WF n m a0) (w1 : WF n m a1) (w2 : WF n m a2) (w3 : WF n m a3)
    (hc : c - 1 = a0.count + a1.count + a2.count + a3.count) (hlt : c - 1 < n - 1) :
    (∀ b ∈ [a0, a1, a2, a3], b.isNode = false) ∧
    ([a0, a1, a2, a3].map tree.leaves).flatten = a0.ids ++ a1.ids ++ a2.ids ++ a3.ids ∧
    tree.decAndMerge n (.node tl br ls a0 a1 a2 a3 c) =
      some (.leaf tl br ([a0, a1, a2, a3].map tree.leaves).flatten (c - 1)) := by
  have n0 := w0.count_nonneg
  have n1 := w1.count_nonneg
  have n2 := w2.count_nonneg
  have n3 := w3.count_nonneg
  have c0 : a0.count < n - 1 := by omega
  have c1 : a1.count < n - 1 := by omega
  have c2 : a2.count < n - 1 := by omega
  have c3 : a3.count < n - 1 := by omega
  refine ⟨?_, ?_, ?_⟩
  · intro b hb
    simp only [List.mem_cons, List.mem_singleton, List.not_mem_nil, or_false] at hb
    rcases hb with hb | hb | hb | hb <;> subst hb
    · exact w0.isNode_false_of_count_lt c0
    · exact w1.isNode_false_of_count_lt c1
    · exact w2.isNode_false_of_count_lt c2
    · exact w3.isNode_false_of_count_lt c3
  · simp [w0.leaves_eq_ids c0, w1.leaves_eq_ids c1, w2.leaves_eq_ids c2,
      w3.leaves_eq_ids c3]
  · simp [tree.decAndMerge, hlt, not_lt.2 hn]

theorem mem_subtrees_self (t : tree) : t ∈ t.subtrees := by
  cases t with
  | leaf tl br ls c => simp [tree.subtrees]
  | node tl br ls b0 b1 b2 b3 c => simp [tree.subtrees]

theorem mem_subtrees_of_pick {tl br : Vector} {ls : List Nat} {b0 b1 b2 b3 : tree} {c : Int}
    {k : Fin 4} {s : tree} (hs : s ∈ (pick b0 b1 b2 b3 k).subtrees) :
    s ∈ (tree.node tl br ls b0 b1 b2 b3 c).subtrees := by
  simp only [tree.subtrees, List.mem_cons, List.mem_append]
  rcases fin_four_cases k with hk | hk | hk | hk <;> subst hk
  · exact Or.inr (Or.inl (Or.inl (Or.inl hs)))
  · exact Or.inr (Or.inl (Or.inl (Or.inr hs)))
  · exact Or.inr (Or.inl (Or.inr hs))
  · exact Or.inr (Or.inr hs)

theorem merges_spec {n : Int} {m : LeafMap} (hn : 0 ≤ n) {id : Nat} :
    ∀ (t : tree), WF n m t → id ∈ t.ids → ∀ pr ∈ tree.merges n t id m,
      pr.1 ∈ t.subtrees ∧ pr.1.isNode = true ∧ pr.2.isNode = true ∧
      pr.2.count = pr.1.count - 1 ∧ pr.2.count < n - 1 ∧
      (∀ b ∈ pr.2.branches, b.isNode = false) ∧
      (id :: (pr.2.branches.map tree.leaves).flatten).Perm pr.1.ids ∧
      tree.remove n pr.1 id m =
        some (.leaf pr.1.topLeft pr.1.bottomRight (pr.2.branches.map tree.leaves).flatten
          pr.2.count, mapDelete m id)
  | .leaf tl br ls c, _, _ => by
    intro pr hpr
    simp [tree.merges] at hpr
  | .node tl br ls b0 b1 b2 b3 c, hwf, hid => by
    have hls : ls = [] := hwf.1
    subst hls
    obtain ⟨hid2, hw2⟩ := hwf.routed_branch hid
    have _hdec := sizeOf_pick_lt tl br [] b0 b1 b2 b3 c
      (destRegion (mapIndex m id) b0.bottomRight)
    have ih := merges_spec hn
      (pick b0 b1 b2 b3 (destRegion (mapIndex m id) b0.bottomRight)) hw2 hid2
    obtain ⟨b, hb, hwb, hperm, -, -, hcnt⟩ := remove_spec hn _ hw2 hid2
    obtain ⟨-, hc, -, -, -, -, -, -, -, -, -, w0, w1, w2, w3⟩ := hwf
    intro pr hpr
    rw [merges_node_eq, hb] at hpr
    rcases List.mem_append.1 hpr with hpr | hpr
    · obtain ⟨h1, h2⟩ := ih pr hpr
      exact ⟨mem_subtrees_of_pick h1, h2⟩
    · simp only at hpr
      split_ifs at hpr with hlt
      · rw [List.mem_singleton] at hpr
        subst hpr
        refine ⟨mem_subtrees_self _, rfl, (withBranch_region _ _ _ _ _ _ _ _ _ _).2.2.1,
          (withBranch_region _ _ _ _ _ _ _ _ _ _).2.2.2, ?_, ?_⟩
        · rw [(withBranch_region _ _ _ _ _ _ _ _ _ _).2.2.2]; exact hlt
        · rw [remove_node_eq, hb]
          simp only [tree.topLeft_node, tree.bottomRight_node, tree.ids_node,
            (withBranch_region _ _ _ _ _ _ _ _ _ _).2.2.2]
          generalize destRegion (mapIndex m id) b0.bottomRight = k at *
          rcases fin_four_cases k with hk | hk | hk | hk <;> subst hk
          · simp only [pick] at hwb hperm hcnt
            obtain ⟨s1, s2, s3⟩ := merge_step hn tl br [] hwb w1 w2 w3
              (show c - 1 = b.count + b1.count + b2.count + b3.count by rw [hcnt, hc]; ring)
              hlt
            refine ⟨s1, ?_, ?_⟩
            · show (id :: ([b, b1, b2, b3].map tree.leaves).flatten).Perm _
              rw [s2, List.perm_iff_count] at *
              intro a
              have := hperm a
              simp only [List.count_append, List.count_cons] at this ⊢
              omega
            · show Option.map _ (tree.decAndMerge n (.node tl br [] b b1 b2 b3 c)) = _
              rw [s3, mapDelete_mapDelete]; rfl
          · simp only [pick] at hwb hperm hcnt
            obtain ⟨s1, s2, s3⟩ := merge_step hn tl br [] w0 hwb w2 w3
              (show c - 1 = b0.count + b.count + b2.count + b3.count by rw [hcnt, hc]; ring)
              hlt
            refine ⟨s1, ?_, ?_⟩
            · show (id :: ([b0, b, b2, b3].map tree.leaves).flatten).Perm _
              rw [s2, List.perm_iff_count] at *
              intro a
              have := hperm a
              simp only [List.count_append, List.count_cons] at this ⊢
              omega
            · show Option.map _ (tree.decAndMerge n (.node tl br [] b0 b b2 b3 c)) = _
              rw [s3, mapDelete_mapDelete]; rfl
          · simp only [pick] at hwb hperm hcnt
            obtain ⟨s1, s2, s3⟩ := merge_step hn tl br [] w0 w1 hwb w3
              (show c - 1 = b0.count + b1.count + b.count + b3.count by rw [hcnt, hc]; ring)
              hlt
            refine ⟨s1, ?_, ?_⟩
            · show (id :: ([b0, b1, b, b3].map tree.leaves).flatten).Perm _
              rw [s2, List.perm_iff_count] at *
              intro a
              have := hperm a
              simp only [List.count_append, List.count_cons] at this ⊢
              omega
            · show Option.map _ (tree.decAndMerge n (.node tl br [] b0 b1 b b3 c)) = _
              rw [s3, mapDelete_mapDelete]; rfl
          · simp only [pick] at hwb hperm hcnt
            obtain ⟨s1, s2, s3⟩ := merge_step hn tl br [] w0 w1 w2 hwb
              (show c - 1 = b0.count + b1.count + b2.count + b.count by rw [hcnt, hc]; ring)
              hlt
            refine ⟨s1, ?_, ?_⟩
            · show (id :: ([b0, b1, b2, b].map tree.leaves).flatten).Perm _
              rw [s2, List.perm_iff_count] at *
              intro a
              have := hperm a
              simp only [List.count_append, List.count_cons] at this ⊢
              omega
            · show Option.map _ (tree.decAndMerge n (.node tl br [] b0 b1 b2 b c)) = _
              rw [s3, mapDelete_mapDelete]; rfl
      · simp at hpr
termination_by t => sizeOf t

theorem removeAll_reachable {n : Int} {w h : ℚ} (ids : List Nat)
    (t t1 : ToroidalQuadtree) (hr : Reachable n w h t) (hp : removeAll ids t = some t1) :
    Reachable n w h t1 := by
  induction ids generalizing t with
  | nil =>
    simp only [removeAll, Option.some.injEq] at hp
    rw [← hp]; exact hr
  | cons id rest ih =>
    simp only [removeAll] at hp
    cases hrem : Remove t id with
    | none => rw [hrem] at hp; exact absurd hp (by simp)
    | some r =>
      obtain ⟨t2, b⟩ := r
      rw [hrem] at hp
      exact ih t2 (Reachable.remove hr hrem) hp

theorem thinnedState_run : removeAll [8, 7, 6, 5] testState4 = some thinnedState := by
  decide

theorem thinnedState_reachable : Reachable 4 6 10 thinnedState :=
  removeAll_reachable _ _ _ testState4_reachable thinnedState_run

theorem ids_sublist_of_mem_subtrees {t s : tree} (hs : s ∈ t.subtrees) :
    s.ids.Sublist t.ids := by
  induction t with
  | leaf tl br ls c =>
    simp only [tree.subtrees, List.mem_singleton] at hs
    rw [hs]
  | node tl br ls b0 b1 b2 b3 c ih0 ih1 ih2 ih3 =>
    simp only [tree.subtrees, List.mem_cons, List.mem_append] at hs
    simp only [tree.ids_node]
    rcases hs with hs | ((hs | hs) | hs) | hs
    · rw [hs]; exact List.Sublist.refl _
    · exact (ih0 hs).trans
        (((List.sublist_append_left _ _).trans (List.sublist_append_left _ _)).trans
          (List.sublist_append_left _ _))
    · exact (ih1 hs).trans
        (((List.sublist_append_right _ _).trans (List.sublist_append_left _ _)).trans
          (List.sublist_append_left _ _))
    · exact (ih2 hs).trans
        ((List.sublist_append_right _ _).trans (List.sublist_append_left _ _))
    · exact (ih3 hs).trans (List.sublist_append_right _ _)

theorem medianLocation_eq_none_iff (ids : List Nat) (m : LeafMap) :
    medianLocation ids m = none ↔ ids = [] := by
  constructor
  · intro h
    by_contra hne
    obtain ⟨med, hmed, -⟩ := medianLocation_isMedian ids m hne
    rw [h] at hmed
    exact absurd hmed (by simp)
  · intro h
    subst h
    rfl

theorem Put_total {n : Int} {w h : ℚ} {t : ToroidalQuadtree} (hinv : Inv n w h t)
    (id : Nat) (p : Vector) : ∃ t1 b, Put t id p = some (t1, b) := by
  by_cases hp : outOfBounds w h p
  · exact ⟨t, false, Put_of_outOfBounds hinv id hp⟩
  · obtain ⟨t1, h1, -⟩ := Put_of_inBounds hinv id hp
    exact ⟨t1, true, h1⟩

/-! ## The claims, continued -/

/-- C11: for every valid query on every reachable state, `Find` returns a list that
contains no id more than once. -/
theorem Find_has_no_duplicates (n : Int) (w h : ℚ) (t : ToroidalQuadtree)
    (hr : Reachable n w h t) (topLeft bottomRight : Vector)
    (h1 : validCorner w h topLeft) (h2 : validCorner w h bottomRight) :
    ∃ r, Find t topLeft bottomRight = some r ∧ r.Nodup :=
  ⟨_, Find_of_valid (Inv_of_Reachable hr) h1 h2, (Inv_of_Reachable hr).idsNodup.filter _⟩

/-- The query `(3.5,5.5)-(5.5,1.5)` of `TestAddSomeElements`, wrapped on y, returns the
four ids 2, 3, 5 and 7 once each. -/
theorem Find_has_no_duplicates_witness :
    Find testState4 ⟨7 / 2, 11 / 2⟩ ⟨11 / 2, 3 / 2⟩ = some [2, 3, 5, 7] ∧
    ∃ r, Find testState4 ⟨7 / 2, 11 / 2⟩ ⟨11 / 2, 3 / 2⟩ = some r ∧ r.Nodup :=
  ⟨by decide!, Find_has_no_duplicates 4 6 10 testState4 testState4_reachable
    ⟨7 / 2, 11 / 2⟩ ⟨11 / 2, 3 / 2⟩ (by norm_num [validCorner]) (by norm_num [validCorner])⟩

/-- C12 fails as stated: `New(1 << 62, 6, 10)` returns neither the error nor an index,
although the node limit is not below 4: `make([]uint64, 0, nodeLimit)` panics, its
capacity of `2 ^ 62` elements of 8 bytes being beyond `maxAlloc`. -/
theorem New_panics_on_a_huge_node_limit :
    ¬ ((2 : Int) ^ 62 < 4) ∧ New (2 ^ 62) 6 10 = none ∧
    New (2 ^ 62) 6 10 ≠ some .error ∧
    ¬ ∃ t, New (2 ^ 62) 6 10 = some (.index t) := by
  have h : New (2 ^ 62) 6 10 = none := by decide
  refine ⟨by decide, h, ?_, ?_⟩
  · rw [h]; exact fun hne => nomatch hne
  · rintro ⟨t, ht⟩
    rw [h] at ht
    exact nomatch ht

/-- C12, amended: `New` returns the error exactly when `nodeLimit < 4`; it panics
exactly when `nodeLimit` is at least 4 and `make` rejects the capacity (`nodeLimit`
elements of 8 bytes take more than `maxAlloc` bytes); for every other `nodeLimit` it
returns an index with an empty location map and a single empty leaf as root, of region
`(0,0)-(width,height)`, for which `Width` and `Height` are `width` and `height`
(exhaustion of memory by a capacity that `make` accepts is not modelled); and in every
state reached by later calls of `Put` and `Remove` (`Find` returns no state) the two
values are still `width` and `height`. -/
theorem New_error_iff_and_dimensions_fixed (n : Int) (w h : ℚ) :
    (New n w h = some .error ↔ n < 4) ∧
    (New n w h = none ↔ 4 ≤ n ∧ maxAlloc < n * 8) ∧
    (4 ≤ n → n * 8 ≤ maxAlloc →
      New n w h = some (.index ⟨n, [], .leaf ⟨0, 0⟩ ⟨w, h⟩ [] 0⟩) ∧
      Width ⟨n, [], .leaf ⟨0, 0⟩ ⟨w, h⟩ [] 0⟩ = w ∧
      Height ⟨n, [], .leaf ⟨0, 0⟩ ⟨w, h⟩ [] 0⟩ = h) ∧
    (∀ t, Reachable n w h t → Width t = w ∧ Height t = h) := by
  refine ⟨?_, ?_, ?_, ?_⟩
  · unfold New
    by_cases hlt : n < 4
    · simp [hlt]
    · by_cases hcap : makePanics n
      · simp [hlt, hcap]
      · simp [hlt, hcap]
  · unfold New
    by_cases hlt : n < 4
    · simp only [if_pos hlt]
      constructor
      · intro hne; exact nomatch hne
      · rintro ⟨h4, -⟩; omega
    · by_cases hcap : makePanics n
      · simp only [if_neg hlt, if_pos hcap, true_iff]
        unfold makePanics at hcap
        exact ⟨not_lt.1 hlt, hcap.resolve_left (by omega)⟩
      · simp only [if_neg hlt, if_neg hcap]
        constructor
        · intro hne; exact nomatch hne
        · rintro ⟨-, hbig⟩
          exact absurd (Or.inr hbig) hcap
  · intro h4 hcap
    refine ⟨?_, rfl, rfl⟩
    have hno : ¬ makePanics n := by
      unfold makePanics
      rintro (hneg | hbig)
      · omega
      · exact absurd hbig (not_lt.2 hcap)
    unfold New
    rw [if_neg (not_lt.2 h4), if_neg hno]
  · intro t hr
    have hinv := Inv_of_Reachable hr
    unfold Width Height
    rw [hinv.bottomRight]
    exact ⟨rfl, rfl⟩

/-- The index of `TestAddSomeElements` is made by `New(4, 6, 10)`; `New(3, 6, 10)` is
an error; after the nine calls of `Put` the width is 6 and the height 10. -/
theorem New_error_iff_and_dimensions_fixed_witness :
    New 3 6 10 = some .error ∧
    New 4 6 10 = some (.index ⟨4, [], .leaf ⟨0, 0⟩ ⟨6, 10⟩ [] 0⟩) ∧
    Width testState4 = 6 ∧ Height testState4 = 10 :=
  ⟨(New_error_iff_and_dimensions_fixed 3 6 10).1.2 (by decide),
    ((New_error_iff_and_dimensions_fixed 4 6 10).2.2.1 (by decide) (by decide)).1,
    (New_error_iff_and_dimensions_fixed 4 6 10).2.2.2 testState4 testState4_reachable⟩

/-- C14: for every query rectangle, ordinary or wrapped on either axis, every node
region and every point that lies in the region (which makes the region ordered,
`topLeft ≤ bottomRight`) and passes `isWithin` for the query, `regionWithin` of the
query and the region is true: the overlap test never prunes a region that holds a
qualifying point. -/
theorem regionWithin_is_conservative (queryTopLeft queryBottomRight regionTopLeft
    regionBottomRight p : Vector)
    (hp : inRegion p regionTopLeft regionBottomRight)
    (hq : isWithin p queryTopLeft queryBottomRight = true) :
    regionWithin queryTopLeft queryBottomRight regionTopLeft regionBottomRight = true :=
  regionWithin_of_isWithin hp hq

/-- The point `(5,1)` lies in the leaf region `(5,1)-(6,3)` of `TestAddSomeElements` and
in the x-wrapped query `(4.5,0.5)-(1.5,6.5)`, which therefore overlaps the region. -/
theorem regionWithin_is_conservative_witness :
    regionWithin ⟨9 / 2, 1 / 2⟩ ⟨3 / 2, 13 / 2⟩ ⟨5, 1⟩ ⟨6, 3⟩ = true :=
  regionWithin_is_conservative ⟨9 / 2, 1 / 2⟩ ⟨3 / 2, 13 / 2⟩ ⟨5, 1⟩ ⟨6, 3⟩ ⟨5, 1⟩
    (by norm_num [inRegion]) (by decide!)

/-- C18: a call of `put` that returns turns a leaf into an internal node exactly when
the number of its ids after the insert exceeds `nodeLimit`; a call of `remove` that
returns turns an internal node into a leaf exactly when its count after the removal is
below `nodeLimit - 1`; consequently, in every reachable state whose root is internal
with count at least `nodeLimit`, a `Put` that moves a stored id to any in-bounds point
returns true and leaves the root internal with the same split point. -/
theorem hysteresis_keeps_the_root_split (n : Int) (w h : ℚ) (t : ToroidalQuadtree)
    (hr : Reachable n w h t) :
    (∀ (nl : Int) (m : LeafMap) (tl br : Vector) (ls : List Nat) (c : Int) (id : Nat)
        (p : Vector) (r : tree),
      tree.put nl m (.leaf tl br ls c) id p = some r →
      (r.isNode = true ↔ ((ls ++ [id]).length : Int) > nl)) ∧
    (∀ (nl : Int) (m m1 : LeafMap) (tl br : Vector) (ls : List Nat) (b0 b1 b2 b3 : tree)
        (c : Int) (id : Nat) (r : tree),
      tree.remove nl (.node tl br ls b0 b1 b2 b3 c) id m = some (r, m1) →
      (r.isNode = false ↔ c - 1 < nl - 1)) ∧
    (∀ (id : Nat) (p : Vector), t.root.isNode = true → t.nodeLimit ≤ t.root.count →
      id ∈ mapKeys t.leafMap → inRegion p ⟨0, 0⟩ ⟨w, h⟩ →
      ∃ t1, Put t id p = some (t1, true) ∧ t1.root.isNode = true ∧
        t1.root.split = t.root.split) :=
  ⟨fun _ _ _ _ _ _ _ _ _ hput => (put_leaf_result hput).1,
    fun _ _ _ _ _ _ _ _ _ _ _ _ _ hrem => (remove_node_result hrem).1,
    fun _ _ hnode hcnt hid hp => (Inv_of_Reachable hr).move_keeps_split hnode hcnt hid hp⟩

/-- In the state of `TestAddSomeElements` the root is internal, split at `(3,1)`, with
count 9 and node limit 4; moving id 0 from `(1,0)` to `(4,4)` keeps the root internal
and split at `(3,1)`. -/
theorem hysteresis_keeps_the_root_split_witness :
    testState4.root.split = some ⟨3, 1⟩ ∧
    ∃ t1, Put testState4 0 ⟨4, 4⟩ = some (t1, true) ∧ t1.root.isNode = true ∧
      t1.root.split = testState4.root.split :=
  ⟨by decide,
    (hysteresis_keeps_the_root_split 4 6 10 testState4 testState4_reachable).2.2 0 ⟨4, 4⟩
      (by decide) (by decide) (by decide) (by norm_num [inRegion])⟩

/-- C15: in every reachable state, for every merge that `remove` of a stored id runs on
an internal node (its count has just dropped below `nodeLimit - 1`), the four branches
of the node are leaves when the merge starts, so the id list the merge builds from them
holds exactly the ids the subtree of the node held before the call minus the removed
id, none lost and none twice, and the node becomes a leaf with that list; the same
holds for the whole tree across `Remove`. -/
theorem merge_folds_four_leaves (n : Int) (w h : ℚ) (t : ToroidalQuadtree)
    (hr : Reachable n w h t) (id : Nat) (hid : id ∈ mapKeys t.leafMap) :
    (∀ pr ∈ tree.merges t.nodeLimit t.root id t.leafMap,
      pr.1 ∈ t.root.subtrees ∧ pr.1.isNode = true ∧ pr.2.isNode = true ∧
      pr.2.count = pr.1.count - 1 ∧ pr.2.count < t.nodeLimit - 1 ∧
      (∀ b ∈ pr.2.branches, b.isNode = false) ∧
      (id :: (pr.2.branches.map tree.leaves).flatten).Perm pr.1.ids ∧
      ((pr.2.branches.map tree.leaves).flatten).Nodup ∧
      tree.remove t.nodeLimit pr.1 id t.leafMap =
        some (.leaf pr.1.topLeft pr.1.bottomRight
          (pr.2.branches.map tree.leaves).flatten pr.2.count, mapDelete t.leafMap id)) ∧
    ∃ t1, Remove t id = some (t1, true) ∧ (id :: t1.root.ids).Perm t.root.ids ∧
      t1.root.ids.Nodup := by
  have hinv := Inv_of_Reachable hr
  have hn : 0 ≤ t.nodeLimit := by have := hinv.four; rw [hinv.limit]; omega
  have hwf : WF t.nodeLimit t.leafMap t.root := by rw [hinv.limit]; exact hinv.wf
  constructor
  · intro pr hpr
    obtain ⟨h1, h2, h3, h4, h5, h6, h7, h8⟩ :=
      merges_spec hn t.root hwf (hinv.keysIds id hid) pr hpr
    refine ⟨h1, h2, h3, h4, h5, h6, h7, ?_, h8⟩
    have hnd : pr.1.ids.Nodup := (ids_sublist_of_mem_subtrees h1).nodup hinv.idsNodup
    exact (List.nodup_cons.1 (h7.nodup_iff.2 hnd)).2
  · obtain ⟨t1, h1, hinv1, -, hperm, -⟩ := Remove_of_mem hinv hid
    exact ⟨t1, h1, hperm, hinv1.idsNodup⟩

/-- After `Remove` of the ids 8, 7, 6 and 5 from the state of `TestAddSomeElements`, the
inner node `(3,1)-(6,10)` holds the ids 2, 3 and 4; `Remove(4)` runs one merge, on that
node, whose four branches are then the leaves `[2]`, `[3]`, `[]`, `[]`. -/
theorem merge_folds_four_leaves_witness :
    tree.merges 4 thinnedState.root 4 thinnedState.leafMap =
      [(.node ⟨3, 1⟩ ⟨6, 10⟩ []
          (.leaf ⟨3, 1⟩ ⟨5, 3⟩ [2] 1) (.leaf ⟨5, 1⟩ ⟨6, 3⟩ [3] 1)
          (.leaf ⟨3, 3⟩ ⟨5, 10⟩ [4] 1) (.leaf ⟨5, 3⟩ ⟨6, 10⟩ [] 0) 3,
        .node ⟨3, 1⟩ ⟨6, 10⟩ []
          (.leaf ⟨3, 1⟩ ⟨5, 3⟩ [2] 1) (.leaf ⟨5, 1⟩ ⟨6, 3⟩ [3] 1)
          (.leaf ⟨3, 3⟩ ⟨5, 10⟩ [] 0) (.leaf ⟨5, 3⟩ ⟨6, 10⟩ [] 0) 2)] ∧
    ∃ t1, Remove thinnedState 4 = some (t1, true) ∧
      (4 :: t1.root.ids).Perm thinnedState.root.ids ∧ t1.root.ids.Nodup :=
  ⟨by decide,
    (merge_folds_four_leaves 4 6 10 thinnedState thinnedState_reachable 4 (by decide)).2⟩

/-- C20: in every reachable state, for every id of the location map, `Remove` of the id
returns (no nil dereference) and so does every `Put` of the id, moving or not (no
failure of the inner `Remove` nor of `medianLocation`, which fails on the empty list
only); on the path `remove` takes, every node with an empty id list has its four
branches, and the path ends in a leaf whose id list contains the id. -/
theorem Remove_of_a_stored_id_never_fails (n : Int) (w h : ℚ) (t : ToroidalQuadtree)
    (hr : Reachable n w h t) (id : Nat) (hid : id ∈ mapKeys t.leafMap) :
    (∃ t1, Remove t id = some (t1, true)) ∧
    (∀ p : Vector, ∃ t1 b, Put t id p = some (t1, b)) ∧
    (∀ s ∈ t.root.removePath id t.leafMap, s.leaves = [] → s.isNode = true) ∧
    (∃ s, (t.root.removePath id t.leafMap).getLast? = some s ∧ s.isNode = false ∧
      id ∈ s.leaves) ∧
    (∀ (ids : List Nat) (m : LeafMap), medianLocation ids m = none ↔ ids = []) := by
  have hinv := Inv_of_Reachable hr
  obtain ⟨t1, h1, -⟩ := Remove_of_mem hinv hid
  obtain ⟨hpath, hlast⟩ := removePath_spec t.root hinv.wf (hinv.keysIds id hid)
  exact ⟨⟨t1, h1⟩, fun p => Put_total hinv id p, hpath, hlast, medianLocation_eq_none_iff⟩

/-- In the state of `TestAddSomeElements`, `Remove(5)` walks from the root through the
inner node `(3,1)-(6,10)` to the leaf `(5,3)-(6,10)`, which holds the ids 5 and 7. -/
theorem Remove_of_a_stored_id_never_fails_witness :
    (testState4.root.removePath 5 testState4.leafMap).getLast? =
      some (.leaf ⟨5, 3⟩ ⟨6, 10⟩ [5, 7] 2) ∧
    (∃ t1, Remove testState4 5 = some (t1, true)) ∧
    (∀ p : Vector, ∃ t1 b, Put testState4 5 p = some (t1, b)) :=
  ⟨by decide,
    (Remove_of_a_stored_id_never_fails 4 6 10 testState4 testState4_reachable 5
      (by decide)).1,
    (Remove_of_a_stored_id_never_fails 4 6 10 testState4 testState4_reachable 5
      (by decide)).2.1⟩

/-! ## The code on binary64 values

The claims of this section fail on runs with a NaN coordinate or with a mean that
overflows; each is evaluated on such a run. Two defects are behind the failures. `Put`
rejects a point by four comparisons that are all false for NaN, so it stores a point
with a NaN coordinate; `isWithin` then passes that point for every rectangle, the
routing `switch` files it in the south-east quadrant, and `sort.Float64s` puts it
first, so that a median and a split point can be NaN. And `medianLocation` adds the
two middle values before it halves the sum, so the mean of two finite values can be
`+Inf`. -/

namespace F64

theorem lt_iff_lt_eq_true (a b : Float64) : a < b ↔ Float64.lt a b = true := Iff.rfl

theorem le_iff_le_eq_true (a b : Float64) : a ≤ b ↔ Float64.le a b = true := Iff.rfl

/-- Two values that are not NaN are comparable: `a < b` fails exactly when `b ≤ a`. -/
theorem not_lt_iff_le_of_not_NaN {a b : Float64} (ha : a.isNaN = false)
    (hb : b.isNaN = false) : ¬ a < b ↔ b ≤ a := by
  cases a <;> cases b <;>
    simp_all [lt_iff_lt_eq_true, le_iff_le_eq_true, Float64.lt, Float64.le, Float64.isNaN]

/-- One axis of `isWithin` on values that are not NaN: the axis does not reject exactly
when the value is in the interval, ordinary or wrapped. -/
theorem axis_passes_iff_of_not_NaN {v a b : Float64} (hv : v.isNaN = false)
    (ha : a.isNaN = false) (hb : b.isNaN = false) :
    (if a < b then decide (v < a ∨ v ≥ b) else decide (v < a ∧ v ≥ b)) = false ↔
      axisWithin v a b := by
  unfold axisWithin
  have h1 := not_lt_iff_le_of_not_NaN hv ha
  have h2 := not_lt_iff_le_of_not_NaN hv hb
  have h3 := not_lt_iff_le_of_not_NaN ha hb
  by_cases hab : a < b
  · have hba : ¬ b ≤ a := fun hle => (h3.2 hle) hab
    simp only [if_pos hab, decide_eq_false_iff_not, not_or, ge_iff_le]
    constructor
    · rintro ⟨x, y⟩
      exact Or.inl ⟨hab, h1.1 x, not_not.1 (fun hn => y (h2.1 hn))⟩
    · rintro (⟨-, x, y⟩ | ⟨x, -⟩)
      · exact ⟨fun hlt => (h1.2 x) hlt, fun hle => (h2.2 hle) y⟩
      · exact absurd x hba
  · have hba : b ≤ a := h3.1 hab
    simp only [if_neg hab, decide_eq_false_iff_not, not_and, ge_iff_le]
    constructor
    · intro x
      by_cases hva : v < a
      · exact Or.inr ⟨hba, Or.inr (not_not.1 fun hn => x hva (h2.1 hn))⟩
      · exact Or.inr ⟨hba, Or.inl (h1.1 hva)⟩
    · rintro (⟨x, -, -⟩ | ⟨-, x | x⟩)
      · exact absurd x hab
      · intro hva; exact absurd hva (h1.2 x)
      · intro _ hle; exact (h2.2 hle) x

/-- On a point and two corners without a NaN coordinate `isWithin` is the interval
test, closed on the left and open on the right, on each axis. -/
theorem isWithin_iff_of_not_NaN (loc topLeft bottomRight : Vector)
    (h1 : loc.X.isNaN = false) (h2 : loc.Y.isNaN = false)
    (h3 : topLeft.X.isNaN = false) (h4 : topLeft.Y.isNaN = false)
    (h5 : bottomRight.X.isNaN = false) (h6 : bottomRight.Y.isNaN = false) :
    isWithin loc topLeft bottomRight = true ↔
      axisWithin loc.X topLeft.X bottomRight.X ∧ axisWithin loc.Y topLeft.Y bottomRight.Y := by
  rw [← axis_passes_iff_of_not_NaN h1 h3 h5, ← axis_passes_iff_of_not_NaN h2 h4 h6]
  unfold isWithin
  cases hx : (if topLeft.X < bottomRight.X
      then decide (loc.X < topLeft.X ∨ loc.X ≥ bottomRight.X)
      else decide (loc.X < topLeft.X ∧ loc.X ≥ bottomRight.X)) <;>
    cases hy : (if topLeft.Y < bottomRight.Y
      then decide (loc.Y < topLeft.Y ∨ loc.Y ≥ bottomRight.Y)
      else decide (loc.Y < topLeft.Y ∧ loc.Y ≥ bottomRight.Y)) <;> simp

/-- The binary64 definitions return what `TestAddSomeElements` wants: for the node
limits 4, 5, 6 and 7 the four subregion queries give the ids `{0,1,6}`, `{3,5,6,8}`,
`{0,3,7}` and `{2,3,5,7}`. -/
theorem TestAddSomeElements_on_float64 :
    (∀ n ∈ [(4 : Int), 5, 6],
      testFind n 0 0 (21 / 10) (31 / 10) = some [0, 1, 6] ∧
      testFind n (9 / 2) (1 / 2) (3 / 2) (13 / 2) = some [6, 8, 3, 5] ∧
      testFind n (9 / 2) (17 / 2) (3 / 2) (3 / 2) = some [0, 3, 7] ∧
      testFind n (7 / 2) (11 / 2) (11 / 2) (3 / 2) = some [2, 3, 5, 7]) ∧
    testFind 7 0 0 (21 / 10) (31 / 10) = some [0, 1, 6] ∧
    testFind 7 (9 / 2) (1 / 2) (3 / 2) (13 / 2) = some [3, 6, 8, 5] ∧
    testFind 7 (9 / 2) (17 / 2) (3 / 2) (3 / 2) = some [0, 3, 7] ∧
    testFind 7 (7 / 2) (11 / 2) (11 / 2) (3 / 2) = some [2, 3, 5, 7] := by
  decide!

/-- C1 fails on the code. After `New(4, 6, 10)`, `Put(0, (NaN,NaN))` and `Put(i, (i,i))`
for `i = 1, …, 4` every call has returned true, the root is split at `(2,2)` and id 0
is filed in the south-east leaf. `Find((0,0),(1.5,1.5))` does not visit that leaf and
returns `[1]`, while the stored ids whose coordinate passes `isWithin` for the query
are 1 and 0. Points without NaN are lost as well: after `New(4, 6, 10)`,
`Put(i, (NaN,5))` for `i = 0, 1, 2`, `Put(3, (2,2))` and `Put(4, (3,3))` the root is
split at `(NaN,5)` with the five ids in the south-east leaf, and `Find((0,0),(4,4))`
returns no id, while the ids 4 and 3, stored at `(3,3)` and `(2,2)`, pass `isWithin`
for the query. -/
theorem Find_omits_a_NaN_point_that_passes_isWithin :
    run 4 6 10 [(0, nanPoint), (1, ⟨1, 1⟩), (2, ⟨2, 2⟩), (3, ⟨3, 3⟩), (4, ⟨4, 4⟩)]
      = some (nanIndex, [true, true, true, true, true]) ∧
    Find nanIndex ⟨0, 0⟩ ⟨.num (3 / 2), .num (3 / 2)⟩ = some [1] ∧
    (mapKeys nanIndex.leafMap).filter
      (fun id => isWithin (mapIndex nanIndex.leafMap id) ⟨0, 0⟩ ⟨.num (3 / 2), .num (3 / 2)⟩)
      = [1, 0] ∧
    run 4 6 10 [(0, ⟨.nan, 5⟩), (1, ⟨.nan, 5⟩), (2, ⟨.nan, 5⟩), (3, ⟨2, 2⟩), (4, ⟨3, 3⟩)]
      = some (hiddenIndex, [true, true, true, true, true]) ∧
    Find hiddenIndex ⟨0, 0⟩ ⟨4, 4⟩ = some [] ∧
    (mapKeys hiddenIndex.leafMap).filter
      (fun id => isWithin (mapIndex hiddenIndex.leafMap id) ⟨0, 0⟩ ⟨4, 4⟩) = [4, 3] := by
  decide!

/-- C5 fails on the code. After `New(4, 6, 10)`, `Put(i, (NaN,5))` for `i = 10, 11, 12`
and `Put(13, (2,2))`, the in-bounds calls `Put(0, (3,3))` and `Put(0, (1,1))` return
true and leave id 0 stored at `(1,1)`, in a leaf behind the split point `(NaN,5)`. The
query `(0,0)-(2,2)` is valid and its rectangle contains `(1,1)`, but `Find` prunes the
south-east branch `(NaN,5)-(6,10)` and returns no id. -/
theorem Find_loses_a_moved_id_behind_a_NaN_split :
    run 4 6 10 [(10, ⟨.nan, 5⟩), (11, ⟨.nan, 5⟩), (12, ⟨.nan, 5⟩), (13, ⟨2, 2⟩),
        (0, ⟨3, 3⟩), (0, ⟨1, 1⟩)]
      = some (movedIndex, [true, true, true, true, true, true]) ∧
    Get movedIndex 0 = some ⟨1, 1⟩ ∧
    isWithin ⟨1, 1⟩ ⟨0, 0⟩ ⟨2, 2⟩ = true ∧
    Find movedIndex ⟨0, 0⟩ ⟨2, 2⟩ = some [] := by
  decide!

/-- C6 fails on the code. `isWithin` is the interval test of the claim whenever no
coordinate of the point and of the two corners is NaN: the region `((0,0),(1,1))`
contains `(0,0)` and not `(1,1)`. But it returns true for the point `(NaN,NaN)` and the
rectangle `(1,1)-(2,2)`, and for the point `(3,3)` and the corners `(NaN,NaN)`, `(2,2)`,
where the condition of the claim is false on both axes; after `New(4, 6, 10)` and
`Put(0, (NaN,NaN))`, which returns true, `Find((1,1),(2,2))` returns id 0. -/
theorem isWithin_accepts_NaN :
    (∀ loc topLeft bottomRight : Vector,
      loc.X.isNaN = false → loc.Y.isNaN = false →
      topLeft.X.isNaN = false → topLeft.Y.isNaN = false →
      bottomRight.X.isNaN = false → bottomRight.Y.isNaN = false →
      (isWithin loc topLeft bottomRight = true ↔
        axisWithin loc.X topLeft.X bottomRight.X ∧
          axisWithin loc.Y topLeft.Y bottomRight.Y)) ∧
    isWithin ⟨0, 0⟩ ⟨0, 0⟩ ⟨1, 1⟩ = true ∧
    isWithin ⟨1, 1⟩ ⟨0, 0⟩ ⟨1, 1⟩ = false ∧
    isWithin nanPoint ⟨1, 1⟩ ⟨2, 2⟩ = true ∧
    ¬ axisWithin nanPoint.X 1 2 ∧ ¬ axisWithin nanPoint.Y 1 2 ∧
    isWithin ⟨3, 3⟩ nanPoint ⟨2, 2⟩ = true ∧
    ¬ axisWithin 3 nanPoint.X 2 ∧ ¬ axisWithin 3 nanPoint.Y 2 ∧
    run 4 6 10 [(0, nanPoint)] = some (nanLeafIndex, [true]) ∧
    Find nanLeafIndex ⟨1, 1⟩ ⟨2, 2⟩ = some [0] :=
  ⟨isWithin_iff_of_not_NaN, by decide!, by decide!, by decide!, by decide!, by decide!,
    by decide!, by decide!, by decide!, by decide!, by decide!⟩

/-- The two guards of `Find`: a corner with a coordinate that is negative or beyond the
dimension of its axis gives the empty result, whatever the index holds. -/
theorem Find_of_rejected_corner (s : ToroidalQuadtree) (q1 q2 : Vector)
    (h : q1.X < 0 ∨ q1.Y < 0 ∨ q1.X > Width s ∨ q1.Y > Height s ∨
      q2.X < 0 ∨ q2.Y < 0 ∨ q2.X > Width s ∨ q2.Y > Height s) :
    Find s q1 q2 = some [] := by
  unfold Width Height at h
  unfold Find
  by_cases h1 : q1.X < 0 ∨ q1.Y < 0 ∨ q1.X > s.root.bottomRight.X ∨ q1.Y > s.root.bottomRight.Y
  · rw [if_pos h1]
  · rw [if_neg h1]
    have h2 : q2.X < 0 ∨ q2.Y < 0 ∨ q2.X > s.root.bottomRight.X ∨
        q2.Y > s.root.bottomRight.Y := by
      rcases h with h | h | h | h | h
      · exact absurd (Or.inl h) h1
      · exact absurd (Or.inr (Or.inl h)) h1
      · exact absurd (Or.inr (Or.inr (Or.inl h))) h1
      · exact absurd (Or.inr (Or.inr (Or.inr h))) h1
      · exact h
    rw [if_pos h2]

/-- C13 fails on the code. `Find` does return the empty result for a corner with a
coordinate that is negative or beyond the dimension, and it accepts the dimension
itself. But after `New(5, MaxFloat64, MaxFloat64)`, `Put(0, (NaN,NaN))` and
`Put(i, (2^1023, 2^1023))` for `i = 1, …, 5` every call has returned true and the root
is split at `(+Inf,+Inf)`, the mean of `2^1023` and `2^1023`; id 0 is filed in the
south-east leaf `(+Inf,+Inf)-(MaxFloat64,MaxFloat64)`. `Find` accepts the corners
`(0,0)` and `(MaxFloat64,MaxFloat64)`, prunes that leaf and returns the ids 1 to 5:
the stored id 0 is missing. With a negative width the whole-plane query is rejected:
after `New(4, -1, 10)` and `Put(0, (NaN,NaN))`, which returns true,
`Find((0,0),(-1,10))` is empty while id 0 is stored. -/
theorem Find_of_the_whole_plane_omits_a_stored_id :
    (∀ (s : ToroidalQuadtree) (q1 q2 : Vector),
      (q1.X < 0 ∨ q1.Y < 0 ∨ q1.X > Width s ∨ q1.Y > Height s ∨
        q2.X < 0 ∨ q2.Y < 0 ∨ q2.X > Width s ∨ q2.Y > Height s) →
      Find s q1 q2 = some []) ∧
    run 5 .maxFloat64 .maxFloat64
        [(0, nanPoint), (1, ⟨big, big⟩), (2, ⟨big, big⟩), (3, ⟨big, big⟩), (4, ⟨big, big⟩),
         (5, ⟨big, big⟩)]
      = some (prunedIndex, [true, true, true, true, true, true]) ∧
    Find prunedIndex ⟨0, 0⟩ ⟨Width prunedIndex, Height prunedIndex⟩ = some [1, 2, 3, 4, 5] ∧
    Get prunedIndex 0 = some nanPoint ∧
    run 4 (.num (-1)) 10 [(0, nanPoint)] = some (negativeIndex, [true]) ∧
    Find negativeIndex ⟨0, 0⟩ ⟨Width negativeIndex, Height negativeIndex⟩ = some [] ∧
    Get negativeIndex 0 = some nanPoint :=
  ⟨Find_of_rejected_corner, by decide!⟩

/-- C16 fails on the code. After `New(4, 6, 10)`, `Put(i, (NaN,NaN))` for `i = 0, 1, 2`,
`Put(3, (1,1))` and `Put(4, (2,2))` the root is an internal node whose split point, the
median of the five stored points, is `(NaN,NaN)`. The point `(1,1)` lies in the region
of the root and the routing rule sends it to the south-east child, but it lies in the
half-open region of none of the four children. -/
theorem NaN_split_leaves_a_point_in_no_child_region :
    run 4 6 10 [(0, nanPoint), (1, nanPoint), (2, nanPoint), (3, ⟨1, 1⟩), (4, ⟨2, 2⟩)]
      = some (nanSplitIndex, [true, true, true, true, true]) ∧
    nanSplitIndex.root.branches.map (fun b => (b.topLeft, b.bottomRight))
      = [(⟨0, 0⟩, nanPoint), (⟨.nan, 0⟩, ⟨6, .nan⟩), (⟨0, .nan⟩, ⟨.nan, 10⟩),
         (nanPoint, ⟨6, 10⟩)] ∧
    inRegion ⟨1, 1⟩ nanSplitIndex.root.topLeft nanSplitIndex.root.bottomRight ∧
    destRegion ⟨1, 1⟩ nanPoint = 3 ∧
    nanSplitIndex.root.branches.filter
      (fun b => decide (inRegion ⟨1, 1⟩ b.topLeft b.bottomRight)) = [] := by
  decide!

/-- C17 fails on the code. After `New(4, 6, 10)` and `Put(0, (NaN,NaN))`, which returns
true, the root leaf `(0,0)-(6,10)` holds id 0, whose stored coordinate is not in the
region of the leaf. After `New(5, MaxFloat64, MaxFloat64)` and
`Put(i, (2^1023, 2^1023))` for `i = 0, …, 5`, six in-bounds points, the root is split at
`(+Inf,+Inf)`: the region of its north-west child, `(0,0)-(+Inf,+Inf)`, ends beyond
the region of the root, as do the regions of the north-east and south-west children,
and the regions of the three other children, such as `(+Inf,0)-(MaxFloat64,+Inf)`, have
their top left corner beyond their bottom right corner. -/
theorem NaN_leaf_and_overflow_split_break_the_regions :
    run 4 6 10 [(0, nanPoint)] = some (nanLeafIndex, [true]) ∧
    nanLeafIndex.root = .leaf ⟨0, 0⟩ ⟨6, 10⟩ [0] 1 ∧
    mapGet nanLeafIndex.leafMap 0 = some nanPoint ∧
    ¬ inRegion nanPoint ⟨0, 0⟩ ⟨6, 10⟩ ∧
    run 5 .maxFloat64 .maxFloat64
        [(0, ⟨big, big⟩), (1, ⟨big, big⟩), (2, ⟨big, big⟩), (3, ⟨big, big⟩), (4, ⟨big, big⟩),
         (5, ⟨big, big⟩)]
      = some (overflowIndex, [true, true, true, true, true, true]) ∧
    overflowIndex.root.branches.map (fun b => (b.topLeft, b.bottomRight))
      = [(⟨0, 0⟩, ⟨.posInf, .posInf⟩), (⟨.posInf, 0⟩, ⟨.maxFloat64, .posInf⟩),
         (⟨0, .posInf⟩, ⟨.posInf, .maxFloat64⟩), (⟨.posInf, .posInf⟩, maxCorner)] ∧
    overflowIndex.root.branches.map (fun b => decide (regionInside b overflowIndex.root))
      = [false, false, false, true] ∧
    overflowIndex.root.branches.map (fun b => decide (regionOrdered b))
      = [true, false, false, false] := by
  decide!

/-- C19 fails on the code. For six stored points, three at `(2^1023, 2^1023)` and three
at `(1.5 * 2^1023, 1.5 * 2^1023)`, the two middle sorted values are `1.5 * 2^1023` and
`2^1023`; their arithmetic mean `1.25 * 2^1023` is a binary64 value, but
`medianLocation` returns `+Inf` on both axes, the sum having overflowed. All six ids
have a coordinate strictly below the result, more than `6 / 2`, and `subdivide` sends
the six ids to the north-west child. The mean is also rounded: of the neighbours `1`
and `1 + 2^-52` `medianLocation` returns `1`. -/
theorem medianLocation_overflows_to_infinity :
    medianLocation [0, 1, 2, 3, 4, 5] farPoints = some ⟨.posInf, .posInf⟩ ∧
    Float64.sort ([0, 1, 2, 3, 4, 5].map fun id => (mapIndex farPoints id).X)
      = [big, big, big, bigger, bigger, bigger] ∧
    Float64.round64 ((3 * 2 ^ 1022 + 2 ^ 1023) / 2) = .num (5 * 2 ^ 1021) ∧
    ([0, 1, 2, 3, 4, 5].filter
      fun id => decide ((mapIndex farPoints id).X < .posInf)).length = 6 ∧
    run 5 .maxFloat64 .maxFloat64
        [(0, ⟨big, big⟩), (1, ⟨big, big⟩), (2, ⟨big, big⟩), (3, ⟨bigger, bigger⟩),
         (4, ⟨bigger, bigger⟩), (5, ⟨bigger, bigger⟩)]
      = some (farIndex, [true, true, true, true, true, true]) ∧
    farIndex.leafMap = farPoints ∧
    farIndex.root.branches.map tree.leaves = [[0, 1, 2, 3, 4, 5], [], [], []] ∧
    medianLocation [0, 1] nearPoints = some ⟨1, 0⟩ := by
  decide!

end F64

end Toroquatre
